import Mathlib

/-!
Verification of the Dijkstra shortest-path module of `graphrs`
(`src/algorithms/shortest_path/dijkstra.rs`).

The Rust code is shallowly embedded.  `f64` distances become an arbitrary
linear ordered ring `K` — the algorithm only adds, negates, compares and
takes minima of distances, so every theorem proved for all such `K` covers
the rational and real instances; concrete witnesses use `K = ℤ`, where the
kernel can evaluate.  `HashMap`s become association lists whose insert is
`cons` (lookup finds the most recent binding, matching `HashMap::insert`
overwrite semantics), and the `BinaryHeap` becomes a list whose pop
extracts a maximal element under the `FringeNode` ordering (elements
comparing equal are identical records, so which maximal element is removed
is immaterial).

The `Graph` collaborator is not part of the verified source; it is
modelled from the spec's read-only query interface (§6 of the spec).
-/

deriving instance DecidableEq for Except

namespace Graphrs

/-- `ErrorKind`, restricted to the two kinds this module produces. -/
inductive ErrorKind : Type where
  | EdgeWeightNotSpecified : ErrorKind
  | ContradictoryPaths : ErrorKind
deriving DecidableEq

/-- The crate's `Error` struct: a kind and a message. -/
structure Error : Type where
  kind : ErrorKind
  message : String
deriving DecidableEq

/-- `CONTRADICTORY_PATHS_ERROR_MESSAGE` from the source. -/
def contradictoryPathsErrorMessage : String :=
  "Contradictary paths found, do some edges have negative weights?"

/-- `get_contractory_paths_error` from the source. -/
def get_contractory_paths_error : Error :=
  { kind := ErrorKind.ContradictoryPaths, message := contradictoryPathsErrorMessage }

/-- The `EdgeWeightNotSpecified` error built at the top of `dijkstra_multisource`. -/
def edge_weight_not_specified_error : Error :=
  { kind := ErrorKind.EdgeWeightNotSpecified,
    message := "Not all edges in the graph have a weight." }

/-- Modelled from the spec: an edge of the external `Graph` collaborator.
`weight = none` models an edge that carries no explicit weight. -/
structure GEdge (T K : Type) : Type where
  u : T
  v : T
  weight : Option K
deriving DecidableEq

/-- Modelled from the spec: the external `Graph` collaborator, reduced to the
read-only queries the search consumes (§6 of the spec): the node list, the
edge list, directedness and multi-edge permission. -/
structure Graph (T K : Type) : Type where
  nodes : List T
  edges : List (GEdge T K)
  directed : Bool
  multi_edges : Bool
deriving DecidableEq

variable {T K : Type} [LinearOrder T] [LinearOrderedCommRing K]

/-- Modelled from the spec: `allEdgesHaveWeight()` — whether every edge
carries an explicit weight. -/
def edges_have_weight (g : Graph T K) : Bool :=
  g.edges.all (fun e => e.weight.isSome)

/-- Modelled from the spec: the weights of the (u, v) edges.  For an
undirected graph the (v, u) edges are the same edges. -/
def get_edge_weights (g : Graph T K) (u v : T) : List K :=
  (g.edges.filter (fun e =>
    (decide (e.u = u) && decide (e.v = v)) ||
    (!g.directed && decide (e.u = v) && decide (e.v = u)))).filterMap (fun e => e.weight)

/-- `get_cost_single`: the weight of the (u, v) edge of a non-multigraph.
The Rust code unwraps a lookup that its caller guarantees succeeds; the
model returns 0 in the impossible missing case. -/
def get_cost_single (g : Graph T K) (u v : T) : K :=
  (get_edge_weights g u v).headD 0

/-- `get_cost_multi`: the minimum weight over the parallel (u, v) edges. -/
def get_cost_multi (g : Graph T K) (u v : T) : K :=
  match get_edge_weights g u v with
  | [] => 0
  | w :: ws => ws.foldl min w

/-- The `get_cost` closure of `dijkstra_multisource`: constant 1 when the
query is unweighted, otherwise the single- or multi-edge cost. -/
def get_cost (g : Graph T K) (weighted : Bool) (u v : T) : K :=
  match weighted with
  | true => match g.multi_edges with
    | false => get_cost_single g u v
    | true => get_cost_multi g u v
  | false => 1

/-- Append `x` if it is not already present (used to model the uniqueness of
the successor/neighbor node set returned by the graph). -/
def uniqueAppend (acc : List T) (x : T) : List T :=
  if x ∈ acc then acc else acc ++ [x]

/-- `get_successors_or_neighbors`: successors of a node for a directed graph,
neighbors for an undirected one.  Modelled from the spec's
`successors(node)` / `neighbors(node)` queries; each adjacent node is
listed once. -/
def get_successors_or_neighbors (g : Graph T K) (node_name : T) : List T :=
  match g.directed with
  | true => (g.edges.filter (fun e => decide (e.u = node_name))).foldl
      (fun acc e => uniqueAppend acc e.v) []
  | false => g.edges.foldl
      (fun acc e =>
        if e.u = node_name then uniqueAppend acc e.v
        else if e.v = node_name then uniqueAppend acc e.u
        else acc) []

/-- `ShortestPathInfo`: the externally visible result for one target. -/
structure ShortestPathInfo (T K : Type) : Type where
  distance : K
  paths : List (List T)
deriving DecidableEq

/-- `FringeNode`: a heap entry.  `distance` stores the NEGATED real
distance, exactly as the Rust code does. -/
structure FringeNode (T K : Type) : Type where
  node_name : T
  count : ℤ
  distance : K
deriving DecidableEq

/-- The `Ord for FringeNode` implementation: by stored (negated) distance,
then by insertion count, then by node name. -/
def fringeCmp (a b : FringeNode T K) : Ordering :=
  if a.distance < b.distance then Ordering.lt
  else if b.distance < a.distance then Ordering.gt
  else if a.count < b.count then Ordering.lt
  else if b.count < a.count then Ordering.gt
  else if a.node_name < b.node_name then Ordering.lt
  else if b.node_name < a.node_name then Ordering.gt
  else Ordering.eq

/-- `BinaryHeap::pop`: remove and return a greatest element under
`fringeCmp`.  Elements comparing `eq` are identical records, so the choice
among them is immaterial. -/
def popMax : List (FringeNode T K) → Option (FringeNode T K × List (FringeNode T K))
  | [] => none
  | x :: xs =>
    match popMax xs with
    | none => some (x, [])
    | some (m, rest) =>
      if fringeCmp x m = Ordering.lt then some (m, x :: rest) else some (x, xs)

/-- Association-list lookup; `cons` is `HashMap::insert` (the most recent
binding wins). -/
def alookup {α : Type} : List (T × α) → T → Option α
  | [], _ => none
  | (k, v) :: rest, x => if x = k then some v else alookup rest x

/-- The mutable state of one `dijkstra_multisource` run.  `pops` is a ghost
trace recording, in order, each `dist.insert(v, d)` the loop performs. -/
structure DState (T K : Type) : Type where
  paths : List (T × List (List T))
  dist : List (T × K)
  seen : List (T × K)
  fringe : List (FringeNode T K)
  count : ℤ
  pops : List (T × K)
deriving DecidableEq

/-- The cutoff guard `cutoff.is_some() && vu_dist > cutoff.unwrap()`. -/
def cutoff_exceeded : Option K → K → Bool
  | some c, d => decide (c < d)
  | none, _ => false

/-- The "new/improved tentative distance" branch: record the tentative
distance, push a fringe entry (`push_fringe_node` increments the counter
first), clone the paths of `v` (after `entry(v).or_default()`, which
inserts an empty set when `v` has none), append `u` to each and install
them as `u`'s path set. -/
def extendState (u v : T) (vu_dist : K) (st : DState T K) : DState T K :=
  let count' := st.count + 1
  let paths_v := (alookup st.paths v).getD []
  let paths1 := if (alookup st.paths v).isSome then st.paths
                else (v, ([] : List (List T))) :: st.paths
  { st with
    seen := (u, vu_dist) :: st.seen
    count := count'
    fringe := { node_name := u, count := count', distance := -vu_dist } :: st.fringe
    paths := (u, paths_v.map (fun p => p ++ [u])) :: paths1 }

/-- The "equal tentative distance" branch: push another fringe entry and
run `add_u_to_v_paths_and_append_v_paths_to_u_paths`: append `u` to every
path of `v` and APPEND the results to `u`'s existing path set. -/
def mergeState (u v : T) (vu_dist : K) (st : DState T K) : DState T K :=
  let count' := st.count + 1
  let v_paths := ((alookup st.paths v).getD []).map (fun p => p ++ [u])
  let u_paths := (alookup st.paths u).getD []
  { st with
    count := count'
    fringe := { node_name := u, count := count', distance := -vu_dist } :: st.fringe
    paths := (u, u_paths ++ v_paths) :: st.paths }

/-- One neighbor relaxation: the body of the `for node in
get_successors_or_neighbors(..)` loop. -/
def relax (g : Graph T K) (weighted : Bool) (cutoff : Option K) (first_only : Bool)
    (v u : T) (st : DState T K) : Except Error (DState T K) :=
  let cost := get_cost g weighted v u
  let vu_dist := (alookup st.dist v).getD 0 + cost
  if cutoff_exceeded cutoff vu_dist then Except.ok st
  else
    match alookup st.dist u with
    | some u_dist =>
      if vu_dist < u_dist then Except.error get_contractory_paths_error else Except.ok st
    | none =>
      match alookup st.seen u with
      | none => Except.ok (extendState u v vu_dist st)
      | some s =>
        if vu_dist < s then Except.ok (extendState u v vu_dist st)
        else if !first_only && decide (vu_dist = s) then Except.ok (mergeState u v vu_dist st)
        else Except.ok st

/-- Relax every listed neighbor of `v` in order, aborting on error. -/
def expand (g : Graph T K) (weighted : Bool) (cutoff : Option K) (first_only : Bool)
    (v : T) : List T → DState T K → Except Error (DState T K)
  | [], st => Except.ok st
  | u :: us, st =>
    match relax g weighted cutoff first_only v u st with
    | Except.error e => Except.error e
    | Except.ok st' => expand g weighted cutoff first_only v us st'

/-- The `while !fringe.is_empty()` loop, fuel-indexed (`none` = fuel ran
out; the Rust loop always terminates, and every theorem about a completed
run hypothesises a sufficient fuel).  A popped node already in `dist` is a
stale entry and is skipped; otherwise it is finalized, the run stops if it
is the requested target, and its neighbors are relaxed. -/
def runDijkstra (g : Graph T K) (weighted : Bool) (target : Option T) (cutoff : Option K)
    (first_only : Bool) : Nat → DState T K → Option (Except Error (DState T K))
  | 0, st => if st.fringe.isEmpty then some (Except.ok st) else none
  | fuel + 1, st =>
    match popMax st.fringe with
    | none => some (Except.ok st)
    | some (fn, rest) =>
      let d := -fn.distance
      let v := fn.node_name
      let st1 := { st with fringe := rest }
      if (alookup st1.dist v).isSome then
        runDijkstra g weighted target cutoff first_only fuel st1
      else
        let st2 := { st1 with dist := (v, d) :: st1.dist, pops := st1.pops ++ [(v, d)] }
        if target = some v then some (Except.ok st2)
        else
          match expand g weighted cutoff first_only v (get_successors_or_neighbors g v) st2 with
          | Except.error e => some (Except.error e)
          | Except.ok st3 => runDijkstra g weighted target cutoff first_only fuel st3

/-- The seeded initial state: every source enters `paths` with `[[s]]`,
`seen` with 0 and the fringe with count 0 and distance -0. -/
def initState (sources : List T) : DState T K :=
  { paths := sources.map (fun s => (s, [[s]]))
    dist := []
    seen := sources.map (fun s => (s, (0 : K)))
    fringe := sources.map (fun s => { node_name := s, count := 0, distance := -(0 : K) })
    count := 0
    pops := [] }

/-- `dijkstra_multisource`, stopping at the final loop state: the
up-front weight check followed by the seeded search loop. -/
def dijkstra_multisource_st (g : Graph T K) (weighted : Bool) (sources : List T)
    (target : Option T) (cutoff : Option K) (first_only : Bool) (fuel : Nat) :
    Option (Except Error (DState T K)) :=
  if weighted && !edges_have_weight g then some (Except.error edge_weight_not_specified_error)
  else runDijkstra g weighted target cutoff first_only fuel (initState sources)

/-- `get_shortest_path_infos`: zip the finalized distances with the
accumulated path sets (the Rust `unwrap` of a finalized node's paths is
modelled by `getD []`; the invariant proofs show it never fires). -/
def get_shortest_path_infos (dist : List (T × K)) (paths : List (T × List (List T))) :
    List (T × ShortestPathInfo T K) :=
  dist.map (fun kd => (kd.1, { distance := kd.2, paths := (alookup paths kd.1).getD [] }))

/-- `dijkstra_multisource`: the private work-horse. -/
def dijkstra_multisource (g : Graph T K) (weighted : Bool) (sources : List T)
    (target : Option T) (cutoff : Option K) (first_only : Bool) (fuel : Nat) :
    Option (Except Error (List (T × ShortestPathInfo T K))) :=
  (dijkstra_multisource_st g weighted sources target cutoff first_only fuel).map
    (fun r => r.map (fun st => get_shortest_path_infos st.dist st.paths))

/-- `multi_source`: run the search, then filter the result map down to the
requested target when one was given. -/
def multi_source (g : Graph T K) (weighted : Bool) (sources : List T)
    (target : Option T) (cutoff : Option K) (first_only : Bool) (fuel : Nat) :
    Option (Except Error (List (T × ShortestPathInfo T K))) :=
  (dijkstra_multisource g weighted sources target cutoff first_only fuel).map
    (fun r => r.map (fun spis =>
      match target with
      | none => spis
      | some t => spis.filter (fun kv => decide (kv.1 = t))))

/-- `single_source` delegates to `multi_source` with one source. -/
def single_source (g : Graph T K) (weighted : Bool) (source : T) (target : Option T)
    (cutoff : Option K) (first_only : Bool) (fuel : Nat) :
    Option (Except Error (List (T × ShortestPathInfo T K))) :=
  multi_source g weighted [source] target cutoff first_only fuel

/-- `all_pairs` over a node list.  The Rust code `unwrap`s each per-source
result inside the parallel map: an `Err` from any run PANICS instead of
being returned.  The inner `none` models that panic; the outer `none`
models fuel exhaustion of some run. -/
def all_pairs_aux (g : Graph T K) (weighted : Bool) (cutoff : Option K) (first_only : Bool)
    (fuel : Nat) : List T → Option (Option (List (T × List (T × ShortestPathInfo T K))))
  | [] => some (some [])
  | n :: ns =>
    match single_source g weighted n none cutoff first_only fuel with
    | none => none
    | some (Except.error _) => some none
    | some (Except.ok m) =>
      match all_pairs_aux g weighted cutoff first_only fuel ns with
      | none => none
      | some none => some none
      | some (some rest) => some (some ((n, m) :: rest))

/-- `all_pairs`: one independent single-source run per node of the graph. -/
def all_pairs (g : Graph T K) (weighted : Bool) (cutoff : Option K) (first_only : Bool)
    (fuel : Nat) : Option (Option (List (T × List (T × ShortestPathInfo T K)))) :=
  all_pairs_aux g weighted cutoff first_only fuel g.nodes

/-- The cost of a node sequence: the sum of `get_cost` over consecutive
pairs. -/
def listCost (g : Graph T K) (weighted : Bool) : List T → K
  | [] => 0
  | [_] => 0
  | a :: b :: rest => get_cost g weighted a b + listCost g weighted (b :: rest)

/-- A path of the search graph: nonempty, starts at one of the sources,
every consecutive pair is an adjacency listed by
`get_successors_or_neighbors`, and it ends at `t`. -/
def IsPath (g : Graph T K) (sources : List T) (t : T) (p : List T) : Prop :=
  (∃ s ∈ sources, p.head? = some s) ∧ p.getLast? = some t ∧
  List.Chain' (fun x y => y ∈ get_successors_or_neighbors g x) p

/-- The doc example graph scaled by 10 to integer weights:
n1→n2 (10), n2→n1 (20), n1→n3 (30), n2→n3 (11). -/
def exampleGraph : Graph ℕ ℤ :=
  { nodes := [1, 2, 3]
    edges := [⟨1, 2, some 10⟩, ⟨2, 1, some 20⟩, ⟨1, 3, some 30⟩, ⟨2, 3, some 11⟩]
    directed := true
    multi_edges := false }

example :
    (single_source exampleGraph true 1 (some 3) none false 10).map
      (fun r => r.map (fun m => alookup m 3)) =
    some (Except.ok (some ({ distance := 21, paths := [[1, 2, 3]] } : ShortestPathInfo ℕ ℤ))) := by
  decide

example :
    (multi_source exampleGraph true [1, 2] (some 3) none false 10).map
      (fun r => r.map (fun m => alookup m 3)) =
    some (Except.ok (some ({ distance := 11, paths := [[2, 3]] } : ShortestPathInfo ℕ ℤ))) := by
  decide



/-- `push_fringe_node`: increment the counter, then push an entry carrying
the new count and the negated distance (the same push that `extendState`
and `mergeState` perform inline). -/
def push_fringe_node (cf : ℤ × List (FringeNode T K)) (u : T) (vu_dist : K) :
    ℤ × List (FringeNode T K) :=
  (cf.1 + 1, { node_name := u, count := cf.1 + 1, distance := -vu_dist } :: cf.2)

/-- A graph with a negative edge that makes the source-1 run of `all_pairs`
discover a contradictory path: 1→2 (2), 1→3 (3), 3→2 (-2). -/
def contradictionGraph : Graph ℕ ℤ :=
  { nodes := [1, 2, 3]
    edges := [⟨1, 2, some 2⟩, ⟨1, 3, some 3⟩, ⟨3, 2, some (-2)⟩]
    directed := true
    multi_edges := false }

/-- A graph with an edge that carries no explicit weight. -/
def missingWeightGraph : Graph ℕ ℤ :=
  { nodes := [1, 2]
    edges := [⟨1, 2, none⟩]
    directed := true
    multi_edges := false }

/-- A cutoff hides a contradictory candidate: sources 0 and 1, edges
0→2 (-4) and 2→1 (3), cutoff -2.  Expanding the finalized node 2 yields
the candidate -1 < 0 = dist(1), but -1 exceeds the cutoff and is skipped. -/
def cutoffHidesGraph : Graph ℕ ℤ :=
  { nodes := [0, 1, 2]
    edges := [⟨0, 2, some (-4)⟩, ⟨2, 1, some 3⟩]
    directed := true
    multi_edges := false }

/-- A negative edge lets an Ok run finalize distances out of order:
0→1 (5), 0→2 (1), 2→3 (-9) pops 0, 1, -8, 5. -/
def decreasingPopsGraph : Graph ℕ ℤ :=
  { nodes := [0, 1, 2, 3]
    edges := [⟨0, 1, some 5⟩, ⟨0, 2, some 1⟩, ⟨2, 3, some (-9)⟩]
    directed := true
    multi_edges := false }

/-- A zero-weight edge makes the all-tied-paths accumulation incomplete:
0→1 (1), 0→2 (1), 1→2 (0); both [0, 2] and [0, 1, 2] cost 1, but node 2
is finalized before node 1 is expanded, so [0, 1, 2] is dropped. -/
def zeroWeightGraph : Graph ℕ ℤ :=
  { nodes := [0, 1, 2]
    edges := [⟨0, 1, some 1⟩, ⟨0, 2, some 1⟩, ⟨1, 2, some 0⟩]
    directed := true
    multi_edges := false }


/-- A one-node graph without edges (smallest complete run). -/
def trivialGraph : Graph ℕ ℤ :=
  { nodes := [1]
    edges := []
    directed := true
    multi_edges := false }


/-! ### Invariant and specification predicates -/

section InvariantDefs

variable (g : Graph T K) (w : Bool) (S : List T) (c : Option K)

/-- Adjacency as listed by the search loop. -/
def adj (g : Graph T K) (x y : T) : Prop := y ∈ get_successors_or_neighbors g x

/-- The lexicographic key realized by `fringeCmp`. -/
def fringeKey (a : FringeNode T K) : K ×ₗ (ℤ ×ₗ T) :=
  toLex (a.distance, toLex (a.count, a.node_name))

/-- All the relaxations of an already-finalized node `z` have been recorded:
every non-pruned neighbor is finalized no further than the candidate, or
tentatively seen no further than the candidate. -/
def RelaxedAt (st : DState T K) (z : T) (dz : K) : Prop :=
  ∀ y ∈ get_successors_or_neighbors g z,
    cutoff_exceeded c (dz + get_cost g w z y) = false →
    (∃ dy, alookup st.dist y = some dy ∧ dy ≤ dz + get_cost g w z y) ∨
    (alookup st.dist y = none ∧ ∃ sy, alookup st.seen y = some sy ∧ sy ≤ dz + get_cost g w z y)

/-- The basic state invariant of the search loop (everything except the
`RelaxedAt` property, which is momentarily broken between a fresh pop and
the end of the following expansion). -/
structure BInv (st : DState T K) : Prop where
  seen_paths : ∀ u s, alookup st.seen u = some s →
    ∃ ps, alookup st.paths u = some ps ∧ ps ≠ [] ∧
      ∀ p ∈ ps, (∃ a ∈ S, p.head? = some a) ∧ p.getLast? = some u ∧
        List.Chain' (adj g) p ∧ listCost g w p = s
  dist_seen : ∀ u d, alookup st.dist u = some d → alookup st.seen u = some d
  fringe_seen : ∀ e ∈ st.fringe, ∃ s, alookup st.seen e.node_name = some s ∧ s ≤ -e.distance
  tentative_entry : ∀ u s, alookup st.seen u = some s → alookup st.dist u = none →
    ∃ e ∈ st.fringe, e.node_name = u ∧ -e.distance = s
  dist_nodup : (st.dist.map Prod.fst).Nodup
  pops_dist : ∀ pr ∈ st.pops, alookup st.dist pr.1 = some pr.2
  dist_pops : ∀ u d, alookup st.dist u = some d → (u, d) ∈ st.pops
  pops_nodup : (st.pops.map Prod.fst).Nodup
  seen_just : ∀ u s, alookup st.seen u = some s →
    (u ∈ S ∧ s = 0) ∨ ∃ pr ∈ st.pops, u ∈ get_successors_or_neighbors g pr.1 ∧
      s = pr.2 + get_cost g w pr.1 u ∧ cutoff_exceeded c s = false
  fringe_cut : ∀ e ∈ st.fringe, cutoff_exceeded c (-e.distance) = false ∨
    (e.node_name ∈ S ∧ -e.distance = 0)

/-- The full loop-head invariant. -/
structure Inv (st : DState T K) extends BInv g w S c st : Prop where
  relaxed : ∀ z dz, alookup st.dist z = some dz → RelaxedAt g w c st z dz

/-- The two monotonicity facts: every finalized distance is below every
fringe entry, and the pop trace is sorted. -/
structure MInv (st : DState T K) : Prop where
  dist_le_fringe : ∀ x dx, alookup st.dist x = some dx → ∀ e ∈ st.fringe, dx ≤ -e.distance
  pops_sorted : List.Pairwise (· ≤ ·) (st.pops.map Prod.snd)

/-- With strictly positive costs, a source's tentative distance and path
set are never disturbed: every tentative distance is nonnegative, every
source stays at 0 with the single path `[s]`. -/
structure SourceInv (st : DState T K) : Prop where
  seen_nonneg : ∀ u s, alookup st.seen u = some s → 0 ≤ s
  src_seen : ∀ s ∈ S, alookup st.seen s = some 0
  src_paths : ∀ s ∈ S, alookup st.paths s = some [[s]]

/-- Every installed path set is a singleton (the `first_only` invariant). -/
def PInv (st : DState T K) : Prop :=
  ∀ x ps, alookup st.paths x = some ps → ∃ p, ps = [p]

/-- `d` is the minimal cost of a search path from the sources to `x`. -/
def MinD (x : T) (d : K) : Prop :=
  (∃ p, IsPath g S x p ∧ listCost g w p = d) ∧
  ∀ q, IsPath g S x q → d ≤ listCost g w q

/-- The completeness invariant for `first_only = false` runs on strictly
positive costs: finalized distances are true minima, finalized path sets
hold every minimal path, and a tentative node already holds every minimal
candidate extension contributed by a finalized predecessor. -/
structure CInv (st : DState T K) : Prop where
  dist_min : ∀ x dx, alookup st.dist x = some dx → MinD g w S x dx
  dist_complete : ∀ x dx, alookup st.dist x = some dx →
    ∀ q, IsPath g S x q → listCost g w q = dx → q ∈ (alookup st.paths x).getD []
  tent_complete : ∀ u su, alookup st.seen u = some su → alookup st.dist u = none →
    cutoff_exceeded c su = false →
    ∀ z q', IsPath g S z q' → alookup st.dist z = some (listCost g w q') →
    u ∈ get_successors_or_neighbors g z →
    listCost g w q' + get_cost g w z u = su →
    q' ++ [u] ∈ (alookup st.paths u).getD []

/-- The A-B-D / A-C-D diamond of the spec's tied-paths scenario, with
node names 0..3 and unit weights. -/
def diamondGraph : Graph ℕ ℤ :=
  { nodes := [0, 1, 2, 3]
    edges := [⟨0, 1, some 1⟩, ⟨0, 2, some 1⟩, ⟨1, 3, some 1⟩, ⟨2, 3, some 1⟩]
    directed := true
    multi_edges := false }

end InvariantDefs

/-! ### Basic lemmas: association lists, the fringe ordering, `popMax` -/

theorem alookup_nil {α : Type} (x : T) : alookup ([] : List (T × α)) x = none := rfl

theorem alookup_cons {α : Type} (k : T) (v : α) (l : List (T × α)) (x : T) :
    alookup ((k, v) :: l) x = if x = k then some v else alookup l x := rfl

theorem alookup_cons_self {α : Type} (k : T) (v : α) (l : List (T × α)) :
    alookup ((k, v) :: l) k = some v := by simp [alookup_cons]

theorem alookup_cons_ne {α : Type} {k x : T} (v : α) (l : List (T × α)) (h : x ≠ k) :
    alookup ((k, v) :: l) x = alookup l x := by simp [alookup_cons, h]

theorem alookup_isSome_iff_mem_keys {α : Type} (l : List (T × α)) (x : T) :
    (alookup l x).isSome ↔ x ∈ l.map Prod.fst := by
  induction l with
  | nil => simp [alookup]
  | cons hd tl ih =>
    obtain ⟨k, v⟩ := hd
    by_cases hx : x = k
    · subst hx; simp [alookup_cons_self]
    · simp [alookup_cons_ne _ _ hx, ih, hx]

theorem alookup_eq_some_mem {α : Type} {l : List (T × α)} {x : T} {v : α}
    (h : alookup l x = some v) : (x, v) ∈ l := by
  induction l with
  | nil => simp [alookup] at h
  | cons hd tl ih =>
    obtain ⟨k, w⟩ := hd
    by_cases hx : x = k
    · subst hx
      rw [alookup_cons_self] at h
      simp at h
      simp [h]
    · rw [alookup_cons_ne _ _ hx] at h
      exact List.mem_cons_of_mem _ (ih h)


theorem fringeCmp_lt_iff (a b : FringeNode T K) :
    fringeCmp a b = Ordering.lt ↔ fringeKey a < fringeKey b := by
  unfold fringeCmp fringeKey
  rw [Prod.Lex.lt_iff, Prod.Lex.lt_iff]
  dsimp only
  by_cases h1 : a.distance < b.distance
  · simp [h1]
  by_cases h2 : b.distance < a.distance
  · have hne : ¬ a.distance = b.distance := ne_of_gt h2
    simp [h1, h2, hne]
  have hde : a.distance = b.distance := le_antisymm (not_lt.mp h2) (not_lt.mp h1)
  by_cases h3 : a.count < b.count
  · simp [h1, h2, h3, hde]
  by_cases h4 : b.count < a.count
  · have hcne : ¬ a.count = b.count := ne_of_gt h4
    simp [h1, h2, h3, h4, hde, hcne]
  have hce : a.count = b.count := le_antisymm (not_lt.mp h4) (not_lt.mp h3)
  by_cases h5 : a.node_name < b.node_name
  · simp [h1, h2, h3, h4, h5, hde, hce]
  by_cases h6 : b.node_name < a.node_name
  · have hnne : ¬ a.node_name = b.node_name := ne_of_gt h6
    simp [h1, h2, h3, h4, h5, h6, hde, hce, hnne]
  · simp [h1, h2, h3, h4, h5, h6, hde, hce, not_lt.mp h5, not_lt.mp h6]

theorem fringeCmp_not_lt_iff (a b : FringeNode T K) :
    fringeCmp a b ≠ Ordering.lt ↔ fringeKey b ≤ fringeKey a := by
  constructor
  · intro h
    exact not_lt.mp (fun hl => h ((fringeCmp_lt_iff a b).mpr hl))
  · intro h hl
    exact absurd ((fringeCmp_lt_iff a b).mp hl) (not_lt.mpr h)

theorem fringeKey_le_distance {a b : FringeNode T K} (h : fringeKey a ≤ fringeKey b) :
    a.distance ≤ b.distance := by
  unfold fringeKey at h
  rw [Prod.Lex.le_iff] at h
  rcases h with h | ⟨h, _⟩
  · exact h.le
  · exact le_of_eq h

theorem popMax_eq_none_iff (l : List (FringeNode T K)) : popMax l = none ↔ l = [] := by
  cases l with
  | nil => simp [popMax]
  | cons x xs =>
    rw [popMax]
    cases hx : popMax (K := K) xs with
    | none => simp
    | some p =>
      obtain ⟨m', rest'⟩ := p
      by_cases hcmp : fringeCmp x m' = Ordering.lt <;> simp [hcmp]

theorem popMax_perm {l rest : List (FringeNode T K)} {m : FringeNode T K}
    (h : popMax l = some (m, rest)) : l.Perm (m :: rest) := by
  induction l generalizing m rest with
  | nil => simp [popMax] at h
  | cons x xs ih =>
    rw [popMax] at h
    cases hx : popMax (K := K) xs with
    | none =>
      rw [hx] at h
      simp only [Option.some.injEq, Prod.mk.injEq] at h
      obtain ⟨rfl, rfl⟩ := h
      rw [popMax_eq_none_iff] at hx
      subst hx
      exact List.Perm.refl _
    | some p =>
      obtain ⟨m', rest'⟩ := p
      rw [hx] at h
      by_cases hcmp : fringeCmp x m' = Ordering.lt
      · simp only [hcmp, if_pos, Option.some.injEq, Prod.mk.injEq] at h
        obtain ⟨rfl, rfl⟩ := h
        exact ((ih hx).cons x).trans (List.Perm.swap m' x rest')
      · simp only [hcmp, if_neg, if_false, Option.some.injEq, Prod.mk.injEq] at h
        obtain ⟨rfl, rfl⟩ := h
        exact List.Perm.refl _

theorem popMax_mem {l rest : List (FringeNode T K)} {m : FringeNode T K}
    (h : popMax l = some (m, rest)) : m ∈ l :=
  (popMax_perm h).mem_iff.mpr (List.mem_cons_self _ _)

theorem popMax_rest_subset {l rest : List (FringeNode T K)} {m : FringeNode T K}
    (h : popMax l = some (m, rest)) : ∀ e ∈ rest, e ∈ l := by
  intro e he
  exact (popMax_perm h).mem_iff.mpr (List.mem_cons_of_mem _ he)

theorem popMax_isMax {l rest : List (FringeNode T K)} {m : FringeNode T K}
    (h : popMax l = some (m, rest)) : ∀ e ∈ l, fringeKey e ≤ fringeKey m := by
  induction l generalizing m rest with
  | nil => simp [popMax] at h
  | cons x xs ih =>
    rw [popMax] at h
    cases hx : popMax (K := K) xs with
    | none =>
      rw [hx] at h
      simp only [Option.some.injEq, Prod.mk.injEq] at h
      obtain ⟨rfl, rfl⟩ := h
      rw [popMax_eq_none_iff] at hx
      subst hx
      intro e he
      rcases List.mem_cons.mp he with rfl | he
      · exact le_refl _
      · simp at he
    | some p =>
      obtain ⟨m', rest'⟩ := p
      rw [hx] at h
      by_cases hcmp : fringeCmp x m' = Ordering.lt
      · simp only [hcmp, if_pos, Option.some.injEq, Prod.mk.injEq] at h
        obtain ⟨rfl, rfl⟩ := h
        intro e he
        rcases List.mem_cons.mp he with rfl | he
        · exact ((fringeCmp_lt_iff _ _).mp hcmp).le
        · exact ih hx e he
      · simp only [hcmp, if_neg, if_false, Option.some.injEq, Prod.mk.injEq] at h
        obtain ⟨rfl, rfl⟩ := h
        have hle : fringeKey m' ≤ fringeKey x := (fringeCmp_not_lt_iff _ _).mp hcmp
        intro e he
        rcases List.mem_cons.mp he with rfl | he
        · exact le_refl _
        · exact (ih hx e he).trans hle

theorem popMax_min_distance {l rest : List (FringeNode T K)} {m : FringeNode T K}
    (h : popMax l = some (m, rest)) : ∀ e ∈ l, -m.distance ≤ -e.distance := by
  intro e he
  exact neg_le_neg (fringeKey_le_distance (popMax_isMax h e he))


/-! ### Effect lemmas for the state transformers -/

section Effects

variable (g : Graph T K) (w : Bool) (c : Option K) (fo : Bool)

theorem extendState_dist (u v : T) (vu : K) (st : DState T K) :
    (extendState u v vu st).dist = st.dist := rfl

theorem extendState_pops (u v : T) (vu : K) (st : DState T K) :
    (extendState u v vu st).pops = st.pops := rfl

theorem extendState_fringe (u v : T) (vu : K) (st : DState T K) :
    (extendState u v vu st).fringe =
      { node_name := u, count := st.count + 1, distance := -vu } :: st.fringe := rfl

theorem extendState_seen_lookup (u v : T) (vu : K) (st : DState T K) (x : T) :
    alookup (extendState u v vu st).seen x =
      if x = u then some vu else alookup st.seen x := by
  by_cases hx : x = u <;> simp [extendState, alookup_cons, hx]

theorem extendState_paths_lookup (u v : T) (vu : K) (st : DState T K) (x : T) :
    alookup (extendState u v vu st).paths x =
      if x = u then some (((alookup st.paths v).getD []).map (fun p => p ++ [u]))
      else if alookup st.paths v = none ∧ x = v then some [] else alookup st.paths x := by
  by_cases hx : x = u
  · simp [extendState, alookup_cons, hx]
  · cases hv : alookup st.paths v with
    | none =>
      by_cases hxv : x = v
      · subst hxv
        simp [extendState, hv, alookup_cons, hx]
      · simp [extendState, hv, alookup_cons, hx, hxv]
    | some ps =>
      simp [extendState, hv, alookup_cons, hx]

theorem mergeState_dist (u v : T) (vu : K) (st : DState T K) :
    (mergeState u v vu st).dist = st.dist := rfl

theorem mergeState_seen (u v : T) (vu : K) (st : DState T K) :
    (mergeState u v vu st).seen = st.seen := rfl

theorem mergeState_pops (u v : T) (vu : K) (st : DState T K) :
    (mergeState u v vu st).pops = st.pops := rfl

theorem mergeState_fringe (u v : T) (vu : K) (st : DState T K) :
    (mergeState u v vu st).fringe =
      { node_name := u, count := st.count + 1, distance := -vu } :: st.fringe := rfl

theorem mergeState_paths_lookup (u v : T) (vu : K) (st : DState T K) (x : T) :
    alookup (mergeState u v vu st).paths x =
      if x = u then
        some ((alookup st.paths u).getD [] ++
          ((alookup st.paths v).getD []).map (fun p => p ++ [u]))
      else alookup st.paths x := by
  by_cases hx : x = u <;> simp [mergeState, alookup_cons, hx]

/-- Case analysis of a successful `relax`. -/
theorem relax_ok_elim {v u : T} {st st' : DState T K}
    (h : relax g w c fo v u st = Except.ok st') :
    (st' = st ∧
      (cutoff_exceeded c ((alookup st.dist v).getD 0 + get_cost g w v u) = true ∨
       (∃ du, alookup st.dist u = some du ∧
          du ≤ (alookup st.dist v).getD 0 + get_cost g w v u) ∨
       (alookup st.dist u = none ∧ ∃ su, alookup st.seen u = some su ∧
          su ≤ (alookup st.dist v).getD 0 + get_cost g w v u))) ∨
    (cutoff_exceeded c ((alookup st.dist v).getD 0 + get_cost g w v u) = false ∧
     alookup st.dist u = none ∧
     (st' = extendState u v ((alookup st.dist v).getD 0 + get_cost g w v u) st ∧
        (alookup st.seen u = none ∨
         ∃ s, alookup st.seen u = some s ∧ (alookup st.dist v).getD 0 + get_cost g w v u < s) ∨
      st' = mergeState u v ((alookup st.dist v).getD 0 + get_cost g w v u) st ∧
        fo = false ∧ alookup st.seen u = some ((alookup st.dist v).getD 0 + get_cost g w v u))) := by
  unfold relax at h
  by_cases hcut : cutoff_exceeded c ((alookup st.dist v).getD 0 + get_cost g w v u) = true
  · simp only [hcut, if_pos] at h
    left
    refine ⟨?_, Or.inl hcut⟩
    simp only [Except.ok.injEq] at h
    exact h.symm
  · rw [Bool.not_eq_true] at hcut
    simp only [hcut, Bool.false_eq_true, if_false] at h
    cases hdu : alookup st.dist u with
    | some du =>
      rw [hdu] at h
      by_cases hlt : (alookup st.dist v).getD 0 + get_cost g w v u < du
      · simp [hlt] at h
      · simp only [hlt, if_neg, if_false, Except.ok.injEq, not_false_iff] at h
        left
        exact ⟨h.symm, Or.inr (Or.inl ⟨du, rfl, not_lt.mp hlt⟩)⟩
    | none =>
      rw [hdu] at h
      cases hsu : alookup st.seen u with
      | none =>
        rw [hsu] at h
        simp only [Except.ok.injEq] at h
        right
        exact ⟨hcut, rfl, Or.inl ⟨h.symm, Or.inl rfl⟩⟩
      | some su =>
        rw [hsu] at h
        by_cases hlt : (alookup st.dist v).getD 0 + get_cost g w v u < su
        · simp only [hlt, if_pos, Except.ok.injEq] at h
          right
          exact ⟨hcut, rfl, Or.inl ⟨h.symm, Or.inr ⟨su, rfl, hlt⟩⟩⟩
        · simp only [hlt, if_neg, if_false, not_false_iff] at h
          by_cases hmerge : (!fo && decide ((alookup st.dist v).getD 0 + get_cost g w v u = su)) = true
          · simp only [hmerge, if_pos, Except.ok.injEq] at h
            simp only [Bool.and_eq_true, Bool.not_eq_true', decide_eq_true_eq] at hmerge
            right
            exact ⟨hcut, rfl, Or.inr ⟨h.symm, hmerge.1, by rw [hmerge.2]⟩⟩
          · rw [Bool.not_eq_true] at hmerge
            simp only [hmerge, Bool.false_eq_true, if_false, Except.ok.injEq] at h
            left
            exact ⟨h.symm, Or.inr (Or.inr ⟨rfl, su, rfl, not_lt.mp hlt⟩)⟩

/-- A failing `relax` is exactly the contradictory-paths branch. -/
theorem relax_error_elim {v u : T} {st : DState T K} {e : Error}
    (h : relax g w c fo v u st = Except.error e) :
    e = get_contractory_paths_error ∧
    cutoff_exceeded c ((alookup st.dist v).getD 0 + get_cost g w v u) = false ∧
    ∃ du, alookup st.dist u = some du ∧ (alookup st.dist v).getD 0 + get_cost g w v u < du := by
  unfold relax at h
  by_cases hcut : cutoff_exceeded c ((alookup st.dist v).getD 0 + get_cost g w v u) = true
  · simp [hcut] at h
  · rw [Bool.not_eq_true] at hcut
    simp only [hcut, Bool.false_eq_true, if_false] at h
    cases hdu : alookup st.dist u with
    | some du =>
      rw [hdu] at h
      by_cases hlt : (alookup st.dist v).getD 0 + get_cost g w v u < du
      · simp only [hlt, if_pos, Except.error.injEq] at h
        exact ⟨h.symm, hcut, du, rfl, hlt⟩
      · simp [hlt] at h
    | none =>
      rw [hdu] at h
      cases hsu : alookup st.seen u with
      | none => rw [hsu] at h; simp at h
      | some su =>
        rw [hsu] at h
        by_cases hlt : (alookup st.dist v).getD 0 + get_cost g w v u < su
        · simp [hlt] at h
        · by_cases hmerge : (!fo && decide ((alookup st.dist v).getD 0 + get_cost g w v u = su)) = true
          · simp [hlt, hmerge] at h
          · rw [Bool.not_eq_true] at hmerge
            simp [hlt, hmerge] at h

end Effects


/-! ### Path helpers -/


theorem head?_append_singleton {p : List T} (hp : p ≠ []) (u : T) :
    (p ++ [u]).head? = p.head? := by
  cases p with
  | nil => exact absurd rfl hp
  | cons a rest => simp

theorem listCost_append_singleton (g : Graph T K) (w : Bool) {p : List T} {v : T}
    (hp : p.getLast? = some v) (u : T) :
    listCost g w (p ++ [u]) = listCost g w p + get_cost g w v u := by
  induction p with
  | nil => simp at hp
  | cons a rest ih =>
    cases rest with
    | nil =>
      simp only [List.getLast?_singleton, Option.some.injEq] at hp
      subst hp
      simp [listCost]
    | cons b rest' =>
      have hp' : (b :: rest').getLast? = some v := by
        rwa [List.getLast?_cons_cons] at hp
      have := ih hp'
      simp only [List.cons_append] at this ⊢
      rw [listCost, listCost, this]
      ring

theorem chain'_append_adj {g : Graph T K} {p : List T} {v u : T}
    (hc : List.Chain' (adj g) p) (hlast : p.getLast? = some v) (hadj : adj g v u) :
    List.Chain' (adj g) (p ++ [u]) := by
  rw [List.chain'_append]
  refine ⟨hc, List.chain'_singleton _, ?_⟩
  intro x hx y hy
  simp only [List.head?_cons, Option.mem_def, Option.some.injEq] at hy
  rw [hlast] at hx
  simp only [Option.mem_def, Option.some.injEq] at hx
  subst hx; subst hy
  exact hadj

/-! ### The run invariant -/

section Invariant

variable (g : Graph T K) (w : Bool) (S : List T) (c : Option K)




theorem extendState_BInv {st : DState T K} {u v : T} {d : K}
    (hB : BInv g w S c st)
    (hvd : alookup st.dist v = some d)
    (hud : alookup st.dist u = none)
    (hadj : u ∈ get_successors_or_neighbors g v)
    (hcut : cutoff_exceeded c (d + get_cost g w v u) = false)
    (hseen : alookup st.seen u = none ∨
      ∃ s, alookup st.seen u = some s ∧ d + get_cost g w v u < s) :
    BInv g w S c (extendState u v (d + get_cost g w v u) st) := by
  have hsv : alookup st.seen v = some d := hB.dist_seen v d hvd
  obtain ⟨pv, hpv, hpvne, hpvall⟩ := hB.seen_paths v d hsv
  have hpisSome : alookup st.paths v = some pv := hpv
  constructor
  · -- seen_paths
    intro x sx hx
    rw [extendState_seen_lookup] at hx
    by_cases hxu : x = u
    · subst x
      simp only [if_pos] at hx
      have hx' : sx = d + get_cost g w v u := by
        simpa using hx.symm
      subst hx'
      refine ⟨pv.map (fun p => p ++ [u]), ?_, ?_, ?_⟩
      · rw [extendState_paths_lookup]
        simp [hpv]
      · simpa using hpvne
      · intro p hp
        obtain ⟨q, hq, rfl⟩ := List.mem_map.mp hp
        obtain ⟨⟨a, ha, hhead⟩, hlast, hchain, hcost⟩ := hpvall q hq
        have hqne : q ≠ [] := by
          intro habs; subst habs; simp at hhead
        refine ⟨⟨a, ha, ?_⟩, ?_, ?_, ?_⟩
        · rw [head?_append_singleton hqne]; exact hhead
        · simp
        · exact chain'_append_adj hchain hlast hadj
        · rw [listCost_append_singleton g w hlast u, hcost]
    · rw [if_neg hxu] at hx
      obtain ⟨ps, hps, hpsne, hpsall⟩ := hB.seen_paths x sx hx
      refine ⟨ps, ?_, hpsne, hpsall⟩
      rw [extendState_paths_lookup, if_neg hxu]
      have : ¬ (alookup st.paths v = none ∧ x = v) := by
        intro ⟨h1, _⟩; rw [hpv] at h1; cases h1
      rw [if_neg this]
      exact hps
  · -- dist_seen
    intro x dx hx
    rw [extendState_dist] at hx
    rw [extendState_seen_lookup]
    have hxu : x ≠ u := by
      intro habs; subst habs; rw [hud] at hx; cases hx
    rw [if_neg hxu]
    exact hB.dist_seen x dx hx
  · -- fringe_seen
    intro e he
    rw [extendState_fringe] at he
    rcases List.mem_cons.mp he with rfl | he
    · refine ⟨d + get_cost g w v u, ?_, ?_⟩
      · rw [extendState_seen_lookup]; simp
      · simp
    · obtain ⟨s, hs, hle⟩ := hB.fringe_seen e he
      by_cases hxu : e.node_name = u
      · rw [hxu] at hs
        rcases hseen with hnone | ⟨s', hs', hlt⟩
        · rw [hnone] at hs; cases hs
        · rw [hs'] at hs
          have hss : s = s' := by simpa using hs.symm
          subst hss
          refine ⟨d + get_cost g w v u, ?_, ?_⟩
          · rw [extendState_seen_lookup, hxu]; simp
          · exact le_trans hlt.le hle
      · refine ⟨s, ?_, hle⟩
        rw [extendState_seen_lookup, if_neg hxu]
        exact hs
  · -- tentative_entry
    intro x sx hx hdx
    rw [extendState_seen_lookup] at hx
    rw [extendState_dist] at hdx
    by_cases hxu : x = u
    · subst x
      simp only [if_pos] at hx
      have hx' : sx = d + get_cost g w v u := by simpa using hx.symm
      subst hx'
      refine ⟨{ node_name := u, count := st.count + 1,
                distance := -(d + get_cost g w v u) }, ?_, rfl, by simp⟩
      rw [extendState_fringe]
      exact List.mem_cons_self _ _
    · rw [if_neg hxu] at hx
      obtain ⟨e, he, hen, hed⟩ := hB.tentative_entry x sx hx hdx
      refine ⟨e, ?_, hen, hed⟩
      rw [extendState_fringe]
      exact List.mem_cons_of_mem _ he
  · -- dist_nodup
    rw [extendState_dist]
    exact hB.dist_nodup
  · -- pops_dist
    intro pr hpr
    rw [extendState_pops] at hpr
    rw [extendState_dist]
    exact hB.pops_dist pr hpr
  · -- dist_pops
    intro x dx hx
    rw [extendState_dist] at hx
    rw [extendState_pops]
    exact hB.dist_pops x dx hx
  · -- pops_nodup
    rw [extendState_pops]
    exact hB.pops_nodup
  · -- seen_just
    intro x sx hx
    rw [extendState_seen_lookup] at hx
    by_cases hxu : x = u
    · subst x
      simp only [if_pos] at hx
      have hx' : sx = d + get_cost g w v u := by simpa using hx.symm
      subst hx'
      right
      refine ⟨(v, d), hB.dist_pops v d hvd, hadj, rfl, hcut⟩
    · rw [if_neg hxu] at hx
      rcases hB.seen_just x sx hx with h | ⟨pr, hpr, h1, h2, h3⟩
      · exact Or.inl h
      · exact Or.inr ⟨pr, by rw [extendState_pops]; exact hpr, h1, h2, h3⟩
  · -- fringe_cut
    intro e he
    rw [extendState_fringe] at he
    rcases List.mem_cons.mp he with rfl | he
    · left; simpa using hcut
    · exact hB.fringe_cut e he

theorem mergeState_BInv {st : DState T K} {u v : T} {d : K}
    (hB : BInv g w S c st)
    (hvd : alookup st.dist v = some d)
    (hud : alookup st.dist u = none)
    (hadj : u ∈ get_successors_or_neighbors g v)
    (hcut : cutoff_exceeded c (d + get_cost g w v u) = false)
    (hseen : alookup st.seen u = some (d + get_cost g w v u)) :
    BInv g w S c (mergeState u v (d + get_cost g w v u) st) := by
  have hsv : alookup st.seen v = some d := hB.dist_seen v d hvd
  obtain ⟨pv, hpv, hpvne, hpvall⟩ := hB.seen_paths v d hsv
  obtain ⟨pu, hpu, hpune, hpuall⟩ := hB.seen_paths u _ hseen
  constructor
  · -- seen_paths
    intro x sx hx
    rw [mergeState_seen] at hx
    by_cases hxu : x = u
    · subst x
      rw [hseen] at hx
      have hx' : sx = d + get_cost g w v u := by simpa using hx.symm
      subst hx'
      refine ⟨pu ++ pv.map (fun p => p ++ [u]), ?_, ?_, ?_⟩
      · rw [mergeState_paths_lookup]
        simp [hpu, hpv]
      · simp [hpune]
      · intro p hp
        rcases List.mem_append.mp hp with hp | hp
        · exact hpuall p hp
        · obtain ⟨q, hq, rfl⟩ := List.mem_map.mp hp
          obtain ⟨⟨a, ha, hhead⟩, hlast, hchain, hcost⟩ := hpvall q hq
          have hqne : q ≠ [] := by
            intro habs; subst habs; simp at hhead
          refine ⟨⟨a, ha, ?_⟩, ?_, ?_, ?_⟩
          · rw [head?_append_singleton hqne]; exact hhead
          · simp
          · exact chain'_append_adj hchain hlast hadj
          · rw [listCost_append_singleton g w hlast u, hcost]
    · obtain ⟨ps, hps, hpsne, hpsall⟩ := hB.seen_paths x sx hx
      refine ⟨ps, ?_, hpsne, hpsall⟩
      rw [mergeState_paths_lookup, if_neg hxu]
      exact hps
  · -- dist_seen
    intro x dx hx
    rw [mergeState_dist] at hx
    rw [mergeState_seen]
    exact hB.dist_seen x dx hx
  · -- fringe_seen
    intro e he
    rw [mergeState_fringe] at he
    rcases List.mem_cons.mp he with rfl | he
    · refine ⟨d + get_cost g w v u, ?_, ?_⟩
      · rw [mergeState_seen]; exact hseen
      · simp
    · obtain ⟨s, hs, hle⟩ := hB.fringe_seen e he
      exact ⟨s, by rw [mergeState_seen]; exact hs, hle⟩
  · -- tentative_entry
    intro x sx hx hdx
    rw [mergeState_seen] at hx
    rw [mergeState_dist] at hdx
    obtain ⟨e, he, hen, hed⟩ := hB.tentative_entry x sx hx hdx
    refine ⟨e, ?_, hen, hed⟩
    rw [mergeState_fringe]
    exact List.mem_cons_of_mem _ he
  · rw [mergeState_dist]; exact hB.dist_nodup
  · intro pr hpr
    rw [mergeState_pops] at hpr
    rw [mergeState_dist]
    exact hB.pops_dist pr hpr
  · intro x dx hx
    rw [mergeState_dist] at hx
    rw [mergeState_pops]
    exact hB.dist_pops x dx hx
  · rw [mergeState_pops]
    exact hB.pops_nodup
  · intro x sx hx
    rw [mergeState_seen] at hx
    rcases hB.seen_just x sx hx with h | ⟨pr, hpr, h1, h2, h3⟩
    · exact Or.inl h
    · exact Or.inr ⟨pr, by rw [mergeState_pops]; exact hpr, h1, h2, h3⟩
  · intro e he
    rw [mergeState_fringe] at he
    rcases List.mem_cons.mp he with rfl | he
    · left; simpa using hcut
    · exact hB.fringe_cut e he

end Invariant


/-! ### The expansion step preserves and re-establishes the invariant -/

section Expansion

variable (g : Graph T K) (w : Bool) (S : List T) (c : Option K) (fo : Bool)

theorem relax_dist_eq {v u : T} {st st' : DState T K}
    (h : relax g w c fo v u st = Except.ok st') : st'.dist = st.dist := by
  rcases relax_ok_elim g w c fo h with ⟨rfl, _⟩ | ⟨_, _, ⟨rfl, _⟩ | ⟨rfl, _⟩⟩
  · rfl
  · exact extendState_dist _ _ _ _
  · exact mergeState_dist _ _ _ _

theorem relax_pops_eq {v u : T} {st st' : DState T K}
    (h : relax g w c fo v u st = Except.ok st') : st'.pops = st.pops := by
  rcases relax_ok_elim g w c fo h with ⟨rfl, _⟩ | ⟨_, _, ⟨rfl, _⟩ | ⟨rfl, _⟩⟩
  · rfl
  · exact extendState_pops _ _ _ _
  · exact mergeState_pops _ _ _ _

theorem expand_dist_eq {v : T} :
    ∀ (us : List T) {st st' : DState T K},
    expand g w c fo v us st = Except.ok st' → st'.dist = st.dist := by
  intro us
  induction us with
  | nil =>
    intro st st' h
    rw [expand] at h
    simp only [Except.ok.injEq] at h
    rw [← h]
  | cons u rest ih =>
    intro st st' h
    rw [expand] at h
    cases hr : relax g w c fo v u st with
    | error e => rw [hr] at h; cases h
    | ok st1 =>
      rw [hr] at h
      rw [ih h, relax_dist_eq g w c fo hr]

theorem expand_pops_eq {v : T} :
    ∀ (us : List T) {st st' : DState T K},
    expand g w c fo v us st = Except.ok st' → st'.pops = st.pops := by
  intro us
  induction us with
  | nil =>
    intro st st' h
    rw [expand] at h
    simp only [Except.ok.injEq] at h
    rw [← h]
  | cons u rest ih =>
    intro st st' h
    rw [expand] at h
    cases hr : relax g w c fo v u st with
    | error e => rw [hr] at h; cases h
    | ok st1 =>
      rw [hr] at h
      rw [ih h, relax_pops_eq g w c fo hr]

/-- Tentative distances never increase across a `relax`. -/
theorem relax_seen_mono {v u : T} {st st' : DState T K}
    (h : relax g w c fo v u st = Except.ok st') :
    ∀ x s, alookup st.seen x = some s → ∃ s', alookup st'.seen x = some s' ∧ s' ≤ s := by
  rcases relax_ok_elim g w c fo h with ⟨rfl, _⟩ | ⟨_, _, ⟨rfl, hcase⟩ | ⟨rfl, _⟩⟩
  · exact fun x s hx => ⟨s, hx, le_refl _⟩
  · intro x s hx
    rw [extendState_seen_lookup]
    by_cases hxu : x = u
    · subst x
      rcases hcase with hnone | ⟨s0, hs0, hlt⟩
      · rw [hnone] at hx; cases hx
      · rw [hs0] at hx
        have : s0 = s := by simpa using hx
        subst this
        exact ⟨_, by simp, hlt.le⟩
    · rw [if_neg hxu]
      exact ⟨s, hx, le_refl _⟩
  · intro x s hx
    rw [mergeState_seen]
    exact ⟨s, hx, le_refl _⟩

theorem expand_seen_mono {v : T} :
    ∀ (us : List T) {st st' : DState T K},
    expand g w c fo v us st = Except.ok st' →
    ∀ x s, alookup st.seen x = some s → ∃ s', alookup st'.seen x = some s' ∧ s' ≤ s := by
  intro us
  induction us with
  | nil =>
    intro st st' h
    rw [expand] at h
    simp only [Except.ok.injEq] at h
    rw [← h]
    exact fun x s hx => ⟨s, hx, le_refl _⟩
  | cons u rest ih =>
    intro st st' h
    rw [expand] at h
    cases hr : relax g w c fo v u st with
    | error e => rw [hr] at h; cases h
    | ok st1 =>
      rw [hr] at h
      intro x s hx
      obtain ⟨s1, hs1, hle1⟩ := relax_seen_mono g w c fo hr x s hx
      obtain ⟨s2, hs2, hle2⟩ := ih h x s1 hs1
      exact ⟨s2, hs2, hle2.trans hle1⟩

/-- The paths of a finalized node are frozen across a `relax`
(the `entry(v).or_default()` insertion needs the finalized node to have a
path set already, which the invariant supplies). -/
theorem relax_paths_frozen {v u : T} {st st' : DState T K}
    (hDP : ∀ x dx, alookup st.dist x = some dx → (alookup st.paths x).isSome)
    (h : relax g w c fo v u st = Except.ok st') :
    ∀ x dx, alookup st.dist x = some dx → alookup st'.paths x = alookup st.paths x := by
  rcases relax_ok_elim g w c fo h with ⟨rfl, _⟩ | ⟨_, hud, ⟨rfl, _⟩ | ⟨rfl, _⟩⟩
  · exact fun x dx _ => rfl
  · intro x dx hx
    rw [extendState_paths_lookup]
    have hxu : x ≠ u := by
      intro habs; subst x; rw [hud] at hx; cases hx
    rw [if_neg hxu]
    by_cases hxv : x = v
    · subst x
      have := hDP v dx hx
      rw [if_neg]
      intro ⟨h1, _⟩
      rw [h1] at this; cases this
    · rw [if_neg]
      intro ⟨_, h2⟩
      exact hxv h2
  · intro x dx hx
    rw [mergeState_paths_lookup]
    have hxu : x ≠ u := by
      intro habs; subst x; rw [hud] at hx; cases hx
    rw [if_neg hxu]

theorem expand_paths_frozen {v : T} :
    ∀ (us : List T) {st st' : DState T K},
    (∀ x dx, alookup st.dist x = some dx → (alookup st.paths x).isSome) →
    expand g w c fo v us st = Except.ok st' →
    ∀ x dx, alookup st.dist x = some dx → alookup st'.paths x = alookup st.paths x := by
  intro us
  induction us with
  | nil =>
    intro st st' _ h
    rw [expand] at h
    simp only [Except.ok.injEq] at h
    rw [← h]
    exact fun x dx _ => rfl
  | cons u rest ih =>
    intro st st' hDP h
    rw [expand] at h
    cases hr : relax g w c fo v u st with
    | error e => rw [hr] at h; cases h
    | ok st1 =>
      rw [hr] at h
      have hfr1 := relax_paths_frozen g w c fo hDP hr
      have hde := relax_dist_eq g w c fo hr
      have hDP1 : ∀ x dx, alookup st1.dist x = some dx → (alookup st1.paths x).isSome := by
        intro x dx hx
        rw [hde] at hx
        rw [hfr1 x dx hx]
        exact hDP x dx hx
      intro x dx hx
      have hx1 : alookup st1.dist x = some dx := by rw [hde]; exact hx
      rw [ih hDP1 h x dx hx1]
      exact hfr1 x dx hx

end Expansion


section ExpandInv

variable (g : Graph T K) (w : Bool) (S : List T) (c : Option K) (fo : Bool)

theorem relaxedAt_extend_lift {st : DState T K} {u v : T} {vu : K}
    (hud : alookup st.dist u = none)
    (hseen : alookup st.seen u = none ∨ ∃ s, alookup st.seen u = some s ∧ vu < s)
    {z : T} {dz : K} (hz : RelaxedAt g w c st z dz) :
    RelaxedAt g w c (extendState u v vu st) z dz := by
  intro y hy hyc
  have hde : (extendState u v vu st).dist = st.dist := extendState_dist _ _ _ _
  rcases hz y hy hyc with ⟨dy, hdy, hle⟩ | ⟨hdn, sy, hsy, hle⟩
  · left
    exact ⟨dy, by rw [hde]; exact hdy, hle⟩
  · right
    refine ⟨by rw [hde]; exact hdn, ?_⟩
    by_cases hyu : y = u
    · subst y
      rcases hseen with hnone | ⟨s, hs, hlt⟩
      · rw [hnone] at hsy; cases hsy
      · rw [hs] at hsy
        have hss : sy = s := by simpa using hsy.symm
        subst hss
        refine ⟨vu, ?_, hlt.le.trans hle⟩
        rw [extendState_seen_lookup]; simp
    · refine ⟨sy, ?_, hle⟩
      rw [extendState_seen_lookup, if_neg hyu]
      exact hsy

theorem relaxedAt_merge_lift {st : DState T K} {u v : T} {vu : K}
    {z : T} {dz : K} (hz : RelaxedAt g w c st z dz) :
    RelaxedAt g w c (mergeState u v vu st) z dz := by
  intro y hy hyc
  have hde : (mergeState u v vu st).dist = st.dist := mergeState_dist _ _ _ _
  have hse : (mergeState u v vu st).seen = st.seen := mergeState_seen _ _ _ _
  rcases hz y hy hyc with ⟨dy, hdy, hle⟩ | ⟨hdn, sy, hsy, hle⟩
  · left
    exact ⟨dy, by rw [hde]; exact hdy, hle⟩
  · right
    exact ⟨by rw [hde]; exact hdn, sy, by rw [hse]; exact hsy, hle⟩

/-- Expanding the remaining successor list of a freshly finalized node `v`
preserves the basic invariant and re-establishes the full one. -/
theorem expand_inv {v : T} {d : K} :
    ∀ (us : List T) (st : DState T K),
    BInv g w S c st →
    alookup st.dist v = some d →
    (∀ z dz, alookup st.dist z = some dz → z ≠ v → RelaxedAt g w c st z dz) →
    (∀ y ∈ get_successors_or_neighbors g v, y ∉ us →
      cutoff_exceeded c (d + get_cost g w v y) = false →
      (∃ dy, alookup st.dist y = some dy ∧ dy ≤ d + get_cost g w v y) ∨
      (alookup st.dist y = none ∧
        ∃ sy, alookup st.seen y = some sy ∧ sy ≤ d + get_cost g w v y)) →
    (∀ y ∈ us, y ∈ get_successors_or_neighbors g v) →
    ∀ {st' : DState T K}, expand g w c fo v us st = Except.ok st' →
    Inv g w S c st' := by
  intro us
  induction us with
  | nil =>
    intro st hB hvd hrel hrelv _ st' h
    rw [expand] at h
    simp only [Except.ok.injEq] at h
    subst h
    refine ⟨hB, ?_⟩
    intro z dz hz
    by_cases hzv : z = v
    · subst z
      have hdz : dz = d := by
        rw [hvd] at hz; simpa using hz.symm
      subst hdz
      intro y hy hyc
      exact hrelv y hy (by simp) hyc
    · exact hrel z dz hz hzv
  | cons u rest ih =>
    intro st hB hvd hrel hrelv hus st' h
    rw [expand] at h
    cases hr : relax g w c fo v u st with
    | error e => rw [hr] at h; cases h
    | ok st1 =>
      rw [hr] at h
      have hvu0 : (alookup st.dist v).getD 0 = d := by rw [hvd]; rfl
      have hadju : u ∈ get_successors_or_neighbors g v := hus u (List.mem_cons_self _ _)
      rcases relax_ok_elim g w c fo hr with ⟨heq, hwhy⟩ | ⟨hcut, hud, hcase⟩
      · -- state unchanged; record why u is covered
        rw [heq] at h
        refine ih st hB hvd hrel ?_ (fun y hy => hus y (List.mem_cons_of_mem _ hy)) h
        intro y hy hynr hyc
        by_cases hyu : y = u
        · subst y
          rw [hvu0] at hwhy
          rcases hwhy with hcu | ⟨du, hdu, hle⟩ | ⟨hdn, su, hsu, hle⟩
          · rw [hyc] at hcu; cases hcu
          · exact Or.inl ⟨du, hdu, hle⟩
          · exact Or.inr ⟨hdn, su, hsu, hle⟩
        · exact hrelv y hy (fun habs => by
            rcases List.mem_cons.mp habs with habs | habs
            · exact hyu habs
            · exact hynr habs) hyc
      · rw [hvu0] at hcase
        rcases hcase with ⟨hst1, hseen⟩ | ⟨hst1, hfo, hseen⟩
        · -- extend
          subst hst1
          have hB1 : BInv g w S c (extendState u v (d + get_cost g w v u) st) :=
            extendState_BInv g w S c hB hvd hud hadju (by rwa [hvu0] at hcut) hseen
          refine ih _ hB1 (by rw [extendState_dist]; exact hvd) ?_ ?_
            (fun y hy => hus y (List.mem_cons_of_mem _ hy)) h
          · intro z dz hz hzv
            rw [extendState_dist] at hz
            exact relaxedAt_extend_lift g w c hud hseen (hrel z dz hz hzv)
          · intro y hy hynr hyc
            by_cases hyu : y = u
            · subst y
              right
              refine ⟨by rw [extendState_dist]; exact hud, d + get_cost g w v u, ?_, le_refl _⟩
              rw [extendState_seen_lookup]; simp
            · have hyold := hrelv y hy (fun habs => by
                rcases List.mem_cons.mp habs with habs | habs
                · exact hyu habs
                · exact hynr habs) hyc
              rcases hyold with ⟨dy, hdy, hle⟩ | ⟨hdn, sy, hsy, hle⟩
              · left
                exact ⟨dy, by rw [extendState_dist]; exact hdy, hle⟩
              · right
                refine ⟨by rw [extendState_dist]; exact hdn, sy, ?_, hle⟩
                rw [extendState_seen_lookup, if_neg hyu]
                exact hsy
        · -- merge
          subst hst1
          have hB1 : BInv g w S c (mergeState u v (d + get_cost g w v u) st) :=
            mergeState_BInv g w S c hB hvd hud hadju (by rwa [hvu0] at hcut) hseen
          refine ih _ hB1 (by rw [mergeState_dist]; exact hvd) ?_ ?_
            (fun y hy => hus y (List.mem_cons_of_mem _ hy)) h
          · intro z dz hz hzv
            rw [mergeState_dist] at hz
            exact relaxedAt_merge_lift g w c (hrel z dz hz hzv)
          · intro y hy hynr hyc
            by_cases hyu : y = u
            · subst y
              right
              refine ⟨by rw [mergeState_dist]; exact hud, d + get_cost g w v u, ?_, le_refl _⟩
              rw [mergeState_seen]
              exact hseen
            · have hyold := hrelv y hy (fun habs => by
                rcases List.mem_cons.mp habs with habs | habs
                · exact hyu habs
                · exact hynr habs) hyc
              rcases hyold with ⟨dy, hdy, hle⟩ | ⟨hdn, sy, hsy, hle⟩
              · left
                exact ⟨dy, by rw [mergeState_dist]; exact hdy, hle⟩
              · right
                refine ⟨by rw [mergeState_dist]; exact hdn, sy, ?_, hle⟩
                rw [mergeState_seen]
                exact hsy

end ExpandInv


/-! ### The loop preserves the invariant -/

section RunInv

variable (g : Graph T K) (w : Bool) (S : List T) (c : Option K) (fo : Bool)

/-- Discarding a stale fringe entry (a popped node already finalized)
preserves the invariant. -/
theorem Inv_pop_stale {st : DState T K} {m : FringeNode T K} {rest : List (FringeNode T K)}
    (hI : Inv g w S c st) (hpop : popMax st.fringe = some (m, rest))
    {dm : K} (hdm : alookup st.dist m.node_name = some dm) :
    Inv g w S c { st with fringe := rest } := by
  have hmem : ∀ e ∈ rest, e ∈ st.fringe := popMax_rest_subset hpop
  refine ⟨⟨hI.seen_paths, hI.dist_seen, ?_, ?_, hI.dist_nodup, hI.pops_dist,
    hI.dist_pops, hI.pops_nodup, hI.seen_just, ?_⟩, ?_⟩
  · intro e he
    exact hI.fringe_seen e (hmem e he)
  · intro x sx hx hdx
    obtain ⟨e, he, hen, hed⟩ := hI.tentative_entry x sx hx hdx
    refine ⟨e, ?_, hen, hed⟩
    have hexm : e ≠ m := by
      intro habs
      subst habs
      rw [hen] at hdm
      rw [hdm] at hdx
      cases hdx
    have : e ∈ m :: rest := (popMax_perm hpop).mem_iff.mp he
    rcases List.mem_cons.mp this with habs | hgood
    · exact absurd habs hexm
    · exact hgood
  · intro e he
    exact hI.fringe_cut e (hmem e he)
  · exact hI.relaxed

/-- Freshly popping `m` finalizes its node at distance `-m.distance`, which
equals its tentative distance; the inserted state satisfies the basic
invariant, and every previously finalized node stays relaxed. -/
theorem pop_fresh_facts {st : DState T K} {m : FringeNode T K} {rest : List (FringeNode T K)}
    (hI : Inv g w S c st) (hpop : popMax st.fringe = some (m, rest))
    (hfresh : alookup st.dist m.node_name = none) :
    alookup st.seen m.node_name = some (-m.distance) ∧
    BInv g w S c { st with fringe := rest, dist := (m.node_name, -m.distance) :: st.dist, pops := st.pops ++ [(m.node_name, -m.distance)] } ∧
    (∀ z dz, alookup ((m.node_name, -m.distance) :: st.dist) z = some dz →
      z ≠ m.node_name →
      RelaxedAt g w c { st with fringe := rest, dist := (m.node_name, -m.distance) :: st.dist, pops := st.pops ++ [(m.node_name, -m.distance)] } z dz) := by
  have hmmem : m ∈ st.fringe := popMax_mem hpop
  obtain ⟨sv, hsv, hsvle⟩ := hI.fringe_seen m hmmem
  obtain ⟨e, he, hen, hed⟩ := hI.tentative_entry m.node_name sv hsv hfresh
  have hdle : -m.distance ≤ -e.distance := popMax_min_distance hpop e he
  rw [hed] at hdle
  have hsveq : sv = -m.distance := le_antisymm hsvle hdle
  subst hsveq
  have hseenm : alookup st.seen m.node_name = some (-m.distance) := hsv
  have hrestmem : ∀ e ∈ rest, e ∈ st.fringe := popMax_rest_subset hpop
  refine ⟨hseenm, ⟨?_, ?_, ?_, ?_, ?_, ?_, ?_, ?_, ?_, ?_⟩, ?_⟩
  · exact hI.seen_paths
  · -- dist_seen
    intro x dx hx
    by_cases hxm : x = m.node_name
    · subst x
      rw [alookup_cons_self] at hx
      have : dx = -m.distance := by simpa using hx.symm
      subst this
      exact hseenm
    · rw [alookup_cons_ne _ _ hxm] at hx
      exact hI.dist_seen x dx hx
  · intro e' he'
    exact hI.fringe_seen e' (hrestmem e' he')
  · -- tentative_entry
    intro x sx hx hdx
    have hxm : x ≠ m.node_name := by
      intro habs; subst habs; rw [alookup_cons_self] at hdx; cases hdx
    rw [alookup_cons_ne _ _ hxm] at hdx
    obtain ⟨e', he', hen', hed'⟩ := hI.tentative_entry x sx hx hdx
    refine ⟨e', ?_, hen', hed'⟩
    have hexm : e' ≠ m := by
      intro habs; subst habs; exact hxm hen'.symm
    have : e' ∈ m :: rest := (popMax_perm hpop).mem_iff.mp he'
    rcases List.mem_cons.mp this with habs | hgood
    · exact absurd habs hexm
    · exact hgood
  · -- dist_nodup
    refine List.Nodup.cons ?_ hI.dist_nodup
    intro habs
    have : (alookup st.dist m.node_name).isSome :=
      (alookup_isSome_iff_mem_keys st.dist m.node_name).mpr (by simpa using habs)
    rw [hfresh] at this
    cases this
  · -- pops_dist
    intro pr hpr
    rcases List.mem_append.mp hpr with hpr | hpr
    · have := hI.pops_dist pr hpr
      have hprm : pr.1 ≠ m.node_name := by
        intro habs
        rw [habs] at this
        rw [hfresh] at this
        cases this
      rw [alookup_cons_ne _ _ hprm]
      exact this
    · simp only [List.mem_singleton] at hpr
      subst hpr
      exact alookup_cons_self _ _ _
  · -- dist_pops
    intro x dx hx
    by_cases hxm : x = m.node_name
    · subst x
      rw [alookup_cons_self] at hx
      have : dx = -m.distance := by simpa using hx.symm
      subst this
      exact List.mem_append_right _ (List.mem_singleton.mpr rfl)
    · rw [alookup_cons_ne _ _ hxm] at hx
      exact List.mem_append_left _ (hI.dist_pops x dx hx)
  · -- pops_nodup
    rw [List.map_append, List.nodup_append]
    refine ⟨hI.pops_nodup, List.nodup_singleton _, ?_⟩
    intro a ha hb
    simp only [List.map_cons, List.map_nil, List.mem_singleton] at hb
    subst hb
    obtain ⟨pr, hpr, hpr1⟩ := List.mem_map.mp ha
    have := hI.pops_dist pr hpr
    rw [hpr1] at this
    rw [hfresh] at this
    cases this
  · -- seen_just
    intro x sx hx
    rcases hI.seen_just x sx hx with hcase | ⟨pr, hpr, h1, h2, h3⟩
    · exact Or.inl hcase
    · exact Or.inr ⟨pr, List.mem_append_left _ hpr, h1, h2, h3⟩
  · -- fringe_cut
    intro e' he'
    exact hI.fringe_cut e' (hrestmem e' he')
  · -- relaxed for previously finalized nodes
    intro z dz hz hzm
    rw [alookup_cons_ne _ _ hzm] at hz
    have hrel := hI.relaxed z dz hz
    intro y hy hyc
    rcases hrel y hy hyc with ⟨dy, hdy, hle⟩ | ⟨hdn, sy, hsy, hle⟩
    · left
      refine ⟨dy, ?_, hle⟩
      have hym : y ≠ m.node_name := by
        intro habs; subst habs; rw [hfresh] at hdy; cases hdy
      show alookup ((m.node_name, -m.distance) :: st.dist) y = some dy
      rw [alookup_cons_ne _ _ hym]
      exact hdy
    · by_cases hym : y = m.node_name
      · subst y
        left
        refine ⟨-m.distance, ?_, ?_⟩
        · exact alookup_cons_self _ _ _
        · rw [hseenm] at hsy
          have : sy = -m.distance := by simpa using hsy.symm
          subst this
          exact hle
      · right
        refine ⟨?_, sy, hsy, hle⟩
        show alookup ((m.node_name, -m.distance) :: st.dist) y = none
        rw [alookup_cons_ne _ _ hym]
        exact hdn

/-- The search loop preserves the basic invariant; when no target is set
(so the loop never breaks early) the full invariant holds at the end. -/
theorem runDijkstra_inv {tgt : Option T} :
    ∀ (fuel : Nat) (st : DState T K), Inv g w S c st →
    ∀ {r : DState T K}, runDijkstra g w tgt c fo fuel st = some (Except.ok r) →
    BInv g w S c r ∧ (tgt = none → Inv g w S c r) := by
  intro fuel
  induction fuel with
  | zero =>
    intro st hI r h
    rw [runDijkstra] at h
    by_cases hfr : st.fringe.isEmpty
    · rw [if_pos hfr] at h
      simp only [Option.some.injEq, Except.ok.injEq] at h
      subst h
      exact ⟨hI.toBInv, fun _ => hI⟩
    · rw [if_neg hfr] at h
      cases h
  | succ fuel ih =>
    intro st hI r h
    rw [runDijkstra] at h
    cases hpop : popMax st.fringe with
    | none =>
      rw [hpop] at h
      simp only [Option.some.injEq, Except.ok.injEq] at h
      subst h
      exact ⟨hI.toBInv, fun _ => hI⟩
    | some p =>
      obtain ⟨m, rest⟩ := p
      rw [hpop] at h
      simp only at h
      cases hfresh : alookup st.dist m.node_name with
      | some dm =>
        rw [hfresh] at h
        simp only [Option.isSome_some, if_pos] at h
        exact ih _ (Inv_pop_stale g w S c hI hpop hfresh) h
      | none =>
        rw [hfresh] at h
        simp only [Option.isSome_none, Bool.false_eq_true, if_false] at h
        obtain ⟨hseenm, hB2, hrel2⟩ := pop_fresh_facts g w S c hI hpop hfresh
        by_cases htv : tgt = some m.node_name
        · rw [if_pos htv] at h
          simp only [Option.some.injEq, Except.ok.injEq] at h
          subst h
          exact ⟨hB2, fun habs => by rw [habs] at htv; cases htv⟩
        · rw [if_neg htv] at h
          cases hexp : expand g w c fo m.node_name (get_successors_or_neighbors g m.node_name) { st with fringe := rest, dist := (m.node_name, -m.distance) :: st.dist, pops := st.pops ++ [(m.node_name, -m.distance)] } with
          | error e => rw [hexp] at h; cases h
          | ok st3 =>
            rw [hexp] at h
            have hI3 : Inv g w S c st3 := by
              refine expand_inv g w S c fo _ _ hB2 (alookup_cons_self _ _ _) ?_ ?_
                (fun y hy => hy) hexp
              · exact hrel2
              · intro y hy hynr _
                exact absurd hy hynr
            exact ih st3 hI3 h

end RunInv


/-! ### The seeded initial state satisfies the invariant -/

section InitInv

variable (g : Graph T K) (w : Bool) (S : List T) (c : Option K) (fo : Bool)

theorem alookup_map_self {α : Type} (f : T → α) (l : List T) (x : T) :
    alookup (l.map fun s => (s, f s)) x = if x ∈ l then some (f x) else none := by
  induction l with
  | nil => simp [alookup]
  | cons a rest ih =>
    by_cases hx : x = a
    · subst hx
      simp [alookup_cons_self]
    · simp only [List.map_cons, alookup_cons_ne _ _ hx, ih, List.mem_cons]
      by_cases hmem : x ∈ rest <;> simp [hmem, hx]

theorem initState_seen_lookup (x : T) :
    alookup (initState S : DState T K).seen x = if x ∈ S then some (0 : K) else none :=
  alookup_map_self (fun _ => (0 : K)) S x

theorem initState_paths_lookup (x : T) :
    alookup (initState S : DState T K).paths x = if x ∈ S then some [[x]] else none :=
  alookup_map_self (fun s => [[s]]) S x

theorem initState_Inv : Inv g w S c (initState S : DState T K) := by
  have hseen : ∀ x : T, alookup (initState S : DState T K).seen x =
      if x ∈ S then some (0 : K) else none := by
    intro x
    exact alookup_map_self (fun _ => (0 : K)) S x
  have hpaths : ∀ x : T, alookup (initState S : DState T K).paths x =
      if x ∈ S then some [[x]] else none := by
    intro x
    exact alookup_map_self (fun s => [[s]]) S x
  refine ⟨⟨?_, ?_, ?_, ?_, ?_, ?_, ?_, ?_, ?_, ?_⟩, ?_⟩
  · -- seen_paths
    intro u s hu
    rw [hseen] at hu
    by_cases hmem : u ∈ S
    · rw [if_pos hmem] at hu
      have hs : s = 0 := by simpa using hu.symm
      subst hs
      refine ⟨[[u]], by rw [hpaths, if_pos hmem], by simp, ?_⟩
      intro p hp
      simp only [List.mem_singleton] at hp
      subst hp
      exact ⟨⟨u, hmem, rfl⟩, rfl, List.chain'_singleton _, rfl⟩
    · rw [if_neg hmem] at hu; cases hu
  · intro u d hu
    simp [initState, alookup] at hu
  · -- fringe_seen
    intro e he
    simp only [initState, List.mem_map] at he
    obtain ⟨a, ha, rfl⟩ := he
    refine ⟨0, ?_, ?_⟩
    · rw [hseen]
      simp only [if_pos ha]
    · simp
  · -- tentative_entry
    intro u s hu _
    rw [hseen] at hu
    by_cases hmem : u ∈ S
    · rw [if_pos hmem] at hu
      have hs : s = 0 := by simpa using hu.symm
      subst hs
      refine ⟨{ node_name := u, count := 0, distance := -(0 : K) }, ?_, rfl, by simp⟩
      simp only [initState, List.mem_map]
      exact ⟨u, hmem, rfl⟩
    · rw [if_neg hmem] at hu; cases hu
  · simp [initState]
  · intro pr hpr; simp [initState] at hpr
  · intro u d hu; simp [initState, alookup] at hu
  · simp [initState]
  · -- seen_just
    intro u s hu
    rw [hseen] at hu
    by_cases hmem : u ∈ S
    · rw [if_pos hmem] at hu
      have hs : s = 0 := by simpa using hu.symm
      subst hs
      exact Or.inl ⟨hmem, rfl⟩
    · rw [if_neg hmem] at hu; cases hu
  · -- fringe_cut
    intro e he
    simp only [initState, List.mem_map] at he
    obtain ⟨a, ha, rfl⟩ := he
    right
    exact ⟨ha, by simp⟩
  · intro z dz hz
    simp [initState, alookup] at hz

end InitInv

/-! ### Extracting results -/

section Results

variable (g : Graph T K) (w : Bool) (S : List T) (c : Option K) (fo : Bool)

theorem alookup_get_shortest_path_infos (dist : List (T × K))
    (paths : List (T × List (List T))) (x : T) :
    alookup (get_shortest_path_infos dist paths) x =
      (alookup dist x).map
        (fun d => { distance := d, paths := (alookup paths x).getD [] }) := by
  induction dist with
  | nil => simp [get_shortest_path_infos, alookup]
  | cons hd tl ih =>
    obtain ⟨k, d⟩ := hd
    by_cases hx : x = k
    · subst hx
      simp [get_shortest_path_infos, alookup_cons_self]
    · simp only [get_shortest_path_infos, List.map_cons] at ih ⊢
      rw [alookup_cons_ne _ _ hx, alookup_cons_ne _ _ hx, ih]

theorem alookup_filter_key {α : Type} (l : List (T × α)) (t x : T) :
    alookup (l.filter (fun kv => decide (kv.1 = t))) x =
      if x = t then alookup l t else none := by
  induction l with
  | nil => simp [alookup]
  | cons hd tl ih =>
    obtain ⟨k, v⟩ := hd
    rw [List.filter_cons]
    by_cases hk : k = t
    · have hg : (decide ((k, v).1 = t)) = true := by simp [hk]
      rw [hg]
      simp only [if_pos]
      by_cases hx : x = k
      · subst x
        rw [alookup_cons_self, if_pos hk, ← hk, alookup_cons_self]
      · rw [alookup_cons_ne _ _ hx, ih]
        by_cases hxt : x = t
        · exact absurd (hxt.trans hk.symm) hx
        · rw [if_neg hxt, if_neg hxt]
    · have hg : (decide ((k, v).1 = t)) = false := by simp [hk]
      rw [hg]
      simp only [Bool.false_eq_true, if_false]
      rw [ih]
      by_cases hxt : x = t
      · rw [if_pos hxt, if_pos hxt, alookup_cons_ne]
        intro habs
        exact hk (habs ▸ rfl)
      · rw [if_neg hxt, if_neg hxt]

/-- Unfolding a successful `multi_source` call. -/
theorem multi_source_ok_elim {tgt : Option T} {fuel : Nat}
    {m : List (T × ShortestPathInfo T K)}
    (h : multi_source g w S tgt c fo fuel = some (Except.ok m)) :
    (w && !edges_have_weight g) = false ∧
    ∃ st', runDijkstra g w tgt c fo fuel (initState S) = some (Except.ok st') ∧
      m = (match tgt with
           | none => get_shortest_path_infos st'.dist st'.paths
           | some t => (get_shortest_path_infos st'.dist st'.paths).filter
               (fun kv => decide (kv.1 = t))) := by
  unfold multi_source dijkstra_multisource dijkstra_multisource_st at h
  by_cases hw : (w && !edges_have_weight g) = true
  · rw [if_pos hw] at h
    exact absurd h (by simp [Except.map])
  · rw [Bool.not_eq_true] at hw
    rw [hw] at h
    simp only [Bool.false_eq_true, if_false] at h
    refine ⟨hw, ?_⟩
    cases hr : runDijkstra g w tgt c fo fuel (initState S) with
    | none => rw [hr] at h; cases h
    | some res =>
      rw [hr] at h
      cases res with
      | error e =>
        exact absurd h (by simp [Except.map])
      | ok st' =>
        refine ⟨st', rfl, ?_⟩
        cases tgt with
        | none =>
          simp only [Option.map_some', Except.map, Option.some.injEq,
            Except.ok.injEq] at h
          exact h.symm
        | some t =>
          simp only [Option.map_some', Except.map, Option.some.injEq,
            Except.ok.injEq] at h
          exact h.symm

/-- A key present in an `all_pairs` result is the `Ok` result of the
corresponding untargeted `single_source` run. -/
theorem all_pairs_aux_lookup {fuel : Nat} :
    ∀ (ns : List T) {L : List (T × List (T × ShortestPathInfo T K))},
    all_pairs_aux g w c fo fuel ns = some (some L) →
    ∀ x mx, alookup L x = some mx →
    single_source g w x none c fo fuel = some (Except.ok mx) := by
  intro ns
  induction ns with
  | nil =>
    intro L h x mx hx
    rw [all_pairs_aux] at h
    simp only [Option.some.injEq] at h
    subst h
    simp [alookup] at hx
  | cons n rest ih =>
    intro L h x mx hx
    rw [all_pairs_aux] at h
    cases hss : single_source g w n none c fo fuel with
    | none => rw [hss] at h; cases h
    | some res =>
      rw [hss] at h
      cases res with
      | error e =>
        simp only [Option.some.injEq] at h
        cases h
      | ok mn =>
        cases hrec : all_pairs_aux g w c fo fuel rest with
        | none => rw [hrec] at h; cases h
        | some inner =>
          rw [hrec] at h
          cases inner with
          | none =>
            simp only [Option.some.injEq] at h
            cases h
          | some L' =>
            simp only [Option.some.injEq] at h
            subst h
            by_cases hxn : x = n
            · subst hxn
              rw [alookup_cons_self] at hx
              have : mx = mn := by simpa using hx.symm
              subst this
              exact hss
            · rw [alookup_cons_ne _ _ hxn] at hx
              exact ih hrec x mx hx

end Results


/-! ### Claim C1: returned distances equal the path costs -/

section C1

variable (g : Graph T K) (w : Bool)

/-- From a successful `multi_source` call, every returned entry pairs its
distance with finitely many nonempty paths whose costs all equal it. -/
theorem multi_source_paths_cost {S : List T} {tgt : Option T} {c : Option K} {fo : Bool}
    {fuel : Nat} {m : List (T × ShortestPathInfo T K)}
    (h : multi_source g w S tgt c fo fuel = some (Except.ok m)) :
    ∀ x info, alookup m x = some info →
      info.paths ≠ [] ∧ ∀ p ∈ info.paths, listCost g w p = info.distance := by
  obtain ⟨hw, st', hrun, hm⟩ := multi_source_ok_elim g w S c fo h
  have hB : BInv g w S c st' :=
    (runDijkstra_inv g w S c fo fuel _ (initState_Inv g w S c) hrun).1
  have hcore : ∀ x info,
      alookup (get_shortest_path_infos st'.dist st'.paths) x = some info →
      info.paths ≠ [] ∧ ∀ p ∈ info.paths, listCost g w p = info.distance := by
    intro x info hx
    rw [alookup_get_shortest_path_infos] at hx
    cases hd : alookup st'.dist x with
    | none => rw [hd] at hx; cases hx
    | some d =>
      rw [hd] at hx
      simp only [Option.map_some', Option.some.injEq] at hx
      obtain ⟨ps, hps, hpsne, hpsall⟩ :=
        hB.seen_paths x d (hB.dist_seen x d hd)
      rw [← hx]
      simp only [hps, Option.getD_some]
      exact ⟨hpsne, fun p hp => (hpsall p hp).2.2.2⟩
  intro x info hx
  rw [hm] at hx
  cases tgt with
  | none => exact hcore x info hx
  | some t =>
    rw [alookup_filter_key] at hx
    by_cases hxt : x = t
    · rw [if_pos hxt] at hx
      exact hcore t info hx
    · rw [if_neg hxt] at hx
      cases hx

/-- C1: for every call to `single_source`, `multi_source` or `all_pairs`
that returns Ok, every returned distance equals the sum of the edge costs
along each of the paths paired with it; in particular all paths listed for
one target have the same total cost (and at least one path is listed). -/
theorem graphrs_claim_C1 :
    (∀ (S : List T) (tgt : Option T) (c : Option K) (fo : Bool) (fuel : Nat)
       (m : List (T × ShortestPathInfo T K)),
       multi_source g w S tgt c fo fuel = some (Except.ok m) →
       ∀ x info, alookup m x = some info →
         info.paths ≠ [] ∧ ∀ p ∈ info.paths, listCost g w p = info.distance) ∧
    (∀ (s : T) (tgt : Option T) (c : Option K) (fo : Bool) (fuel : Nat)
       (m : List (T × ShortestPathInfo T K)),
       single_source g w s tgt c fo fuel = some (Except.ok m) →
       ∀ x info, alookup m x = some info →
         info.paths ≠ [] ∧ ∀ p ∈ info.paths, listCost g w p = info.distance) ∧
    (∀ (c : Option K) (fo : Bool) (fuel : Nat)
       (M : List (T × List (T × ShortestPathInfo T K))),
       all_pairs g w c fo fuel = some (some M) →
       ∀ s ms, alookup M s = some ms →
       ∀ x info, alookup ms x = some info →
         info.paths ≠ [] ∧ ∀ p ∈ info.paths, listCost g w p = info.distance) := by
  refine ⟨?_, ?_, ?_⟩
  · intro S tgt c fo fuel m h
    exact multi_source_paths_cost g w h
  · intro s tgt c fo fuel m h
    exact multi_source_paths_cost g w h
  · intro c fo fuel M h s ms hs
    have hss := all_pairs_aux_lookup g w c fo g.nodes h s ms hs
    exact multi_source_paths_cost g w hss

end C1


/-- Witness for C1: the doc-example graph evaluated concretely. -/
theorem graphrs_claim_C1_witness :
    multi_source exampleGraph true [1] none none false 10 =
      some (Except.ok [(3, { distance := 21, paths := [[1, 2, 3]] }),
        (2, { distance := 10, paths := [[1, 2]] }),
        (1, { distance := 0, paths := [[1]] })]) ∧
    (([[1, 2, 3]] : List (List ℕ)) ≠ [] ∧
      ∀ p ∈ ([[1, 2, 3]] : List (List ℕ)),
        listCost exampleGraph true p = (21 : ℤ)) := by
  have h : multi_source exampleGraph true [1] none none false 10 =
      some (Except.ok [(3, { distance := 21, paths := [[1, 2, 3]] }),
        (2, { distance := 10, paths := [[1, 2]] }),
        (1, { distance := 0, paths := [[1]] })]) := by decide
  refine ⟨h, ?_⟩
  exact (graphrs_claim_C1 exampleGraph true).1 [1] none none false 10 _ h 3
    { distance := 21, paths := [[1, 2, 3]] } (by decide)


/-! ### Error classification: the only mid-search error is ContradictoryPaths -/

section Errors

variable (g : Graph T K) (w : Bool) (S : List T) (c : Option K) (fo : Bool)

theorem expand_error_elim {v : T} :
    ∀ (us : List T) {st : DState T K} {e : Error},
    expand g w c fo v us st = Except.error e → e = get_contractory_paths_error := by
  intro us
  induction us with
  | nil =>
    intro st e h
    rw [expand] at h
    cases h
  | cons u rest ih =>
    intro st e h
    rw [expand] at h
    cases hr : relax g w c fo v u st with
    | error e' =>
      rw [hr] at h
      simp only [Except.error.injEq] at h
      subst h
      exact (relax_error_elim g w c fo hr).1
    | ok st1 =>
      rw [hr] at h
      exact ih h

theorem runDijkstra_error_elim {tgt : Option T} :
    ∀ (fuel : Nat) {st : DState T K} {e : Error},
    runDijkstra g w tgt c fo fuel st = some (Except.error e) →
    e = get_contractory_paths_error := by
  intro fuel
  induction fuel with
  | zero =>
    intro st e h
    rw [runDijkstra] at h
    by_cases hfr : st.fringe.isEmpty
    · rw [if_pos hfr] at h; cases h
    · rw [if_neg hfr] at h; cases h
  | succ fuel ih =>
    intro st e h
    rw [runDijkstra] at h
    cases hpop : popMax st.fringe with
    | none => rw [hpop] at h; cases h
    | some p =>
      obtain ⟨m, rest⟩ := p
      rw [hpop] at h
      simp only at h
      cases hfresh : alookup st.dist m.node_name with
      | some dm =>
        rw [hfresh] at h
        simp only [Option.isSome_some, if_pos] at h
        exact ih h
      | none =>
        rw [hfresh] at h
        simp only [Option.isSome_none, Bool.false_eq_true, if_false] at h
        by_cases htv : tgt = some m.node_name
        · rw [if_pos htv] at h; cases h
        · rw [if_neg htv] at h
          cases hexp : expand g w c fo m.node_name
              (get_successors_or_neighbors g m.node_name)
              { st with fringe := rest, dist := (m.node_name, -m.distance) :: st.dist, pops := st.pops ++ [(m.node_name, -m.distance)] } with
          | error e' =>
            rw [hexp] at h
            simp only [Option.some.injEq, Except.error.injEq] at h
            subst h
            exact expand_error_elim g w c fo _ hexp
          | ok st3 =>
            rw [hexp] at h
            exact ih h

/-- Any `Err` from `multi_source` is the up-front missing-weight error or
the mid-search contradictory-paths error. -/
theorem multi_source_error_elim {tgt : Option T} {fuel : Nat} {e : Error}
    (h : multi_source g w S tgt c fo fuel = some (Except.error e)) :
    e = edge_weight_not_specified_error ∨ e = get_contractory_paths_error := by
  unfold multi_source dijkstra_multisource dijkstra_multisource_st at h
  by_cases hw : (w && !edges_have_weight g) = true
  · rw [if_pos hw] at h
    simp only [Option.map_some', Except.map] at h
    left
    simpa using h.symm
  · rw [Bool.not_eq_true] at hw
    rw [hw] at h
    simp only [Bool.false_eq_true, if_false] at h
    cases hr : runDijkstra g w tgt c fo fuel (initState S) with
    | none => rw [hr] at h; cases h
    | some res =>
      rw [hr] at h
      cases res with
      | error e' =>
        simp only [Option.map_some', Except.map, Option.some.injEq] at h
        right
        have he : e = e' := by
          cases tgt <;> simpa using h.symm
        rw [he]
        exact runDijkstra_error_elim g w c fo fuel hr
      | ok st' =>
        exact absurd h (by cases tgt <;> simp [Except.map])

/-- A weighted query on a graph lacking a weight fails immediately,
whatever the fuel (in particular fuel 0: no search state is consulted). -/
theorem multi_source_missing_weight {tgt : Option T} {fuel : Nat}
    (hw : edges_have_weight g = false) (S : List T) :
    multi_source g true S tgt c fo fuel = some (Except.error edge_weight_not_specified_error) := by
  unfold multi_source dijkstra_multisource dijkstra_multisource_st
  rw [hw]
  simp [Except.map]

end Errors


/-! ### Claim C2: all_pairs and per-source ContradictoryPaths failures -/

/-- C2 (code bug): on `contradictionGraph` the source-1 run fails with a
`ContradictoryPaths` error, but `all_pairs` does not return that error as
an `Err` value: the Rust `.unwrap()` inside its parallel map panics, which
the model renders as the inner `none`. -/
theorem graphrs_claim_C2_bug :
    single_source contradictionGraph true 1 none none false 10 =
      some (Except.error get_contractory_paths_error) ∧
    get_contractory_paths_error.kind = ErrorKind.ContradictoryPaths ∧
    all_pairs contradictionGraph true none false 10 = some none := by
  refine ⟨by decide, rfl, by rfl⟩

/-! ### Claim C4: the up-front missing-weight check -/

/-- C4 (code bug in the `all_pairs` leg): a weighted `multi_source` (and
hence `single_source`) query fails with `EdgeWeightNotSpecified` exactly
when some edge lacks a weight, before any search state is consulted (the
result is the same at fuel 0); with all weights present that error kind is
impossible.  `all_pairs`, however, panics (inner `none`) on such a graph
instead of returning the typed error. -/
theorem graphrs_claim_C4_bug :
    (∀ (g : Graph T K) (S : List T) (tgt : Option T) (c : Option K) (fo : Bool) (fuel : Nat),
       edges_have_weight g = false →
       multi_source g true S tgt c fo fuel =
         some (Except.error edge_weight_not_specified_error)) ∧
    (∀ (g : Graph T K) (S : List T) (tgt : Option T) (c : Option K) (fo : Bool) (fuel : Nat)
       (e : Error),
       edges_have_weight g = true →
       multi_source g true S tgt c fo fuel = some (Except.error e) →
       e = get_contractory_paths_error) ∧
    edge_weight_not_specified_error.kind = ErrorKind.EdgeWeightNotSpecified ∧
    edge_weight_not_specified_error.kind ≠ get_contractory_paths_error.kind ∧
    all_pairs missingWeightGraph true none false 10 = some none := by
  refine ⟨?_, ?_, rfl, by decide, by rfl⟩
  · intro g S tgt c fo fuel hw
    exact multi_source_missing_weight g c fo hw S
  · intro g S tgt c fo fuel e hw h
    rcases multi_source_error_elim g true S c fo h with habs | hgood
    · subst habs
      exfalso
      unfold multi_source dijkstra_multisource dijkstra_multisource_st at h
      rw [hw] at h
      simp only [Bool.and_false, Bool.not_true, Bool.false_eq_true, if_false] at h
      cases hr : runDijkstra g true tgt c fo fuel (initState S) with
      | none => rw [hr] at h; cases h
      | some res =>
        rw [hr] at h
        cases res with
        | error e' =>
          have : e' = get_contractory_paths_error :=
            runDijkstra_error_elim g true c fo fuel hr
          subst this
          have he : edge_weight_not_specified_error = get_contractory_paths_error := by
            cases tgt <;> simpa [Except.map] using h.symm
          exact absurd (congrArg Error.kind he) (by decide)
        | ok st' => exact absurd h (by cases tgt <;> simp [Except.map])
    · exact hgood

/-- Witness for the universally quantified legs of C4. -/
theorem graphrs_claim_C4_witness :
    edges_have_weight (missingWeightGraph) = false ∧
    multi_source missingWeightGraph true [1] none none false 0 =
      some (Except.error edge_weight_not_specified_error) := by
  refine ⟨by decide, ?_⟩
  exact (graphrs_claim_C4_bug (T := ℕ) (K := ℤ)).1 missingWeightGraph [1] none none false 0
    (by decide)

/-! ### Claim C5: the contradiction check and its cutoff exception -/

/-- Counterexample to C5 as stated: on `cutoffHidesGraph` with cutoff -2,
node 2 is finalized at -4 and its neighbor 1 at 0; expanding 2 yields the
candidate -4 + 3 = -1 < 0 to the already-finalized neighbor 1, yet the
query returns Ok, because the candidate exceeds the cutoff and the cutoff
test runs before the contradiction test. -/
theorem graphrs_claim_C5_counterexample :
    multi_source cutoffHidesGraph true [0, 1] none (some (-2)) false 10 =
      some (Except.ok [(2, { distance := -4, paths := [[0, 2]] }),
        (0, { distance := 0, paths := [[0]] }),
        (1, { distance := 0, paths := [[1]] })]) ∧
    (1 : ℕ) ∈ get_successors_or_neighbors cutoffHidesGraph 2 ∧
    get_cost cutoffHidesGraph true 2 1 = 3 ∧
    ((-4 : ℤ) + 3 < 0) := by
  refine ⟨by decide, by decide, by decide, by decide⟩

/-- C5 amended: when the candidate does NOT exceed the cutoff, a candidate
strictly below an already-finalized neighbor's distance makes the
relaxation — and hence the whole query — fail with `ContradictoryPaths`;
a candidate at or above the finalized distance leaves the state untouched;
and the contradictory-paths condition is the only mid-search failure. -/
theorem graphrs_claim_C5_amended (g : Graph T K) (w : Bool) (c : Option K) (fo : Bool)
    (v u : T) (st : DState T K) (dv du : K)
    (hv : alookup st.dist v = some dv) (hu : alookup st.dist u = some du) :
    (cutoff_exceeded c (dv + get_cost g w v u) = false →
      dv + get_cost g w v u < du →
      relax g w c fo v u st = Except.error get_contractory_paths_error) ∧
    (du ≤ dv + get_cost g w v u →
      relax g w c fo v u st = Except.ok st) ∧
    (∀ (tgt : Option T) (fuel : Nat) (st0 : DState T K) (e : Error),
      runDijkstra g w tgt c fo fuel st0 = some (Except.error e) →
      e = get_contractory_paths_error) := by
  have hvu0 : (alookup st.dist v).getD 0 = dv := by rw [hv]; rfl
  refine ⟨?_, ?_, ?_⟩
  · intro hcut hlt
    unfold relax
    simp only [hvu0, hcut, Bool.false_eq_true, if_false, hu, hlt, if_pos]
  · intro hge
    unfold relax
    simp only [hvu0, hu]
    by_cases hcut : cutoff_exceeded c (dv + get_cost g w v u) = true
    · simp [hcut]
    · rw [Bool.not_eq_true] at hcut
      simp [hcut, not_lt.mpr hge]
  · intro tgt fuel st0 e h
    exact runDijkstra_error_elim g w c fo fuel h

/-- Witness for C5 amended, on the doc example graph: expanding node 2 at
distance 10 towards the finalized source 1 yields candidate 30 ≥ 0, so the
relaxation leaves the state untouched. -/
theorem graphrs_claim_C5_witness :
    (alookup [((2 : ℕ), (10 : ℤ)), (1, 0)] 2 = some 10) ∧
    (alookup [((2 : ℕ), (10 : ℤ)), (1, 0)] 1 = some 0) ∧
    ((0 : ℤ) ≤ 10 + get_cost exampleGraph true 2 1) ∧
    relax exampleGraph true none false 2 1
      { paths := [], dist := [(2, 10), (1, 0)], seen := [], fringe := [], count := 0, pops := [] } =
      Except.ok { paths := [], dist := [(2, 10), (1, 0)], seen := [], fringe := [], count := 0, pops := [] } := by
  refine ⟨by decide, by decide, by decide, ?_⟩
  exact (graphrs_claim_C5_amended exampleGraph true none false 2 1
    { paths := [], dist := [(2, 10), (1, 0)], seen := [], fringe := [], count := 0, pops := [] }
    10 0 (by decide) (by decide)).2.1 (by decide)


/-! ### Claim C3: the pop order of the fringe -/

/-- Counterexample to C3 as stated: push node 1 then node 2 at the same
distance 5; the pop returns node 2, the most recent insertion, not the
FIFO choice node 1. -/
theorem graphrs_claim_C3_counterexample :
    (popMax (push_fringe_node (push_fringe_node ((0 : ℤ), ([] : List (FringeNode ℕ ℤ))) 1 5) 2 5).2).map
        (fun pr => pr.1.node_name) = some 2 ∧
    (2 : ℕ) ≠ 1 := by
  refine ⟨by decide, by decide⟩

/-- C3 amended: a pop returns the entry with the smallest real distance;
among entries of equal distance it returns the one with the LARGEST
insertion count (LIFO, because the max-heap order is not inverted on the
count field), and among equal counts the largest node name. -/
theorem graphrs_claim_C3_amended {l rest : List (FringeNode T K)} {m : FringeNode T K}
    (h : popMax l = some (m, rest)) :
    (∀ e ∈ l, -m.distance ≤ -e.distance) ∧
    (∀ e ∈ l, e.distance = m.distance → e.count ≤ m.count) ∧
    (∀ e ∈ l, e.distance = m.distance → e.count = m.count → e.node_name ≤ m.node_name) := by
  refine ⟨popMax_min_distance h, ?_, ?_⟩
  · intro e he hd
    have hk := popMax_isMax h e he
    unfold fringeKey at hk
    rw [Prod.Lex.le_iff] at hk
    rcases hk with hk | ⟨_, hk⟩
    · dsimp only at hk
      rw [hd] at hk
      exact absurd hk (lt_irrefl _)
    · rw [Prod.Lex.le_iff] at hk
      rcases hk with hk | ⟨hk, _⟩
      · exact hk.le
      · exact le_of_eq hk
  · intro e he hd hc
    have hk := popMax_isMax h e he
    unfold fringeKey at hk
    rw [Prod.Lex.le_iff] at hk
    rcases hk with hk | ⟨_, hk⟩
    · dsimp only at hk
      rw [hd] at hk
      exact absurd hk (lt_irrefl _)
    · rw [Prod.Lex.le_iff] at hk
      rcases hk with hk | ⟨_, hk⟩
      · dsimp only at hk
        rw [hc] at hk
        exact absurd hk (lt_irrefl _)
      · exact hk

/-- Witness for C3 amended at the two-entry fringe of the counterexample. -/
theorem graphrs_claim_C3_witness :
    popMax [({ node_name := 2, count := 2, distance := -5 } : FringeNode ℕ ℤ),
        { node_name := 1, count := 1, distance := -5 }] =
      some ({ node_name := 2, count := 2, distance := -5 },
        [{ node_name := 1, count := 1, distance := -5 }]) ∧
    ((∀ e ∈ [({ node_name := 2, count := 2, distance := -5 } : FringeNode ℕ ℤ),
        { node_name := 1, count := 1, distance := -5 }],
        -(-5 : ℤ) ≤ -e.distance) ∧
     (∀ e ∈ [({ node_name := 2, count := 2, distance := -5 } : FringeNode ℕ ℤ),
        { node_name := 1, count := 1, distance := -5 }],
        e.distance = (-5 : ℤ) → e.count ≤ 2) ∧
     (∀ e ∈ [({ node_name := 2, count := 2, distance := -5 } : FringeNode ℕ ℤ),
        { node_name := 1, count := 1, distance := -5 }],
        e.distance = (-5 : ℤ) → e.count = 2 → e.node_name ≤ 2)) := by
  have h : popMax [({ node_name := 2, count := 2, distance := -5 } : FringeNode ℕ ℤ),
      { node_name := 1, count := 1, distance := -5 }] =
    some ({ node_name := 2, count := 2, distance := -5 },
      [{ node_name := 1, count := 1, distance := -5 }]) := by decide
  exact ⟨h, graphrs_claim_C3_amended h⟩


/-! ### Claim C8: pop-order monotonicity and write-once distances -/

section Mono

variable (g : Graph T K) (w : Bool) (S : List T) (c : Option K) (fo : Bool)

theorem foldl_min_nonneg {ws : List K} {a : K} (ha : 0 ≤ a)
    (hws : ∀ x ∈ ws, 0 ≤ x) : 0 ≤ ws.foldl min a := by
  induction ws generalizing a with
  | nil => simpa using ha
  | cons b rest ih =>
    rw [List.foldl_cons]
    exact ih (le_min ha (hws b (List.mem_cons_self _ _)))
      (fun x hx => hws x (List.mem_cons_of_mem _ hx))

theorem get_edge_weights_nonneg
    (hw : ∀ e ∈ g.edges, ∀ x, e.weight = some x → 0 ≤ x) :
    ∀ u v : T, ∀ x ∈ get_edge_weights g u v, 0 ≤ x := by
  intro u v x hx
  unfold get_edge_weights at hx
  obtain ⟨e, he, hex⟩ := List.mem_filterMap.mp hx
  exact hw e (List.mem_of_mem_filter he) x hex

theorem get_cost_nonneg
    (hw : ∀ e ∈ g.edges, ∀ x, e.weight = some x → 0 ≤ x) :
    ∀ u v : T, 0 ≤ get_cost g w u v := by
  intro u v
  unfold get_cost
  cases w with
  | false => exact zero_le_one
  | true =>
    cases hm : g.multi_edges with
    | false =>
      unfold get_cost_single
      cases hl : get_edge_weights g u v with
      | nil => simp
      | cons a rest =>
        have := get_edge_weights_nonneg g hw u v a (by rw [hl]; exact List.mem_cons_self _ _)
        simpa using this
    | true =>
      unfold get_cost_multi
      cases hl : get_edge_weights g u v with
      | nil => simp
      | cons a rest =>
        refine foldl_min_nonneg ?_ ?_
        · exact get_edge_weights_nonneg g hw u v a (by rw [hl]; exact List.mem_cons_self _ _)
        · intro x hx
          exact get_edge_weights_nonneg g hw u v x (by rw [hl]; exact List.mem_cons_of_mem _ hx)


theorem relax_MInv {v u : T} {d : K} {st st' : DState T K}
    (hvd : alookup st.dist v = some d)
    (hmax : ∀ x dx, alookup st.dist x = some dx → dx ≤ d)
    (hcost : 0 ≤ get_cost g w v u)
    (hM : MInv st)
    (h : relax g w c fo v u st = Except.ok st') : MInv st' := by
  have hvu0 : (alookup st.dist v).getD 0 = d := by rw [hvd]; rfl
  rcases relax_ok_elim g w c fo h with ⟨rfl, _⟩ | ⟨_, _, ⟨rfl, _⟩ | ⟨rfl, _⟩⟩
  · exact hM
  · constructor
    · intro x dx hx e he
      rw [extendState_dist] at hx
      rw [extendState_fringe] at he
      rcases List.mem_cons.mp he with rfl | he
      · simp only [neg_neg]
        rw [hvu0]
        exact (hmax x dx hx).trans (le_add_of_nonneg_right hcost)
      · exact hM.dist_le_fringe x dx hx e he
    · rw [extendState_pops]
      exact hM.pops_sorted
  · constructor
    · intro x dx hx e he
      rw [mergeState_dist] at hx
      rw [mergeState_fringe] at he
      rcases List.mem_cons.mp he with rfl | he
      · simp only [neg_neg]
        rw [hvu0]
        exact (hmax x dx hx).trans (le_add_of_nonneg_right hcost)
      · exact hM.dist_le_fringe x dx hx e he
    · rw [mergeState_pops]
      exact hM.pops_sorted

theorem expand_MInv {v : T} {d : K} :
    ∀ (us : List T) {st st' : DState T K},
    alookup st.dist v = some d →
    (∀ x dx, alookup st.dist x = some dx → dx ≤ d) →
    (∀ y ∈ us, 0 ≤ get_cost g w v y) →
    MInv st →
    expand g w c fo v us st = Except.ok st' → MInv st' := by
  intro us
  induction us with
  | nil =>
    intro st st' _ _ _ hM h
    rw [expand] at h
    simp only [Except.ok.injEq] at h
    subst h
    exact hM
  | cons u rest ih =>
    intro st st' hvd hmax hcost hM h
    rw [expand] at h
    cases hr : relax g w c fo v u st with
    | error e => rw [hr] at h; cases h
    | ok st1 =>
      rw [hr] at h
      have hde := relax_dist_eq g w c fo hr
      refine ih (by rw [hde]; exact hvd) ?_
        (fun y hy => hcost y (List.mem_cons_of_mem _ hy)) ?_ h
      · intro x dx hx
        rw [hde] at hx
        exact hmax x dx hx
      · exact relax_MInv g w c fo hvd hmax (hcost u (List.mem_cons_self _ _)) hM hr

/-- The loop preserves the monotonicity facts when every cost is
nonnegative. -/
theorem runDijkstra_MInv {tgt : Option T}
    (hcost : ∀ a b : T, 0 ≤ get_cost g w a b) :
    ∀ (fuel : Nat) (st : DState T K), Inv g w S c st → MInv st →
    ∀ {r : DState T K}, runDijkstra g w tgt c fo fuel st = some (Except.ok r) →
    MInv r := by
  intro fuel
  induction fuel with
  | zero =>
    intro st hI hM r h
    rw [runDijkstra] at h
    by_cases hfr : st.fringe.isEmpty
    · rw [if_pos hfr] at h
      simp only [Option.some.injEq, Except.ok.injEq] at h
      subst h
      exact hM
    · rw [if_neg hfr] at h
      cases h
  | succ fuel ih =>
    intro st hI hM r h
    rw [runDijkstra] at h
    cases hpop : popMax st.fringe with
    | none =>
      rw [hpop] at h
      simp only [Option.some.injEq, Except.ok.injEq] at h
      subst h
      exact hM
    | some p =>
      obtain ⟨m, rest⟩ := p
      rw [hpop] at h
      simp only at h
      have hrestmem := popMax_rest_subset hpop
      cases hfresh : alookup st.dist m.node_name with
      | some dm =>
        rw [hfresh] at h
        simp only [Option.isSome_some, if_pos] at h
        refine ih _ (Inv_pop_stale g w S c hI hpop hfresh) ?_ h
        exact ⟨fun x dx hx e he => hM.dist_le_fringe x dx hx e (hrestmem e he),
          hM.pops_sorted⟩
      | none =>
        rw [hfresh] at h
        simp only [Option.isSome_none, Bool.false_eq_true, if_false] at h
        obtain ⟨hseenm, hB2, hrel2⟩ := pop_fresh_facts g w S c hI hpop hfresh
        have hmmem : m ∈ st.fringe := popMax_mem hpop
        -- the monotonicity facts at the freshly inserted state
        have hM2 : MInv ({ st with fringe := rest, dist := (m.node_name, -m.distance) :: st.dist, pops := st.pops ++ [(m.node_name, -m.distance)] } : DState T K) := by
          constructor
          · intro x dx hx e he
            by_cases hxm : x = m.node_name
            · subst x
              rw [alookup_cons_self] at hx
              have : dx = -m.distance := by simpa using hx.symm
              subst this
              exact popMax_min_distance hpop e (hrestmem e he)
            · rw [alookup_cons_ne _ _ hxm] at hx
              exact hM.dist_le_fringe x dx hx e (hrestmem e he)
          · rw [List.map_append, List.pairwise_append]
            refine ⟨hM.pops_sorted, List.pairwise_singleton _ _, ?_⟩
            intro a ha b hb
            simp only [List.map_cons, List.map_nil, List.mem_singleton] at hb
            subst hb
            obtain ⟨pr, hpr, hpr2⟩ := List.mem_map.mp ha
            subst hpr2
            have := hI.pops_dist pr hpr
            exact hM.dist_le_fringe pr.1 pr.2 this m hmmem
        have hmax2 : ∀ x dx,
            alookup ((m.node_name, -m.distance) :: st.dist) x = some dx →
            dx ≤ -m.distance := by
          intro x dx hx
          by_cases hxm : x = m.node_name
          · subst x
            rw [alookup_cons_self] at hx
            have : dx = -m.distance := by simpa using hx.symm
            subst this
            exact le_refl _
          · rw [alookup_cons_ne _ _ hxm] at hx
            exact hM.dist_le_fringe x dx hx m hmmem
        by_cases htv : tgt = some m.node_name
        · rw [if_pos htv] at h
          simp only [Option.some.injEq, Except.ok.injEq] at h
          subst h
          exact hM2
        · rw [if_neg htv] at h
          cases hexp : expand g w c fo m.node_name
              (get_successors_or_neighbors g m.node_name)
              { st with fringe := rest, dist := (m.node_name, -m.distance) :: st.dist, pops := st.pops ++ [(m.node_name, -m.distance)] } with
          | error e => rw [hexp] at h; cases h
          | ok st3 =>
            rw [hexp] at h
            have hI3 : Inv g w S c st3 := by
              refine expand_inv g w S c fo _ _ hB2 (alookup_cons_self _ _ _) ?_ ?_
                (fun y hy => hy) hexp
              · exact hrel2
              · intro y hy hynr _
                exact absurd hy hynr
            have hM3 : MInv st3 :=
              expand_MInv g w c fo _ (alookup_cons_self _ _ _) hmax2
                (fun y _ => hcost m.node_name y) hM2 hexp
            exact ih st3 hI3 hM3 h

/-- Unfolding a successful `dijkstra_multisource_st` call. -/
theorem dijkstra_multisource_st_ok_elim {tgt : Option T} {fuel : Nat} {st' : DState T K}
    (h : dijkstra_multisource_st g w S tgt c fo fuel = some (Except.ok st')) :
    (w && !edges_have_weight g) = false ∧
    runDijkstra g w tgt c fo fuel (initState S) = some (Except.ok st') := by
  unfold dijkstra_multisource_st at h
  by_cases hw : (w && !edges_have_weight g) = true
  · rw [if_pos hw] at h
    simp at h
  · rw [Bool.not_eq_true] at hw
    rw [hw] at h
    simp only [Bool.false_eq_true, if_false] at h
    exact ⟨hw, h⟩

end Mono

/-- Counterexample to C8 as stated: on `decreasingPopsGraph` the run
completes with Ok and pops the distances 0, 1, -8, 5 — not non-decreasing
(the -9 edge is relaxed after node 2 is finalized at 1). -/
theorem graphrs_claim_C8_counterexample :
    (dijkstra_multisource_st decreasingPopsGraph true [0] none none false 10).map
        (fun r => r.map (fun st => st.pops)) =
      some (Except.ok [(0, 0), (2, 1), (3, -8), (1, 5)]) ∧
    ¬ List.Pairwise (· ≤ ·) (([(0, 0), (2, 1), (3, -8), (1, 5)] : List (ℕ × ℤ)).map Prod.snd) := by
  refine ⟨by decide, by decide⟩

/-- C8 amended: in every completed run each node's finalized distance is
recorded exactly once — the pop trace has no duplicate node, and the final
distance map agrees with it (so an entry, once written, is never changed)
— and when every edge weight is nonnegative the popped distances are
non-decreasing. -/
theorem graphrs_claim_C8_amended (g : Graph T K) (w : Bool) (S : List T) (tgt : Option T)
    (c : Option K) (fo : Bool) (fuel : Nat) (st' : DState T K)
    (hok : dijkstra_multisource_st g w S tgt c fo fuel = some (Except.ok st')) :
    ((st'.pops.map Prod.fst).Nodup ∧
     (∀ pr ∈ st'.pops, alookup st'.dist pr.1 = some pr.2) ∧
     (∀ x dx, alookup st'.dist x = some dx → (x, dx) ∈ st'.pops)) ∧
    ((∀ e ∈ g.edges, ∀ x, e.weight = some x → 0 ≤ x) →
      List.Pairwise (· ≤ ·) (st'.pops.map Prod.snd)) := by
  obtain ⟨hw, hrun⟩ := dijkstra_multisource_st_ok_elim g w S c fo hok
  have hB : BInv g w S c st' :=
    (runDijkstra_inv g w S c fo fuel _ (initState_Inv g w S c) hrun).1
  refine ⟨⟨hB.pops_nodup, hB.pops_dist, hB.dist_pops⟩, ?_⟩
  intro hwts
  have hM : MInv (st' : DState T K) := by
    refine runDijkstra_MInv g w S c fo (get_cost_nonneg g w hwts) fuel _
      (initState_Inv g w S c) ?_ hrun
    constructor
    · intro x dx hx
      simp [initState, alookup] at hx
    · simp [initState]
  exact hM.pops_sorted

/-- Witness for C8 amended: the one-node graph run. -/
theorem graphrs_claim_C8_witness :
    dijkstra_multisource_st trivialGraph true [1] none none false 10 =
      some (Except.ok ⟨[(1, [[1]])], [(1, 0)], [(1, 0)], [], 0, [(1, 0)]⟩) ∧
    ((([((1 : ℕ), (0 : ℤ))].map Prod.fst).Nodup ∧
      (∀ pr ∈ [((1 : ℕ), (0 : ℤ))], alookup [((1 : ℕ), (0 : ℤ))] pr.1 = some pr.2) ∧
      (∀ x dx, alookup [((1 : ℕ), (0 : ℤ))] x = some dx → (x, dx) ∈ [((1 : ℕ), (0 : ℤ))])) ∧
     ((∀ e ∈ trivialGraph.edges, ∀ x, e.weight = some x → 0 ≤ x) →
       List.Pairwise (· ≤ ·) ([((1 : ℕ), (0 : ℤ))].map Prod.snd))) := by
  have h : dijkstra_multisource_st trivialGraph true [1] none none false 10 =
      some (Except.ok ⟨[(1, [[1]])], [(1, 0)], [(1, 0)], [], 0, [(1, 0)]⟩) := by decide
  exact ⟨h, graphrs_claim_C8_amended trivialGraph true [1] none none false 10 _ h⟩


/-! ### Adjacency and positive costs -/

section Adjacency

variable (g : Graph T K) (w : Bool)

theorem mem_uniqueAppend {acc : List T} {x y : T} :
    x ∈ uniqueAppend acc y ↔ x ∈ acc ∨ x = y := by
  unfold uniqueAppend
  by_cases hy : y ∈ acc
  · simp only [if_pos hy]
    constructor
    · exact Or.inl
    · intro h
      rcases h with h | h
      · exact h
      · subst h; exact hy
  · simp [if_neg hy]

theorem mem_foldl_uniqueAppend {β : Type} (f : β → T) :
    ∀ (l : List β) (acc : List T) (x : T),
    x ∈ l.foldl (fun a e => uniqueAppend a (f e)) acc ↔ x ∈ acc ∨ ∃ e ∈ l, f e = x := by
  intro l
  induction l with
  | nil => simp
  | cons b rest ih =>
    intro acc x
    rw [List.foldl_cons, ih]
    rw [mem_uniqueAppend]
    constructor
    · intro h
      rcases h with (h | h) | ⟨e, he, hex⟩
      · exact Or.inl h
      · exact Or.inr ⟨b, List.mem_cons_self _ _, h.symm⟩
      · exact Or.inr ⟨e, List.mem_cons_of_mem _ he, hex⟩
    · intro h
      rcases h with h | ⟨e, he, hex⟩
      · exact Or.inl (Or.inl h)
      · rcases List.mem_cons.mp he with rfl | he
        · exact Or.inl (Or.inr hex.symm)
        · exact Or.inr ⟨e, he, hex⟩

theorem mem_foldl_neighbor {v : T} :
    ∀ (l : List (GEdge T K)) (acc : List T) (x : T),
    x ∈ l.foldl (fun acc e =>
        if e.u = v then uniqueAppend acc e.v
        else if e.v = v then uniqueAppend acc e.u
        else acc) acc ↔
      x ∈ acc ∨ ∃ e ∈ l, (e.u = v ∧ e.v = x) ∨ (¬ e.u = v ∧ e.v = v ∧ e.u = x) := by
  intro l
  induction l with
  | nil => simp
  | cons b rest ih =>
    intro acc x
    rw [List.foldl_cons]
    by_cases hu : b.u = v
    · rw [if_pos hu, ih, mem_uniqueAppend]
      constructor
      · intro h
        rcases h with (h | h) | ⟨e, he, hc⟩
        · exact Or.inl h
        · exact Or.inr ⟨b, List.mem_cons_self _ _, Or.inl ⟨hu, h.symm⟩⟩
        · exact Or.inr ⟨e, List.mem_cons_of_mem _ he, hc⟩
      · intro h
        rcases h with h | ⟨e, he, hc⟩
        · exact Or.inl (Or.inl h)
        · rcases List.mem_cons.mp he with rfl | he
          · rcases hc with ⟨_, hev⟩ | ⟨habs, _, _⟩
            · exact Or.inl (Or.inr hev.symm)
            · exact absurd hu habs
          · exact Or.inr ⟨e, he, hc⟩
    · rw [if_neg hu]
      by_cases hv : b.v = v
      · rw [if_pos hv, ih, mem_uniqueAppend]
        constructor
        · intro h
          rcases h with (h | h) | ⟨e, he, hc⟩
          · exact Or.inl h
          · exact Or.inr ⟨b, List.mem_cons_self _ _, Or.inr ⟨hu, hv, h.symm⟩⟩
          · exact Or.inr ⟨e, List.mem_cons_of_mem _ he, hc⟩
        · intro h
          rcases h with h | ⟨e, he, hc⟩
          · exact Or.inl (Or.inl h)
          · rcases List.mem_cons.mp he with rfl | he
            · rcases hc with ⟨habs, _⟩ | ⟨_, _, heu⟩
              · exact absurd habs hu
              · exact Or.inl (Or.inr heu.symm)
            · exact Or.inr ⟨e, he, hc⟩
      · rw [if_neg hv, ih]
        constructor
        · intro h
          rcases h with h | ⟨e, he, hc⟩
          · exact Or.inl h
          · exact Or.inr ⟨e, List.mem_cons_of_mem _ he, hc⟩
        · intro h
          rcases h with h | ⟨e, he, hc⟩
          · exact Or.inl h
          · rcases List.mem_cons.mp he with rfl | he
            · rcases hc with ⟨habs, _⟩ | ⟨_, habs, _⟩
              · exact absurd habs hu
              · exact absurd habs hv
            · exact Or.inr ⟨e, he, hc⟩

/-- An adjacency listed by the loop always has at least one registered
edge weight, provided every edge carries one. -/
theorem get_edge_weights_ne_nil {v u : T}
    (hw : edges_have_weight g = true)
    (hadj : u ∈ get_successors_or_neighbors g v) :
    get_edge_weights g v u ≠ [] := by
  unfold get_successors_or_neighbors at hadj
  unfold edges_have_weight at hw
  rw [List.all_eq_true] at hw
  cases hd : g.directed with
  | true =>
    rw [hd] at hadj
    simp only at hadj
    rw [mem_foldl_uniqueAppend] at hadj
    rcases hadj with habs | ⟨e, he, hev⟩
    · simp at habs
    · have heu : e.u = v := by
        have := List.mem_filter.mp he
        simpa using this.2
      have hee : e ∈ g.edges := List.mem_of_mem_filter he
      obtain ⟨x, hx⟩ := Option.isSome_iff_exists.mp (hw e hee)
      intro habs
      unfold get_edge_weights at habs
      have hmem : e ∈ g.edges.filter (fun e =>
          (decide (e.u = v) && decide (e.v = u)) ||
          (!g.directed && decide (e.u = u) && decide (e.v = v))) := by
        rw [List.mem_filter]
        exact ⟨hee, by simp [heu, hev]⟩
      have : x ∈ (g.edges.filter (fun e =>
          (decide (e.u = v) && decide (e.v = u)) ||
          (!g.directed && decide (e.u = u) && decide (e.v = v)))).filterMap
            (fun e => e.weight) :=
        List.mem_filterMap.mpr ⟨e, hmem, hx⟩
      rw [habs] at this
      simp at this
  | false =>
    rw [hd] at hadj
    simp only at hadj
    rw [mem_foldl_neighbor] at hadj
    rcases hadj with habs | ⟨e, he, hc⟩
    · simp at habs
    · obtain ⟨x, hx⟩ := Option.isSome_iff_exists.mp (hw e he)
      intro habs
      unfold get_edge_weights at habs
      have hmem : e ∈ g.edges.filter (fun e =>
          (decide (e.u = v) && decide (e.v = u)) ||
          (!g.directed && decide (e.u = u) && decide (e.v = v))) := by
        rw [List.mem_filter]
        refine ⟨he, ?_⟩
        rcases hc with ⟨h1, h2⟩ | ⟨_, h1, h2⟩
        · simp [h1, h2]
        · simp [h1, h2, hd]
      have : x ∈ (g.edges.filter (fun e =>
          (decide (e.u = v) && decide (e.v = u)) ||
          (!g.directed && decide (e.u = u) && decide (e.v = v)))).filterMap
            (fun e => e.weight) :=
        List.mem_filterMap.mpr ⟨e, hmem, hx⟩
      rw [habs] at this
      simp at this

theorem foldl_min_pos {ws : List K} {a : K} (ha : 0 < a)
    (hws : ∀ x ∈ ws, 0 < x) : 0 < ws.foldl min a := by
  induction ws generalizing a with
  | nil => simpa using ha
  | cons b rest ih =>
    rw [List.foldl_cons]
    exact ih (lt_min ha (hws b (List.mem_cons_self _ _)))
      (fun x hx => hws x (List.mem_cons_of_mem _ hx))

/-- With strictly positive edge weights (and, for weighted queries, every
edge carrying one), every cost charged along a listed adjacency is
strictly positive. -/
theorem get_cost_pos
    (hpos : ∀ e ∈ g.edges, ∀ x, e.weight = some x → 0 < x)
    (hww : w = true → edges_have_weight g = true) :
    ∀ v u : T, u ∈ get_successors_or_neighbors g v → 0 < get_cost g w v u := by
  intro v u hadj
  unfold get_cost
  cases w with
  | false => exact zero_lt_one
  | true =>
    have hne := get_edge_weights_ne_nil g (hww rfl) hadj
    have hall : ∀ x ∈ get_edge_weights g v u, 0 < x := by
      intro x hx
      unfold get_edge_weights at hx
      obtain ⟨e, he, hex⟩ := List.mem_filterMap.mp hx
      exact hpos e (List.mem_of_mem_filter he) x hex
    cases hm : g.multi_edges with
    | false =>
      unfold get_cost_single
      cases hl : get_edge_weights g v u with
      | nil => exact absurd hl hne
      | cons a rest =>
        have := hall a (by rw [hl]; exact List.mem_cons_self _ _)
        simpa using this
    | true =>
      unfold get_cost_multi
      cases hl : get_edge_weights g v u with
      | nil => exact absurd hl hne
      | cons a rest =>
        refine foldl_min_pos ?_ ?_
        · exact hall a (by rw [hl]; exact List.mem_cons_self _ _)
        · intro x hx
          exact hall x (by rw [hl]; exact List.mem_cons_of_mem _ hx)

end Adjacency


/-! ### Claim C10: sources keep distance 0 and the trivial path -/

section SourceZero

variable (g : Graph T K) (w : Bool) (S : List T) (c : Option K) (fo : Bool)


theorem relax_SourceInv {v u : T} {d : K} {st st' : DState T K}
    (hB : BInv g w S c st)
    (hvd : alookup st.dist v = some d)
    (hpos : 0 < get_cost g w v u)
    (hS : SourceInv S st)
    (h : relax g w c fo v u st = Except.ok st') : SourceInv S st' := by
  have hd0 : 0 ≤ d := hS.seen_nonneg v d (hB.dist_seen v d hvd)
  have hvu_pos : 0 < d + get_cost g w v u := add_pos_of_nonneg_of_pos hd0 hpos
  have hvu0 : (alookup st.dist v).getD 0 = d := by rw [hvd]; rfl
  have hpv : (alookup st.paths v).isSome := by
    obtain ⟨ps, hps, _, _⟩ := hB.seen_paths v d (hB.dist_seen v d hvd)
    rw [hps]; rfl
  rcases relax_ok_elim g w c fo h with ⟨rfl, _⟩ | ⟨_, hud, hcase⟩
  · exact hS
  · rw [hvu0] at hcase
    rcases hcase with ⟨rfl, hseen⟩ | ⟨rfl, _, hseen⟩
    · -- extend; the extended node cannot be a source
      have huS : u ∉ S := by
        intro huS
        rcases hseen with hnone | ⟨s0, hs0, hlt⟩
        · rw [hS.src_seen u huS] at hnone; cases hnone
        · rw [hS.src_seen u huS] at hs0
          have : s0 = 0 := by simpa using hs0.symm
          subst this
          exact absurd hlt (not_lt.mpr hvu_pos.le)
      constructor
      · intro x sx hx
        rw [extendState_seen_lookup] at hx
        by_cases hxu : x = u
        · rw [if_pos hxu] at hx
          have : sx = d + get_cost g w v u := by simpa using hx.symm
          subst this
          exact hvu_pos.le
        · rw [if_neg hxu] at hx
          exact hS.seen_nonneg x sx hx
      · intro a ha
        have hau : a ≠ u := fun habs => huS (habs ▸ ha)
        rw [extendState_seen_lookup]
        rw [if_neg hau]
        exact hS.src_seen a ha
      · intro a ha
        have hau : a ≠ u := fun habs => huS (habs ▸ ha)
        rw [extendState_paths_lookup]
        rw [if_neg hau]
        rw [if_neg]
        · exact hS.src_paths a ha
        · intro ⟨h1, _⟩
          rw [h1] at hpv
          cases hpv
    · -- merge; the merged node cannot be a source
      have huS : u ∉ S := by
        intro huS
        rw [hS.src_seen u huS] at hseen
        have : d + get_cost g w v u = 0 := by simpa using hseen.symm
        exact absurd this (ne_of_gt hvu_pos)
      constructor
      · intro x sx hx
        rw [mergeState_seen] at hx
        exact hS.seen_nonneg x sx hx
      · intro a ha
        rw [mergeState_seen]
        exact hS.src_seen a ha
      · intro a ha
        have hau : a ≠ u := fun habs => huS (habs ▸ ha)
        rw [mergeState_paths_lookup]
        rw [if_neg hau]
        exact hS.src_paths a ha

theorem expand_SourceInv {v : T} {d : K} :
    ∀ (us : List T) {st st' : DState T K},
    BInv g w S c st →
    alookup st.dist v = some d →
    (∀ z dz, alookup st.dist z = some dz → z ≠ v → RelaxedAt g w c st z dz) →
    (∀ y ∈ get_successors_or_neighbors g v, y ∉ us →
      cutoff_exceeded c (d + get_cost g w v y) = false →
      (∃ dy, alookup st.dist y = some dy ∧ dy ≤ d + get_cost g w v y) ∨
      (alookup st.dist y = none ∧
        ∃ sy, alookup st.seen y = some sy ∧ sy ≤ d + get_cost g w v y)) →
    (∀ y ∈ us, y ∈ get_successors_or_neighbors g v) →
    (∀ y ∈ us, 0 < get_cost g w v y) →
    SourceInv S st →
    expand g w c fo v us st = Except.ok st' → SourceInv S st' := by
  intro us
  induction us with
  | nil =>
    intro st st' _ _ _ _ _ _ hS h
    rw [expand] at h
    simp only [Except.ok.injEq] at h
    subst h
    exact hS
  | cons u rest ih =>
    intro st st' hB hvd hrel hrelv hus hpos hS h
    rw [expand] at h
    cases hr : relax g w c fo v u st with
    | error e => rw [hr] at h; cases h
    | ok st1 =>
      rw [hr] at h
      have hS1 : SourceInv S st1 :=
        relax_SourceInv g w S c fo hB hvd (hpos u (List.mem_cons_self _ _)) hS hr
      -- re-establish the bookkeeping needed to keep the BInv through the tail
      have hvu0 : (alookup st.dist v).getD 0 = d := by rw [hvd]; rfl
      have hadju : u ∈ get_successors_or_neighbors g v := hus u (List.mem_cons_self _ _)
      rcases relax_ok_elim g w c fo hr with ⟨heq, hwhy⟩ | ⟨hcut, hud, hcase⟩
      · rw [heq] at h hS1
        refine ih hB hvd hrel ?_ (fun y hy => hus y (List.mem_cons_of_mem _ hy))
          (fun y hy => hpos y (List.mem_cons_of_mem _ hy)) hS1 h
        intro y hy hynr hyc
        by_cases hyu : y = u
        · subst y
          rw [hvu0] at hwhy
          rcases hwhy with hcu | ⟨du, hdu, hle⟩ | ⟨hdn, su, hsu, hle⟩
          · rw [hyc] at hcu; cases hcu
          · exact Or.inl ⟨du, hdu, hle⟩
          · exact Or.inr ⟨hdn, su, hsu, hle⟩
        · exact hrelv y hy (fun habs => by
            rcases List.mem_cons.mp habs with habs | habs
            · exact hyu habs
            · exact hynr habs) hyc
      · rw [hvu0] at hcase
        rcases hcase with ⟨hst1, hseen⟩ | ⟨hst1, hfo, hseen⟩
        · subst hst1
          have hB1 : BInv g w S c (extendState u v (d + get_cost g w v u) st) :=
            extendState_BInv g w S c hB hvd hud hadju (by rwa [hvu0] at hcut) hseen
          refine ih hB1 (by rw [extendState_dist]; exact hvd) ?_ ?_
            (fun y hy => hus y (List.mem_cons_of_mem _ hy))
            (fun y hy => hpos y (List.mem_cons_of_mem _ hy)) hS1 h
          · intro z dz hz hzv
            rw [extendState_dist] at hz
            exact relaxedAt_extend_lift g w c hud hseen (hrel z dz hz hzv)
          · intro y hy hynr hyc
            by_cases hyu : y = u
            · subst y
              right
              refine ⟨by rw [extendState_dist]; exact hud, d + get_cost g w v u, ?_, le_refl _⟩
              rw [extendState_seen_lookup]; simp
            · have hyold := hrelv y hy (fun habs => by
                rcases List.mem_cons.mp habs with habs | habs
                · exact hyu habs
                · exact hynr habs) hyc
              rcases hyold with ⟨dy, hdy, hle⟩ | ⟨hdn, sy, hsy, hle⟩
              · left
                exact ⟨dy, by rw [extendState_dist]; exact hdy, hle⟩
              · right
                refine ⟨by rw [extendState_dist]; exact hdn, sy, ?_, hle⟩
                rw [extendState_seen_lookup, if_neg hyu]
                exact hsy
        · subst hst1
          have hB1 : BInv g w S c (mergeState u v (d + get_cost g w v u) st) :=
            mergeState_BInv g w S c hB hvd hud hadju (by rwa [hvu0] at hcut) hseen
          refine ih hB1 (by rw [mergeState_dist]; exact hvd) ?_ ?_
            (fun y hy => hus y (List.mem_cons_of_mem _ hy))
            (fun y hy => hpos y (List.mem_cons_of_mem _ hy)) hS1 h
          · intro z dz hz hzv
            rw [mergeState_dist] at hz
            exact relaxedAt_merge_lift g w c (hrel z dz hz hzv)
          · intro y hy hynr hyc
            by_cases hyu : y = u
            · subst y
              right
              refine ⟨by rw [mergeState_dist]; exact hud, d + get_cost g w v u, ?_, le_refl _⟩
              rw [mergeState_seen]
              exact hseen
            · have hyold := hrelv y hy (fun habs => by
                rcases List.mem_cons.mp habs with habs | habs
                · exact hyu habs
                · exact hynr habs) hyc
              rcases hyold with ⟨dy, hdy, hle⟩ | ⟨hdn, sy, hsy, hle⟩
              · left
                exact ⟨dy, by rw [mergeState_dist]; exact hdy, hle⟩
              · right
                refine ⟨by rw [mergeState_dist]; exact hdn, sy, ?_, hle⟩
                rw [mergeState_seen]
                exact hsy

theorem runDijkstra_SourceInv {tgt : Option T}
    (hadjpos : ∀ v u : T, u ∈ get_successors_or_neighbors g v → 0 < get_cost g w v u) :
    ∀ (fuel : Nat) (st : DState T K), Inv g w S c st → SourceInv S st →
    ∀ {r : DState T K}, runDijkstra g w tgt c fo fuel st = some (Except.ok r) →
    SourceInv S r := by
  intro fuel
  induction fuel with
  | zero =>
    intro st hI hS r h
    rw [runDijkstra] at h
    by_cases hfr : st.fringe.isEmpty
    · rw [if_pos hfr] at h
      simp only [Option.some.injEq, Except.ok.injEq] at h
      subst h
      exact hS
    · rw [if_neg hfr] at h
      cases h
  | succ fuel ih =>
    intro st hI hS r h
    rw [runDijkstra] at h
    cases hpop : popMax st.fringe with
    | none =>
      rw [hpop] at h
      simp only [Option.some.injEq, Except.ok.injEq] at h
      subst h
      exact hS
    | some p =>
      obtain ⟨m, rest⟩ := p
      rw [hpop] at h
      simp only at h
      cases hfresh : alookup st.dist m.node_name with
      | some dm =>
        rw [hfresh] at h
        simp only [Option.isSome_some, if_pos] at h
        exact ih _ (Inv_pop_stale g w S c hI hpop hfresh) ⟨hS.seen_nonneg, hS.src_seen, hS.src_paths⟩ h
      | none =>
        rw [hfresh] at h
        simp only [Option.isSome_none, Bool.false_eq_true, if_false] at h
        obtain ⟨hseenm, hB2, hrel2⟩ := pop_fresh_facts g w S c hI hpop hfresh
        have hS2 : SourceInv S ({ st with fringe := rest, dist := (m.node_name, -m.distance) :: st.dist, pops := st.pops ++ [(m.node_name, -m.distance)] } : DState T K) :=
          ⟨hS.seen_nonneg, hS.src_seen, hS.src_paths⟩
        by_cases htv : tgt = some m.node_name
        · rw [if_pos htv] at h
          simp only [Option.some.injEq, Except.ok.injEq] at h
          subst h
          exact hS2
        · rw [if_neg htv] at h
          cases hexp : expand g w c fo m.node_name
              (get_successors_or_neighbors g m.node_name)
              { st with fringe := rest, dist := (m.node_name, -m.distance) :: st.dist, pops := st.pops ++ [(m.node_name, -m.distance)] } with
          | error e => rw [hexp] at h; cases h
          | ok st3 =>
            rw [hexp] at h
            have hI3 : Inv g w S c st3 := by
              refine expand_inv g w S c fo _ _ hB2 (alookup_cons_self _ _ _) ?_ ?_
                (fun y hy => hy) hexp
              · exact hrel2
              · intro y hy hynr _
                exact absurd hy hynr
            have hS3 : SourceInv S st3 := by
              refine expand_SourceInv g w S c fo _ hB2 (alookup_cons_self _ _ _) ?_ ?_
                (fun y hy => hy) (fun y hy => hadjpos m.node_name y hy) hS2 hexp
              · exact hrel2
              · intro y hy hynr _
                exact absurd hy hynr
            exact ih st3 hI3 hS3 h

/-- At the end of a completed run, either the fringe is drained or the run
broke at its finalized target. -/
theorem runDijkstra_final {tgt : Option T} :
    ∀ (fuel : Nat) (st : DState T K) {r : DState T K},
    runDijkstra g w tgt c fo fuel st = some (Except.ok r) →
    r.fringe = [] ∨ ∃ t, tgt = some t ∧ (alookup r.dist t).isSome := by
  intro fuel
  induction fuel with
  | zero =>
    intro st r h
    rw [runDijkstra] at h
    by_cases hfr : st.fringe.isEmpty
    · rw [if_pos hfr] at h
      simp only [Option.some.injEq, Except.ok.injEq] at h
      subst h
      exact Or.inl (List.isEmpty_iff.mp hfr)
    · rw [if_neg hfr] at h
      cases h
  | succ fuel ih =>
    intro st r h
    rw [runDijkstra] at h
    cases hpop : popMax st.fringe with
    | none =>
      rw [hpop] at h
      simp only [Option.some.injEq, Except.ok.injEq] at h
      subst h
      exact Or.inl ((popMax_eq_none_iff _).mp hpop)
    | some p =>
      obtain ⟨m, rest⟩ := p
      rw [hpop] at h
      simp only at h
      cases hfresh : alookup st.dist m.node_name with
      | some dm =>
        rw [hfresh] at h
        simp only [Option.isSome_some, if_pos] at h
        exact ih _ h
      | none =>
        rw [hfresh] at h
        simp only [Option.isSome_none, Bool.false_eq_true, if_false] at h
        by_cases htv : tgt = some m.node_name
        · rw [if_pos htv] at h
          simp only [Option.some.injEq, Except.ok.injEq] at h
          subst h
          refine Or.inr ⟨m.node_name, htv, ?_⟩
          rw [alookup_cons_self]
          rfl
        · rw [if_neg htv] at h
          cases hexp : expand g w c fo m.node_name
              (get_successors_or_neighbors g m.node_name)
              { st with fringe := rest, dist := (m.node_name, -m.distance) :: st.dist, pops := st.pops ++ [(m.node_name, -m.distance)] } with
          | error e => rw [hexp] at h; cases h
          | ok st3 =>
            rw [hexp] at h
            exact ih _ h

end SourceZero

/-- C10: every successful `multi_source` whose target is `None` or the
source itself, on a graph whose edge weights are all strictly positive,
reports that source at distance 0 with the single path `[s]`, whatever the
cutoff. -/
theorem graphrs_claim_C10 (g : Graph T K) (w : Bool) (S : List T) (s : T) (tgt : Option T)
    (c : Option K) (fo : Bool) (fuel : Nat) (m : List (T × ShortestPathInfo T K))
    (hmem : s ∈ S)
    (htgt : tgt = none ∨ tgt = some s)
    (hpos : ∀ e ∈ g.edges, ∀ x, e.weight = some x → 0 < x)
    (hok : multi_source g w S tgt c fo fuel = some (Except.ok m)) :
    alookup m s = some { distance := 0, paths := [[s]] } := by
  obtain ⟨hw, st', hrun, hm⟩ := multi_source_ok_elim g w S c fo hok
  have hww : w = true → edges_have_weight g = true := by
    intro hwt
    subst hwt
    simpa using hw
  have hadjpos := get_cost_pos g w hpos hww
  have hI0 := initState_Inv g w S c
  have hS0 : SourceInv S (initState S : DState T K) := by
    refine ⟨?_, ?_, ?_⟩
    · intro u sx hx
      rw [initState_seen_lookup] at hx
      by_cases hmem2 : u ∈ S
      · rw [if_pos hmem2] at hx
        have : sx = 0 := by simpa using hx.symm
        subst this
        exact le_refl _
      · rw [if_neg hmem2] at hx; cases hx
    · intro a ha
      rw [initState_seen_lookup, if_pos ha]
    · intro a ha
      rw [initState_paths_lookup, if_pos ha]
  have hB : BInv g w S c st' :=
    (runDijkstra_inv g w S c fo fuel _ hI0 hrun).1
  have hSf : SourceInv S st' :=
    runDijkstra_SourceInv g w S c fo hadjpos fuel _ hI0 hS0 hrun
  -- the source is finalized at 0
  have hds : alookup st'.dist s = some 0 := by
    have hsome : (alookup st'.dist s).isSome := by
      rcases runDijkstra_final g w c fo fuel _ hrun with hfr | ⟨t, htg, hts⟩
      · by_cases hcase : (alookup st'.dist s).isSome
        · exact hcase
        · exfalso
          rw [Option.not_isSome_iff_eq_none] at hcase
          obtain ⟨e, he, _, _⟩ :=
            hB.tentative_entry s 0 (hSf.src_seen s hmem) hcase
          rw [hfr] at he
          simp at he
      · rcases htgt with habs | hts2
        · rw [habs] at htg; cases htg
        · rw [hts2] at htg
          have : t = s := by simpa using htg.symm
          subst this
          exact hts
    obtain ⟨ds, hds⟩ := Option.isSome_iff_exists.mp hsome
    have := hB.dist_seen s ds hds
    rw [hSf.src_seen s hmem] at this
    have : ds = 0 := by simpa using this.symm
    subst this
    exact hds
  rw [hm]
  cases tgt with
  | none =>
    rw [alookup_get_shortest_path_infos, hds]
    simp only [Option.map_some', Option.some.injEq]
    rw [hSf.src_paths s hmem]
    rfl
  | some t =>
    rcases htgt with habs | hts
    · cases habs
    · have hts2 : t = s := by simpa using hts
      subst t
      rw [alookup_filter_key, if_pos rfl]
      rw [alookup_get_shortest_path_infos, hds]
      simp only [Option.map_some', Option.some.injEq]
      rw [hSf.src_paths s hmem]
      rfl

/-- Witness for C10 on the doc example graph, with the target equal to the
source and an arbitrary cutoff. -/
theorem graphrs_claim_C10_witness :
    ((1 : ℕ) ∈ [1]) ∧
    multi_source exampleGraph true [1] (some 1) (some (-7)) false 10 =
      some (Except.ok [(1, { distance := 0, paths := [[1]] })]) ∧
    alookup [((1 : ℕ), ({ distance := 0, paths := [[1]] } : ShortestPathInfo ℕ ℤ))] 1 =
      some { distance := 0, paths := [[1]] } := by
  have h : multi_source exampleGraph true [1] (some 1) (some (-7)) false 10 =
      some (Except.ok [(1, { distance := 0, paths := [[1]] })]) := by decide
  refine ⟨by decide, h, ?_⟩
  exact graphrs_claim_C10 exampleGraph true [1] 1 (some 1) (some (-7)) false 10 _
    (by decide) (Or.inr rfl) (by decide) h


/-! ### Claim C7: all_pairs entries agree with targeted single_source -/

section TargetSim

variable (g : Graph T K) (w : Bool) (S : List T) (c : Option K) (fo : Bool)

/-- Finalized nodes keep their distance and their path set for the rest of
the run. -/
theorem runDijkstra_frozen {tgt : Option T} :
    ∀ (fuel : Nat) (st : DState T K), Inv g w S c st →
    ∀ {r : DState T K}, runDijkstra g w tgt c fo fuel st = some (Except.ok r) →
    ∀ x dx, alookup st.dist x = some dx →
    alookup r.dist x = some dx ∧ alookup r.paths x = alookup st.paths x := by
  intro fuel
  induction fuel with
  | zero =>
    intro st hI r h
    rw [runDijkstra] at h
    by_cases hfr : st.fringe.isEmpty
    · rw [if_pos hfr] at h
      simp only [Option.some.injEq, Except.ok.injEq] at h
      subst h
      exact fun x dx hx => ⟨hx, rfl⟩
    · rw [if_neg hfr] at h
      cases h
  | succ fuel ih =>
    intro st hI r h
    rw [runDijkstra] at h
    cases hpop : popMax st.fringe with
    | none =>
      rw [hpop] at h
      simp only [Option.some.injEq, Except.ok.injEq] at h
      subst h
      exact fun x dx hx => ⟨hx, rfl⟩
    | some p =>
      obtain ⟨m, rest⟩ := p
      rw [hpop] at h
      simp only at h
      cases hfresh : alookup st.dist m.node_name with
      | some dm =>
        rw [hfresh] at h
        simp only [Option.isSome_some, if_pos] at h
        exact ih _ (Inv_pop_stale g w S c hI hpop hfresh) h
      | none =>
        rw [hfresh] at h
        simp only [Option.isSome_none, Bool.false_eq_true, if_false] at h
        obtain ⟨hseenm, hB2, hrel2⟩ := pop_fresh_facts g w S c hI hpop hfresh
        have hxm : ∀ x dx, alookup st.dist x = some dx → x ≠ m.node_name := by
          intro x dx hx habs
          subst habs
          rw [hfresh] at hx
          cases hx
        by_cases htv : tgt = some m.node_name
        · rw [if_pos htv] at h
          simp only [Option.some.injEq, Except.ok.injEq] at h
          subst h
          intro x dx hx
          refine ⟨?_, rfl⟩
          show alookup ((m.node_name, -m.distance) :: st.dist) x = some dx
          rw [alookup_cons_ne _ _ (hxm x dx hx)]
          exact hx
        · rw [if_neg htv] at h
          cases hexp : expand g w c fo m.node_name
              (get_successors_or_neighbors g m.node_name)
              { st with fringe := rest, dist := (m.node_name, -m.distance) :: st.dist, pops := st.pops ++ [(m.node_name, -m.distance)] } with
          | error e => rw [hexp] at h; cases h
          | ok st3 =>
            rw [hexp] at h
            have hI3 : Inv g w S c st3 := by
              refine expand_inv g w S c fo _ _ hB2 (alookup_cons_self _ _ _) ?_ ?_
                (fun y hy => hy) hexp
              · exact hrel2
              · intro y hy hynr _
                exact absurd hy hynr
            have hDP2 : ∀ x dx,
                alookup ((m.node_name, -m.distance) :: st.dist) x = some dx →
                (alookup st.paths x).isSome := by
              intro x dx hx
              obtain ⟨ps, hps, _, _⟩ := hB2.seen_paths x dx (hB2.dist_seen x dx hx)
              rw [hps]; rfl
            intro x dx hx
            have hx2 : alookup ((m.node_name, -m.distance) :: st.dist) x = some dx := by
              rw [alookup_cons_ne _ _ (hxm x dx hx)]
              exact hx
            have hfr3 := expand_paths_frozen g w c fo _ hDP2 hexp x dx hx2
            have hd3 : alookup st3.dist x = some dx := by
              rw [expand_dist_eq g w c fo _ hexp]
              exact hx2
            obtain ⟨hdr, hpr⟩ := ih st3 hI3 h x dx hd3
            exact ⟨hdr, by rw [hpr, hfr3]⟩

/-- If the untargeted run finalizes `t`, the run with target `t` completes
within the same fuel and agrees with it on `t`'s distance and paths. -/
theorem runDijkstra_target_sim (t : T) :
    ∀ (fuel : Nat) (st : DState T K), Inv g w S c st →
    ∀ {r : DState T K}, runDijkstra g w none c fo fuel st = some (Except.ok r) →
    ∀ d, alookup r.dist t = some d →
    ∃ r2, runDijkstra g w (some t) c fo fuel st = some (Except.ok r2) ∧
      alookup r2.dist t = some d ∧
      alookup r2.paths t = alookup r.paths t ∧
      BInv g w S c r2 := by
  intro fuel
  induction fuel with
  | zero =>
    intro st hI r h d hd
    rw [runDijkstra] at h
    by_cases hfr : st.fringe.isEmpty
    · rw [if_pos hfr] at h
      simp only [Option.some.injEq, Except.ok.injEq] at h
      subst h
      exact ⟨st, by rw [runDijkstra, if_pos hfr], hd, rfl, hI.toBInv⟩
    · rw [if_neg hfr] at h
      cases h
  | succ fuel ih =>
    intro st hI r h d hd
    rw [runDijkstra] at h
    cases hpop : popMax st.fringe with
    | none =>
      rw [hpop] at h
      simp only [Option.some.injEq, Except.ok.injEq] at h
      subst h
      exact ⟨st, by rw [runDijkstra, hpop], hd, rfl, hI.toBInv⟩
    | some p =>
      obtain ⟨m, rest⟩ := p
      rw [hpop] at h
      simp only at h
      cases hfresh : alookup st.dist m.node_name with
      | some dm =>
        rw [hfresh] at h
        simp only [Option.isSome_some, if_pos] at h
        obtain ⟨r2, hr2, hrest⟩ := ih _ (Inv_pop_stale g w S c hI hpop hfresh) h d hd
        refine ⟨r2, ?_, hrest⟩
        rw [runDijkstra, hpop]
        simp only [hfresh, Option.isSome_some, if_pos]
        exact hr2
      | none =>
        rw [hfresh] at h
        simp only [Option.isSome_none, Bool.false_eq_true, if_false] at h
        obtain ⟨hseenm, hB2, hrel2⟩ := pop_fresh_facts g w S c hI hpop hfresh
        have hnone : (none : Option T) = some m.node_name → False := by
          intro habs; cases habs
        rw [if_neg hnone] at h
        cases hexp : expand g w c fo m.node_name
            (get_successors_or_neighbors g m.node_name)
            { st with fringe := rest, dist := (m.node_name, -m.distance) :: st.dist, pops := st.pops ++ [(m.node_name, -m.distance)] } with
        | error e => rw [hexp] at h; cases h
        | ok st3 =>
          rw [hexp] at h
          have hI3 : Inv g w S c st3 := by
            refine expand_inv g w S c fo _ _ hB2 (alookup_cons_self _ _ _) ?_ ?_
              (fun y hy => hy) hexp
            · exact hrel2
            · intro y hy hynr _
              exact absurd hy hynr
          by_cases htm : t = m.node_name
          · -- the target is popped now: the targeted run stops here
            subst htm
            refine ⟨{ st with fringe := rest, dist := (m.node_name, -m.distance) :: st.dist, pops := st.pops ++ [(m.node_name, -m.distance)] }, ?_, ?_, ?_, hB2⟩
            · rw [runDijkstra, hpop]
              simp [hfresh]
            · -- the final distance of the target equals the one just inserted
              have hd2 : alookup ((m.node_name, -m.distance) :: st.dist) m.node_name = some (-m.distance) :=
                alookup_cons_self _ _ _
              have hd3 : alookup st3.dist m.node_name = some (-m.distance) := by
                rw [expand_dist_eq g w c fo _ hexp]
                exact hd2
              obtain ⟨hdr, _⟩ := runDijkstra_frozen g w S c fo fuel st3 hI3 h m.node_name _ hd3
              rw [hd] at hdr
              have : d = -m.distance := by simpa using hdr
              subst this
              exact alookup_cons_self _ _ _
            · -- the target paths are frozen from here to the end of the none-run
              have hDP2 : ∀ x dx,
                  alookup ((m.node_name, -m.distance) :: st.dist) x = some dx →
                  (alookup st.paths x).isSome := by
                intro x dx hx
                obtain ⟨ps, hps, _, _⟩ := hB2.seen_paths x dx (hB2.dist_seen x dx hx)
                rw [hps]; rfl
              have hd2 : alookup ((m.node_name, -m.distance) :: st.dist) m.node_name = some (-m.distance) :=
                alookup_cons_self _ _ _
              have hfr3 := expand_paths_frozen g w c fo _ hDP2 hexp m.node_name _ hd2
              have hd3 : alookup st3.dist m.node_name = some (-m.distance) := by
                rw [expand_dist_eq g w c fo _ hexp]
                exact hd2
              obtain ⟨_, hpr⟩ := runDijkstra_frozen g w S c fo fuel st3 hI3 h m.node_name _ hd3
              rw [hpr, hfr3]
          · -- not the target: both runs take the same step
            obtain ⟨r2, hr2, hrest⟩ := ih st3 hI3 h d hd
            refine ⟨r2, ?_, hrest⟩
            rw [runDijkstra, hpop]
            simp only [hfresh, Option.isSome_none, Bool.false_eq_true, if_false]
            have hsome : (some t = some m.node_name) → False := by
              intro habs
              exact htm (by simpa using habs)
            rw [if_neg hsome, hexp]
            exact hr2

/-- The filtered result list of a targeted query is the singleton for its
target. -/
theorem get_spi_filter_eq {dist : List (T × K)} {paths : List (T × List (List T))}
    {t : T} {d : K}
    (hnodup : (dist.map Prod.fst).Nodup)
    (hd : alookup dist t = some d) :
    (get_shortest_path_infos dist paths).filter (fun kv => decide (kv.1 = t)) =
      [(t, { distance := d, paths := (alookup paths t).getD [] })] := by
  induction dist with
  | nil => simp [alookup] at hd
  | cons hd0 tl ih =>
    obtain ⟨k, dk⟩ := hd0
    rw [List.map_cons, List.nodup_cons] at hnodup
    by_cases hk : k = t
    · subst k
      rw [alookup_cons_self] at hd
      have : dk = d := by simpa using hd
      subst this
      have hnil : (get_shortest_path_infos tl paths).filter
          (fun kv => decide (kv.1 = t)) = [] := by
        rw [List.filter_eq_nil_iff]
        intro a ha
        obtain ⟨pr, hpr, hpr2⟩ := List.mem_map.mp ha
        simp only [decide_eq_true_eq]
        intro habs
        apply hnodup.1
        rw [← hpr2] at habs
        simp only at habs
        rw [← habs]
        exact List.mem_map.mpr ⟨pr, hpr, rfl⟩
      rw [get_shortest_path_infos, List.map_cons, List.filter_cons,
        ← get_shortest_path_infos, hnil]
      simp
    · rw [alookup_cons_ne _ _ (fun habs => hk habs.symm)] at hd
      rw [get_shortest_path_infos, List.map_cons, List.filter_cons]
      have : (decide (((k, dk).1, ({ distance := (k, dk).2, paths := (alookup paths (k, dk).1).getD [] } : ShortestPathInfo T K)).1 = t)) = false := by
        simp [hk]
      rw [this]
      simp only [Bool.false_eq_true, if_false]
      rw [← get_shortest_path_infos]
      exact ih hnodup.2 hd

/-- Rebuilding a `multi_source` result from a completed run. -/
theorem multi_source_build {tgt : Option T} {fuel : Nat} {st2 : DState T K}
    (hw : (w && !edges_have_weight g) = false)
    (hrun : runDijkstra g w tgt c fo fuel (initState S) = some (Except.ok st2)) :
    multi_source g w S tgt c fo fuel = some (Except.ok
      (match tgt with
       | none => get_shortest_path_infos st2.dist st2.paths
       | some t => (get_shortest_path_infos st2.dist st2.paths).filter
           (fun kv => decide (kv.1 = t)))) := by
  unfold multi_source dijkstra_multisource dijkstra_multisource_st
  rw [hw]
  simp only [Bool.false_eq_true, if_false, hrun]
  cases tgt <;> simp [Except.map]

end TargetSim

/-- C7: an entry of `all_pairs` for source `s` and target `t` is exactly
what the targeted `single_source(g, w, s, Some(t), ...)` query returns:
that query succeeds and returns the singleton map `[(t, info)]`. -/
theorem graphrs_claim_C7 (g : Graph T K) (w : Bool) (c : Option K) (fo : Bool) (fuel : Nat)
    (M : List (T × List (T × ShortestPathInfo T K))) (s t : T)
    (ms : List (T × ShortestPathInfo T K)) (info : ShortestPathInfo T K)
    (hap : all_pairs g w c fo fuel = some (some M))
    (hM : alookup M s = some ms)
    (ht : alookup ms t = some info) :
    single_source g w s (some t) c fo fuel = some (Except.ok [(t, info)]) := by
  have hss : single_source g w s none c fo fuel = some (Except.ok ms) :=
    all_pairs_aux_lookup g w c fo g.nodes hap s ms hM
  obtain ⟨hw, st', hrun, hm⟩ := multi_source_ok_elim g w [s] c fo hss
  have hI0 := initState_Inv g w [s] c
  -- extract the distance of t in the untargeted run
  have ht' : alookup (get_shortest_path_infos st'.dist st'.paths) t = some info := by
    rw [hm] at ht
    exact ht
  rw [alookup_get_shortest_path_infos] at ht'
  cases hdt : alookup st'.dist t with
  | none => rw [hdt] at ht'; cases ht'
  | some d =>
    rw [hdt] at ht'
    simp only [Option.map_some', Option.some.injEq] at ht'
    obtain ⟨r2, hr2, hd2, hp2, hB2⟩ :=
      runDijkstra_target_sim g w [s] c fo t fuel _ hI0 hrun d hdt
    unfold single_source
    have := multi_source_build g w [s] c fo hw hr2
    rw [this]
    simp only [Option.some.injEq, Except.ok.injEq]
    rw [get_spi_filter_eq hB2.dist_nodup hd2, hp2, ht']

/-- Witness for C7 on the doc example graph. -/
theorem graphrs_claim_C7_witness :
    all_pairs exampleGraph true none false 10 =
      some (some [(1, [(3, { distance := 21, paths := [[1, 2, 3]] }),
          (2, { distance := 10, paths := [[1, 2]] }),
          (1, { distance := 0, paths := [[1]] })]),
        (2, [(1, { distance := 20, paths := [[2, 1]] }),
          (3, { distance := 11, paths := [[2, 3]] }),
          (2, { distance := 0, paths := [[2]] })]),
        (3, [(3, { distance := 0, paths := [[3]] })])]) ∧
    single_source exampleGraph true 1 (some 3) none false 10 =
      some (Except.ok [(3, { distance := 21, paths := [[1, 2, 3]] })]) := by
  have h : all_pairs exampleGraph true none false 10 =
      some (some [(1, [(3, { distance := 21, paths := [[1, 2, 3]] }),
          (2, { distance := 10, paths := [[1, 2]] }),
          (1, { distance := 0, paths := [[1]] })]),
        (2, [(1, { distance := 20, paths := [[2, 1]] }),
          (3, { distance := 11, paths := [[2, 3]] }),
          (2, { distance := 0, paths := [[2]] })]),
        (3, [(3, { distance := 0, paths := [[3]] })])]) := by rfl
  refine ⟨h, ?_⟩
  exact graphrs_claim_C7 exampleGraph true none false 10 _ 1 3
    [(3, { distance := 21, paths := [[1, 2, 3]] }),
     (2, { distance := 10, paths := [[1, 2]] }),
     (1, { distance := 0, paths := [[1]] })]
    { distance := 21, paths := [[1, 2, 3]] } h (by decide) (by decide)


/-! ### Claim C9: cutoff monotonicity -/

section CutoffMono

variable (g : Graph T K) (w : Bool) (S : List T) (c : Option K) (fo : Bool)

theorem cutoff_exceeded_some_false_iff (cv d : K) :
    cutoff_exceeded (some cv) d = false ↔ d ≤ cv := by
  simp [cutoff_exceeded, not_lt]

/-- After a successful expansion from `v`, every uncut neighbor candidate
bounds either the neighbor's already-finalized distance or its tentative
distance in the resulting state. -/
theorem expand_bound {v : T} {dv : K} :
    ∀ (us : List T) {st st' : DState T K},
    expand g w c fo v us st = Except.ok st' →
    alookup st.dist v = some dv →
    ∀ u ∈ us, cutoff_exceeded c (dv + get_cost g w v u) = false →
    (∀ du, alookup st.dist u = some du → du ≤ dv + get_cost g w v u) ∧
    (alookup st.dist u = none →
      ∃ su, alookup st'.seen u = some su ∧ su ≤ dv + get_cost g w v u) := by
  intro us
  induction us with
  | nil =>
    intro st st' h hv u hu
    cases hu
  | cons u0 rest ih =>
    intro st st' h hv u hu hcut
    rw [expand] at h
    cases hr : relax g w c fo v u0 st with
    | error e => rw [hr] at h; cases h
    | ok st1 =>
      rw [hr] at h
      have hdist1 : st1.dist = st.dist := relax_dist_eq g w c fo hr
      by_cases hu0 : u = u0
      · subst u0
        rcases relax_ok_elim g w c fo hr with
          ⟨heq, hcut1 | ⟨du, hdu, hle⟩ | ⟨hdn, su, hsu, hle⟩⟩ |
          ⟨_, hdn, ⟨heq, _⟩ | ⟨heq, _, hsu⟩⟩
        · rw [hv, Option.getD_some] at hcut1
          rw [hcut1] at hcut
          cases hcut
        · rw [hv, Option.getD_some] at hle
          constructor
          · intro du' hdu'
            rw [hdu'] at hdu
            have : du = du' := by simpa using hdu.symm
            subst this
            exact hle
          · intro hnone
            rw [hnone] at hdu
            cases hdu
        · rw [hv, Option.getD_some] at hle
          refine ⟨fun du' hdu' => absurd hdu' (by rw [hdn]; simp), fun _ => ?_⟩
          have hsu1 : alookup st1.seen u = some su := by rw [heq]; exact hsu
          obtain ⟨su', hsu', hle'⟩ := expand_seen_mono g w c fo rest h u su hsu1
          exact ⟨su', hsu', hle'.trans hle⟩
        · refine ⟨fun du' hdu' => absurd hdu' (by rw [hdn]; simp), fun _ => ?_⟩
          have hsu1 : alookup st1.seen u =
              some ((alookup st.dist v).getD 0 + get_cost g w v u) := by
            rw [heq, extendState_seen_lookup]
            simp
          obtain ⟨su', hsu', hle'⟩ := expand_seen_mono g w c fo rest h u _ hsu1
          rw [hv, Option.getD_some] at hle'
          exact ⟨su', hsu', hle'⟩
        · refine ⟨fun du' hdu' => absurd hdu' (by rw [hdn]; simp), fun _ => ?_⟩
          have hsu1 : alookup st1.seen u =
              some ((alookup st.dist v).getD 0 + get_cost g w v u) := by
            rw [heq, mergeState_seen]
            exact hsu
          obtain ⟨su', hsu', hle'⟩ := expand_seen_mono g w c fo rest h u _ hsu1
          rw [hv, Option.getD_some] at hle'
          exact ⟨su', hsu', hle'⟩
      · have hurest : u ∈ rest := by
          rcases List.mem_cons.mp hu with habs | hgood
          · exact absurd habs hu0
          · exact hgood
        have hv1 : alookup st1.dist v = some dv := by rw [hdist1]; exact hv
        have hres := ih h hv1 u hurest hcut
        rw [hdist1] at hres
        exact hres

/-- In an untargeted run every tentative node ends up finalized at no more
than its tentative distance. -/
theorem runDijkstra_eventual :
    ∀ (fuel : Nat) (st : DState T K), Inv g w S c st →
    ∀ {r : DState T K}, runDijkstra g w none c fo fuel st = some (Except.ok r) →
    ∀ u s, alookup st.seen u = some s → alookup st.dist u = none →
    ∃ du, alookup r.dist u = some du ∧ du ≤ s := by
  intro fuel
  induction fuel with
  | zero =>
    intro st hI r h u s hsu hdu
    obtain ⟨e, he, _, _⟩ := hI.tentative_entry u s hsu hdu
    rw [runDijkstra] at h
    by_cases hfr : st.fringe.isEmpty
    · rw [List.isEmpty_iff] at hfr
      rw [hfr] at he
      cases he
    · rw [if_neg hfr] at h
      cases h
  | succ fuel ih =>
    intro st hI r h u s hsu hdu
    rw [runDijkstra] at h
    cases hpop : popMax st.fringe with
    | none =>
      rw [popMax_eq_none_iff] at hpop
      obtain ⟨e, he, _, _⟩ := hI.tentative_entry u s hsu hdu
      rw [hpop] at he
      cases he
    | some p =>
      obtain ⟨m, rest⟩ := p
      rw [hpop] at h
      simp only at h
      cases hfresh : alookup st.dist m.node_name with
      | some dm =>
        rw [hfresh] at h
        simp only [Option.isSome_some, if_pos] at h
        exact ih _ (Inv_pop_stale g w S c hI hpop hfresh) h u s hsu hdu
      | none =>
        rw [hfresh] at h
        simp only [Option.isSome_none, Bool.false_eq_true, if_false] at h
        obtain ⟨hseenm, hB2, hrel2⟩ := pop_fresh_facts g w S c hI hpop hfresh
        have hnone : (none : Option T) = some m.node_name → False := by
          intro habs; cases habs
        rw [if_neg hnone] at h
        cases hexp : expand g w c fo m.node_name
            (get_successors_or_neighbors g m.node_name)
            { st with fringe := rest, dist := (m.node_name, -m.distance) :: st.dist, pops := st.pops ++ [(m.node_name, -m.distance)] } with
        | error e => rw [hexp] at h; cases h
        | ok st3 =>
          rw [hexp] at h
          have hI3 : Inv g w S c st3 := by
            refine expand_inv g w S c fo _ _ hB2 (alookup_cons_self _ _ _) ?_ ?_
              (fun y hy => hy) hexp
            · exact hrel2
            · intro y hy hynr _
              exact absurd hy hynr
          by_cases hum : u = m.node_name
          · subst u
            have hs : s = -m.distance := by
              rw [hsu] at hseenm
              simpa using hseenm
            subst s
            have hd3 : alookup st3.dist m.node_name = some (-m.distance) := by
              rw [expand_dist_eq g w c fo _ hexp]
              exact alookup_cons_self _ _ _
            obtain ⟨hdr, _⟩ := runDijkstra_frozen g w S c fo fuel st3 hI3 h m.node_name _ hd3
            exact ⟨-m.distance, hdr, le_refl _⟩
          · have hd2 : alookup ((m.node_name, -m.distance) :: st.dist) u = none := by
              rw [alookup_cons_ne _ _ hum]
              exact hdu
            have hd3 : alookup st3.dist u = none := by
              rw [expand_dist_eq g w c fo _ hexp]
              exact hd2
            obtain ⟨s3, hs3, hle3⟩ := expand_seen_mono g w c fo _ hexp u s hsu
            obtain ⟨du, hdur, hdule⟩ := ih st3 hI3 h u s3 hs3 hd3
            exact ⟨du, hdur, hdule.trans hle3⟩

/-- In a completed untargeted run, every pop's uncut neighbor candidate
bounds the neighbor's final distance. -/
theorem runDijkstra_tri :
    ∀ (fuel : Nat) (st : DState T K), Inv g w S c st →
    ∀ {r : DState T K}, runDijkstra g w none c fo fuel st = some (Except.ok r) →
    ∀ pr, pr ∈ r.pops → pr ∉ st.pops →
    ∀ u, u ∈ get_successors_or_neighbors g pr.1 →
    cutoff_exceeded c (pr.2 + get_cost g w pr.1 u) = false →
    ∃ du, alookup r.dist u = some du ∧ du ≤ pr.2 + get_cost g w pr.1 u := by
  intro fuel
  induction fuel with
  | zero =>
    intro st hI r h pr hpr hprn u hu hcut
    rw [runDijkstra] at h
    by_cases hfr : st.fringe.isEmpty
    · rw [if_pos hfr] at h
      simp only [Option.some.injEq, Except.ok.injEq] at h
      subst h
      exact absurd hpr hprn
    · rw [if_neg hfr] at h
      cases h
  | succ fuel ih =>
    intro st hI r h pr hpr hprn u hu hcut
    rw [runDijkstra] at h
    cases hpop : popMax st.fringe with
    | none =>
      rw [hpop] at h
      simp only [Option.some.injEq, Except.ok.injEq] at h
      subst h
      exact absurd hpr hprn
    | some p =>
      obtain ⟨m, rest⟩ := p
      rw [hpop] at h
      simp only at h
      cases hfresh : alookup st.dist m.node_name with
      | some dm =>
        rw [hfresh] at h
        simp only [Option.isSome_some, if_pos] at h
        exact ih _ (Inv_pop_stale g w S c hI hpop hfresh) h pr hpr hprn u hu hcut
      | none =>
        rw [hfresh] at h
        simp only [Option.isSome_none, Bool.false_eq_true, if_false] at h
        obtain ⟨hseenm, hB2, hrel2⟩ := pop_fresh_facts g w S c hI hpop hfresh
        have hnone : (none : Option T) = some m.node_name → False := by
          intro habs; cases habs
        rw [if_neg hnone] at h
        cases hexp : expand g w c fo m.node_name
            (get_successors_or_neighbors g m.node_name)
            { st with fringe := rest, dist := (m.node_name, -m.distance) :: st.dist, pops := st.pops ++ [(m.node_name, -m.distance)] } with
        | error e => rw [hexp] at h; cases h
        | ok st3 =>
          rw [hexp] at h
          have hI3 : Inv g w S c st3 := by
            refine expand_inv g w S c fo _ _ hB2 (alookup_cons_self _ _ _) ?_ ?_
              (fun y hy => hy) hexp
            · exact hrel2
            · intro y hy hynr _
              exact absurd hy hynr
          by_cases hpr3 : pr ∈ st3.pops
          · have hpops3 : st3.pops = st.pops ++ [(m.node_name, -m.distance)] :=
              expand_pops_eq g w c fo _ hexp
            have hpr2 : pr = (m.node_name, -m.distance) := by
              rw [hpops3, List.mem_append] at hpr3
              rcases hpr3 with habs | hone
              · exact absurd habs hprn
              · simpa using hone
            subst hpr2
            have hv2 : alookup ({ st with fringe := rest, dist := (m.node_name, -m.distance) :: st.dist, pops := st.pops ++ [(m.node_name, -m.distance)] } : DState T K).dist m.node_name = some (-m.distance) :=
              alookup_cons_self _ _ _
            obtain ⟨hfin, htent⟩ := expand_bound g w c fo _ hexp hv2 u hu hcut
            cases hdu2 : alookup ((m.node_name, -m.distance) :: st.dist) u with
            | some du =>
              have hle := hfin du hdu2
              have hd3 : alookup st3.dist u = some du := by
                rw [expand_dist_eq g w c fo _ hexp]
                exact hdu2
              obtain ⟨hdr, _⟩ := runDijkstra_frozen g w S c fo fuel st3 hI3 h u du hd3
              exact ⟨du, hdr, hle⟩
            | none =>
              obtain ⟨su, hsu3, hsule⟩ := htent hdu2
              have hd3 : alookup st3.dist u = none := by
                rw [expand_dist_eq g w c fo _ hexp]
                exact hdu2
              obtain ⟨du, hdur, hdule⟩ :=
                runDijkstra_eventual g w S c fo fuel st3 hI3 h u su hsu3 hd3
              exact ⟨du, hdur, hdule.trans hsule⟩
          · exact ih st3 hI3 h pr hpr hpr3 u hu hcut

/-- Transferring pops of the run at the smaller cutoff: the other run's
distance map `D` (with its seed and triangle facts) covers every pop at no
greater depth. -/
theorem runDijkstra_pops_good {tgt : Option T} {c1 c2 : K} {D : List (T × K)}
    (hc12 : c1 ≤ c2)
    (hseed : ∀ s ∈ S, ∃ du, alookup D s = some du ∧ du ≤ 0)
    (htri : ∀ x dx, alookup D x = some dx →
      ∀ u, u ∈ get_successors_or_neighbors g x →
      cutoff_exceeded (some c2) (dx + get_cost g w x u) = false →
      ∃ du, alookup D u = some du ∧ du ≤ dx + get_cost g w x u) :
    ∀ (fuel : Nat) (st : DState T K), Inv g w S (some c1) st →
    ∀ {r : DState T K}, runDijkstra g w tgt (some c1) fo fuel st = some (Except.ok r) →
    (∀ pr ∈ st.pops, ∃ du, alookup D pr.1 = some du ∧ du ≤ pr.2) →
    ∀ pr ∈ r.pops, ∃ du, alookup D pr.1 = some du ∧ du ≤ pr.2 := by
  intro fuel
  induction fuel with
  | zero =>
    intro st hI r h hacc
    rw [runDijkstra] at h
    by_cases hfr : st.fringe.isEmpty
    · rw [if_pos hfr] at h
      simp only [Option.some.injEq, Except.ok.injEq] at h
      subst h
      exact hacc
    · rw [if_neg hfr] at h
      cases h
  | succ fuel ih =>
    intro st hI r h hacc
    rw [runDijkstra] at h
    cases hpop : popMax st.fringe with
    | none =>
      rw [hpop] at h
      simp only [Option.some.injEq, Except.ok.injEq] at h
      subst h
      exact hacc
    | some p =>
      obtain ⟨m, rest⟩ := p
      rw [hpop] at h
      simp only at h
      cases hfresh : alookup st.dist m.node_name with
      | some dm =>
        rw [hfresh] at h
        simp only [Option.isSome_some, if_pos] at h
        exact ih _ (Inv_pop_stale g w S (some c1) hI hpop hfresh) h hacc
      | none =>
        rw [hfresh] at h
        simp only [Option.isSome_none, Bool.false_eq_true, if_false] at h
        obtain ⟨hseenm, hB2, hrel2⟩ := pop_fresh_facts g w S (some c1) hI hpop hfresh
        have hGood : ∃ du, alookup D m.node_name = some du ∧ du ≤ -m.distance := by
          rcases hI.seen_just m.node_name (-m.distance) hseenm with
            ⟨hmS, hm0⟩ | ⟨pr', hpr', hsucc, heq, hcutf⟩
          · obtain ⟨du, hdu, hdule⟩ := hseed m.node_name hmS
            exact ⟨du, hdu, by rw [hm0]; exact hdule⟩
          · obtain ⟨du', hdu', hdule'⟩ := hacc pr' hpr'
            have hc1b : -m.distance ≤ c1 := by
              rw [cutoff_exceeded_some_false_iff] at hcutf
              exact hcutf
            have hc2f : cutoff_exceeded (some c2)
                (du' + get_cost g w pr'.1 m.node_name) = false := by
              rw [cutoff_exceeded_some_false_iff]
              calc du' + get_cost g w pr'.1 m.node_name
                  ≤ pr'.2 + get_cost g w pr'.1 m.node_name := add_le_add_right hdule' _
                _ = -m.distance := heq.symm
                _ ≤ c1 := hc1b
                _ ≤ c2 := hc12
            obtain ⟨du, hdu, hdule⟩ := htri pr'.1 du' hdu' m.node_name hsucc hc2f
            refine ⟨du, hdu, ?_⟩
            calc du ≤ du' + get_cost g w pr'.1 m.node_name := hdule
              _ ≤ pr'.2 + get_cost g w pr'.1 m.node_name := add_le_add_right hdule' _
              _ = -m.distance := heq.symm
        have hacc2 : ∀ pr ∈ st.pops ++ [(m.node_name, -m.distance)],
            ∃ du, alookup D pr.1 = some du ∧ du ≤ pr.2 := by
          intro pr hpr
          rcases List.mem_append.mp hpr with hold | hnew
          · exact hacc pr hold
          · have : pr = (m.node_name, -m.distance) := by simpa using hnew
            subst this
            exact hGood
        by_cases htv : tgt = some m.node_name
        · rw [if_pos htv] at h
          simp only [Option.some.injEq, Except.ok.injEq] at h
          subst h
          exact hacc2
        · rw [if_neg htv] at h
          cases hexp : expand g w (some c1) fo m.node_name
              (get_successors_or_neighbors g m.node_name)
              { st with fringe := rest, dist := (m.node_name, -m.distance) :: st.dist, pops := st.pops ++ [(m.node_name, -m.distance)] } with
          | error e => rw [hexp] at h; cases h
          | ok st3 =>
            rw [hexp] at h
            have hI3 : Inv g w S (some c1) st3 := by
              refine expand_inv g w S (some c1) fo _ _ hB2 (alookup_cons_self _ _ _) ?_ ?_
                (fun y hy => hy) hexp
              · exact hrel2
              · intro y hy hynr _
                exact absurd hy hynr
            have hacc3 : ∀ pr ∈ st3.pops,
                ∃ du, alookup D pr.1 = some du ∧ du ≤ pr.2 := by
              rw [expand_pops_eq g w (some c1) fo _ hexp]
              exact hacc2
            exact ih st3 hI3 h hacc3

/-- A targeted run that never finalizes its target coincides with the
untargeted run. -/
theorem runDijkstra_nobreak {t : T} :
    ∀ (fuel : Nat) (st : DState T K) {r : DState T K},
    runDijkstra g w (some t) c fo fuel st = some (Except.ok r) →
    alookup r.dist t = none →
    runDijkstra g w none c fo fuel st = some (Except.ok r) := by
  intro fuel
  induction fuel with
  | zero =>
    intro st r h _
    rw [runDijkstra] at h ⊢
    exact h
  | succ fuel ih =>
    intro st r h hrt
    rw [runDijkstra] at h ⊢
    cases hpop : popMax st.fringe with
    | none =>
      rw [hpop] at h
      exact h
    | some p =>
      obtain ⟨m, rest⟩ := p
      rw [hpop] at h
      simp only at h ⊢
      cases hfresh : alookup st.dist m.node_name with
      | some dm =>
        rw [hfresh] at h
        simp only [Option.isSome_some, if_pos] at h ⊢
        exact ih _ h hrt
      | none =>
        rw [hfresh] at h
        simp only [Option.isSome_none, Bool.false_eq_true, if_false] at h ⊢
        have hnone : (none : Option T) = some m.node_name → False := by
          intro habs; cases habs
        rw [if_neg hnone]
        by_cases htv : (some t : Option T) = some m.node_name
        · rw [if_pos htv] at h
          simp only [Option.some.injEq, Except.ok.injEq] at h
          exfalso
          have ht : t = m.node_name := by simpa using htv
          subst ht
          rw [← h] at hrt
          simp only at hrt
          rw [alookup_cons_self] at hrt
          cases hrt
        · rw [if_neg htv] at h
          cases hexp : expand g w c fo m.node_name
              (get_successors_or_neighbors g m.node_name)
              { st with fringe := rest, dist := (m.node_name, -m.distance) :: st.dist, pops := st.pops ++ [(m.node_name, -m.distance)] } with
          | error e => rw [hexp] at h; cases h
          | ok st3 =>
            rw [hexp] at h
            exact ih st3 h hrt

end CutoffMono

/-- C9: with all other arguments equal, raising the cutoff can only
enlarge the set of targets present in a successful result. -/
theorem graphrs_claim_C9 (g : Graph T K) (w : Bool) (S : List T) (tgt : Option T)
    (fo : Bool) (c1 c2 : K) (fuel1 fuel2 : Nat)
    (m1 m2 : List (T × ShortestPathInfo T K))
    (h1 : multi_source g w S tgt (some c1) fo fuel1 = some (Except.ok m1))
    (h2 : multi_source g w S tgt (some c2) fo fuel2 = some (Except.ok m2))
    (hc : c1 < c2) :
    ∀ x, (alookup m1 x).isSome → (alookup m2 x).isSome := by
  obtain ⟨hw1, st1, hrun1, hm1⟩ := multi_source_ok_elim g w S (some c1) fo h1
  obtain ⟨hw2, st2, hrun2, hm2⟩ := multi_source_ok_elim g w S (some c2) fo h2
  have hI1 := initState_Inv g w S (some c1)
  have hI2 := initState_Inv g w S (some c2)
  have hB1 : BInv g w S (some c1) st1 :=
    (runDijkstra_inv g w S (some c1) fo fuel1 _ hI1 hrun1).1
  intro x hx
  cases tgt with
  | none =>
    have hB2 : BInv g w S (some c2) st2 :=
      (runDijkstra_inv g w S (some c2) fo fuel2 _ hI2 hrun2).1
    have hseed : ∀ s ∈ S, ∃ du, alookup st2.dist s = some du ∧ du ≤ 0 := by
      intro s hS
      have hsu : alookup (initState S : DState T K).seen s = some 0 := by
        rw [initState_seen_lookup, if_pos hS]
      exact runDijkstra_eventual g w S (some c2) fo fuel2 _ hI2 hrun2 s 0 hsu rfl
    have htri : ∀ y dy, alookup st2.dist y = some dy →
        ∀ u, u ∈ get_successors_or_neighbors g y →
        cutoff_exceeded (some c2) (dy + get_cost g w y u) = false →
        ∃ du, alookup st2.dist u = some du ∧ du ≤ dy + get_cost g w y u := by
      intro y dy hy u hu hcu
      have hpr : (y, dy) ∈ st2.pops := hB2.dist_pops y dy hy
      exact runDijkstra_tri g w S (some c2) fo fuel2 _ hI2 hrun2 (y, dy) hpr
        (by simp [initState]) u hu hcu
    have hgood := runDijkstra_pops_good g w S fo hc.le hseed htri fuel1 _ hI1 hrun1
      (by intro pr hpr; simp [initState] at hpr)
    rw [hm1, alookup_get_shortest_path_infos] at hx
    cases hdx : alookup st1.dist x with
    | none =>
      rw [hdx] at hx
      simp at hx
    | some dx =>
      have hpr : (x, dx) ∈ st1.pops := hB1.dist_pops x dx hdx
      obtain ⟨du, hdu, _⟩ := hgood (x, dx) hpr
      rw [hm2, alookup_get_shortest_path_infos]
      simp only at hdu
      rw [hdu]
      rfl
  | some t =>
    rw [hm1, alookup_filter_key] at hx
    by_cases hxt : x = t
    · subst x
      rw [if_pos rfl, alookup_get_shortest_path_infos] at hx
      cases hdx : alookup st1.dist t with
      | none =>
        rw [hdx] at hx
        simp at hx
      | some d1 =>
        rw [hm2, alookup_filter_key, if_pos rfl, alookup_get_shortest_path_infos]
        by_cases hd2 : (alookup st2.dist t).isSome
        · cases hds : alookup st2.dist t with
          | none => simp [hds] at hd2
          | some d2 => rfl
        · exfalso
          rw [Option.not_isSome_iff_eq_none] at hd2
          have hrun2n : runDijkstra g w none (some c2) fo fuel2 (initState S) =
              some (Except.ok st2) :=
            runDijkstra_nobreak g w (some c2) fo fuel2 _ hrun2 hd2
          have hseed : ∀ s ∈ S, ∃ du, alookup st2.dist s = some du ∧ du ≤ 0 := by
            intro s hS
            have hsu : alookup (initState S : DState T K).seen s = some 0 := by
              rw [initState_seen_lookup, if_pos hS]
            exact runDijkstra_eventual g w S (some c2) fo fuel2 _ hI2 hrun2n s 0 hsu rfl
          have hB2 : BInv g w S (some c2) st2 :=
            (runDijkstra_inv g w S (some c2) fo fuel2 _ hI2 hrun2n).1
          have htri : ∀ y dy, alookup st2.dist y = some dy →
              ∀ u, u ∈ get_successors_or_neighbors g y →
              cutoff_exceeded (some c2) (dy + get_cost g w y u) = false →
              ∃ du, alookup st2.dist u = some du ∧ du ≤ dy + get_cost g w y u := by
            intro y dy hy u hu hcu
            have hpr : (y, dy) ∈ st2.pops := hB2.dist_pops y dy hy
            exact runDijkstra_tri g w S (some c2) fo fuel2 _ hI2 hrun2n (y, dy) hpr
              (by simp [initState]) u hu hcu
          have hgood := runDijkstra_pops_good g w S fo hc.le hseed htri fuel1 _ hI1 hrun1
            (by intro pr hpr; simp [initState] at hpr)
          have hpr : (t, d1) ∈ st1.pops := hB1.dist_pops t d1 hdx
          obtain ⟨du, hdu, _⟩ := hgood (t, d1) hpr
          simp only at hdu
          rw [hd2] at hdu
          cases hdu
    · rw [if_neg hxt] at hx
      simp at hx

/-- Witness for C9 on the doc example graph with cutoffs 5 and 15. -/
theorem graphrs_claim_C9_witness :
    multi_source exampleGraph true [1] none (some (5 : ℤ)) false 10 =
      some (Except.ok [(1, { distance := 0, paths := [[1]] })]) ∧
    multi_source exampleGraph true [1] none (some (15 : ℤ)) false 10 =
      some (Except.ok [(2, { distance := 10, paths := [[1, 2]] }),
        (1, { distance := 0, paths := [[1]] })]) ∧
    (alookup [(2, ({ distance := 10, paths := [[1, 2]] } : ShortestPathInfo ℕ ℤ)),
        (1, { distance := 0, paths := [[1]] })] 1).isSome := by
  refine ⟨by decide, by decide, ?_⟩
  exact graphrs_claim_C9 exampleGraph true [1] none false 5 15 10 10
    [(1, { distance := 0, paths := [[1]] })]
    [(2, { distance := 10, paths := [[1, 2]] }),
      (1, { distance := 0, paths := [[1]] })]
    (by decide) (by decide) (by decide) 1 (by decide)


/-! ### Claim C6: path multiplicity and completeness -/

section FirstOnly

variable (g : Graph T K) (w : Bool) (S : List T) (c : Option K) (fo : Bool)


theorem relax_PInv {v u : T} {d : K} {st st' : DState T K}
    (hvd : alookup st.dist v = some d)
    (hvp : (alookup st.paths v).isSome)
    (hfo : fo = true)
    (hP : PInv st)
    (h : relax g w c fo v u st = Except.ok st') :
    PInv st' ∧ (alookup st'.paths v).isSome := by
  rcases relax_ok_elim g w c fo h with ⟨rfl, _⟩ | ⟨_, hud, ⟨rfl, _⟩ | ⟨_, hfo2, _⟩⟩
  · exact ⟨hP, hvp⟩
  · have huv : u ≠ v := by
      intro habs
      subst habs
      rw [hvd] at hud
      cases hud
    obtain ⟨pvs, hpvs⟩ := Option.isSome_iff_exists.mp hvp
    obtain ⟨pv, hpv⟩ := hP v pvs hpvs
    subst hpv
    constructor
    · intro x ps hx
      unfold extendState at hx
      simp only [hpvs, Option.isSome_some, if_pos] at hx
      by_cases hxu : x = u
      · subst x
        rw [alookup_cons_self] at hx
        exact ⟨pv ++ [u], by simpa using hx.symm⟩
      · rw [alookup_cons_ne _ _ hxu] at hx
        exact hP x ps hx
    · unfold extendState
      simp only [hpvs, Option.isSome_some, if_pos]
      rw [alookup_cons_ne _ _ (fun habs => huv habs.symm)]
      rw [hpvs]
      rfl
  · rw [hfo2] at hfo
    cases hfo

theorem expand_PInv {v : T} {d : K} :
    ∀ (us : List T) {st st' : DState T K},
    alookup st.dist v = some d →
    (alookup st.paths v).isSome →
    fo = true →
    PInv st →
    expand g w c fo v us st = Except.ok st' →
    PInv st' := by
  intro us
  induction us with
  | nil =>
    intro st st' _ _ _ hP h
    rw [expand] at h
    simp only [Except.ok.injEq] at h
    rw [← h]
    exact hP
  | cons u rest ih =>
    intro st st' hvd hvp hfo hP h
    rw [expand] at h
    cases hr : relax g w c fo v u st with
    | error e => rw [hr] at h; cases h
    | ok st1 =>
      rw [hr] at h
      obtain ⟨hP1, hvp1⟩ := relax_PInv g w c fo hvd hvp hfo hP hr
      have hvd1 : alookup st1.dist v = some d := by
        rw [relax_dist_eq g w c fo hr]
        exact hvd
      exact ih hvd1 hvp1 hfo hP1 h

theorem runDijkstra_PInv {tgt : Option T} (hfo : fo = true) :
    ∀ (fuel : Nat) (st : DState T K), Inv g w S c st → PInv st →
    ∀ {r : DState T K}, runDijkstra g w tgt c fo fuel st = some (Except.ok r) →
    PInv r := by
  intro fuel
  induction fuel with
  | zero =>
    intro st hI hP r h
    rw [runDijkstra] at h
    by_cases hfr : st.fringe.isEmpty
    · rw [if_pos hfr] at h
      simp only [Option.some.injEq, Except.ok.injEq] at h
      subst h
      exact hP
    · rw [if_neg hfr] at h
      cases h
  | succ fuel ih =>
    intro st hI hP r h
    rw [runDijkstra] at h
    cases hpop : popMax st.fringe with
    | none =>
      rw [hpop] at h
      simp only [Option.some.injEq, Except.ok.injEq] at h
      subst h
      exact hP
    | some p =>
      obtain ⟨m, rest⟩ := p
      rw [hpop] at h
      simp only at h
      cases hfresh : alookup st.dist m.node_name with
      | some dm =>
        rw [hfresh] at h
        simp only [Option.isSome_some, if_pos] at h
        exact ih _ (Inv_pop_stale g w S c hI hpop hfresh) hP h
      | none =>
        rw [hfresh] at h
        simp only [Option.isSome_none, Bool.false_eq_true, if_false] at h
        obtain ⟨hseenm, hB2, hrel2⟩ := pop_fresh_facts g w S c hI hpop hfresh
        by_cases htv : tgt = some m.node_name
        · rw [if_pos htv] at h
          simp only [Option.some.injEq, Except.ok.injEq] at h
          subst h
          exact hP
        · rw [if_neg htv] at h
          cases hexp : expand g w c fo m.node_name
              (get_successors_or_neighbors g m.node_name)
              { st with fringe := rest, dist := (m.node_name, -m.distance) :: st.dist, pops := st.pops ++ [(m.node_name, -m.distance)] } with
          | error e => rw [hexp] at h; cases h
          | ok st3 =>
            rw [hexp] at h
            have hI3 : Inv g w S c st3 := by
              refine expand_inv g w S c fo _ _ hB2 (alookup_cons_self _ _ _) ?_ ?_
                (fun y hy => hy) hexp
              · exact hrel2
              · intro y hy hynr _
                exact absurd hy hynr
            have hvp2 : (alookup ({ st with fringe := rest, dist := (m.node_name, -m.distance) :: st.dist, pops := st.pops ++ [(m.node_name, -m.distance)] } : DState T K).paths m.node_name).isSome := by
              obtain ⟨ps, hps, _, _⟩ := hB2.seen_paths m.node_name (-m.distance)
                (hB2.dist_seen m.node_name (-m.distance) (alookup_cons_self _ _ _))
              rw [hps]
              rfl
            have hP3 : PInv st3 :=
              expand_PInv g w c fo _ (alookup_cons_self _ _ _) hvp2 hfo hP hexp
            exact ih st3 hI3 hP3 h

theorem initState_PInv : PInv (initState S : DState T K) := by
  intro x ps hx
  rw [show (initState S : DState T K).paths = S.map (fun s => (s, [[s]])) from rfl,
    alookup_map_self] at hx
  by_cases hxS : x ∈ S
  · rw [if_pos hxS] at hx
    exact ⟨[x], by simpa using hx.symm⟩
  · rw [if_neg hxS] at hx
    cases hx

/-- With `first_only = true` every returned entry carries exactly one
path. -/
theorem multi_source_first_only_singleton {tgt : Option T} {fuel : Nat}
    {m : List (T × ShortestPathInfo T K)}
    (h : multi_source g w S tgt c true fuel = some (Except.ok m)) :
    ∀ x info, alookup m x = some info → ∃ p, info.paths = [p] := by
  obtain ⟨hw, st', hrun, hm⟩ := multi_source_ok_elim g w S c true h
  have hB : BInv g w S c st' :=
    (runDijkstra_inv g w S c true fuel _ (initState_Inv g w S c) hrun).1
  have hP : PInv st' :=
    runDijkstra_PInv g w S c true rfl fuel _ (initState_Inv g w S c)
      (initState_PInv S) hrun
  intro x info hx
  have hx' : alookup (get_shortest_path_infos st'.dist st'.paths) x = some info := by
    cases tgt with
    | none =>
      rw [hm] at hx
      exact hx
    | some t =>
      rw [hm, alookup_filter_key] at hx
      by_cases hxt : x = t
      · subst hxt
        rw [if_pos rfl] at hx
        exact hx
      · rw [if_neg hxt] at hx
        cases hx
  rw [alookup_get_shortest_path_infos] at hx'
  cases hdx : alookup st'.dist x with
  | none =>
    rw [hdx] at hx'
    cases hx'
  | some dx =>
    rw [hdx] at hx'
    simp only [Option.map_some', Option.some.injEq] at hx'
    obtain ⟨ps, hps, _, _⟩ := hB.seen_paths x dx (hB.dist_seen x dx hdx)
    obtain ⟨p, hp⟩ := hP x ps hps
    refine ⟨p, ?_⟩
    rw [← hx']
    simp only
    rw [hps, hp]
    rfl

end FirstOnly


/-- Counterexample to C6 as stated: on `zeroWeightGraph`
(edges 0→1 (1), 0→2 (1), 1→2 (0)) with `first_only = false`, the returned
entry for target 2 has distance 1 and path list `[[0, 2]]`, yet
`[0, 1, 2]` is also a path from the source to 2 of the same minimal total
cost 1 and is missing from the list: a zero-weight edge hides a tied
minimal path. -/
theorem graphrs_claim_C6_counterexample :
    multi_source zeroWeightGraph true [0] none none false 10 =
      some (Except.ok [(1, { distance := 1, paths := [[0, 1]] }),
        (2, { distance := 1, paths := [[0, 2]] }),
        (0, { distance := 0, paths := [[0]] })]) ∧
    IsPath zeroWeightGraph [0] 2 [0, 1, 2] ∧
    listCost zeroWeightGraph true [0, 1, 2] = 1 ∧
    [0, 1, 2] ∉ [[0, 2]] := by
  refine ⟨by decide, ?_, by decide, by decide⟩
  refine ⟨⟨0, by decide, by decide⟩, by decide, ?_⟩
  exact List.chain'_cons.mpr ⟨by decide, List.chain'_cons.mpr ⟨by decide,
    List.chain'_singleton _⟩⟩


section Complete

variable (g : Graph T K) (w : Bool) (S : List T) (c : Option K) (fo : Bool)



theorem cutoff_exceeded_mono {d d' : K} (hdd : d' ≤ d)
    (h : cutoff_exceeded c d = false) : cutoff_exceeded c d' = false := by
  cases c with
  | none => rfl
  | some cv =>
    rw [cutoff_exceeded_some_false_iff] at h ⊢
    exact hdd.trans h

theorem listCost_nonneg
    (hc0 : ∀ z y, y ∈ get_successors_or_neighbors g z → 0 ≤ get_cost g w z y) :
    ∀ q : List T, List.Chain' (fun x y => y ∈ get_successors_or_neighbors g x) q →
    0 ≤ listCost g w q := by
  intro q
  induction q with
  | nil => intro _; rw [listCost]
  | cons a rest ih =>
    cases rest with
    | nil => intro _; rw [listCost]
    | cons b rest2 =>
      intro hch
      obtain ⟨h1, h2⟩ := List.chain'_cons.mp hch
      rw [listCost]
      exact add_nonneg (hc0 a b h1) (ih h2)

theorem isPath_append_elim {q0 : List T} {x0 x : T}
    (h : IsPath g S x (q0 ++ [x0])) (hq : q0 ≠ []) :
    x = x0 ∧ ∃ z, q0.getLast? = some z ∧ IsPath g S z q0 ∧
      x0 ∈ get_successors_or_neighbors g z := by
  obtain ⟨⟨s, hsS, hhead⟩, hlast, hchain⟩ := h
  have hx0 : x = x0 := by
    rw [show (q0 ++ [x0]).getLast? = some x0 by simp] at hlast
    simpa using hlast.symm
  obtain ⟨z, hz⟩ := Option.isSome_iff_exists.mp
    (List.getLast?_isSome.mpr hq)
  obtain ⟨hc0, _, hrel⟩ := List.chain'_append.mp hchain
  refine ⟨hx0, z, hz, ⟨⟨s, hsS, ?_⟩, hz, hc0⟩, ?_⟩
  · rw [head?_append_singleton hq] at hhead
    exact hhead
  · exact hrel z hz x0 rfl

/-- Walking a source path at a loop head: either its endpoint is finalized
no deeper than the path's cost, or some node of the frontier is tentative
at no more than the path's cost. -/
theorem frontier_walk {st : DState T K}
    (hI : Inv g w S c st) (hS : SourceInv S st)
    (hc0 : ∀ z y, y ∈ get_successors_or_neighbors g z → 0 ≤ get_cost g w z y) :
    ∀ (q : List T) (x : T), IsPath g S x q →
    cutoff_exceeded c (listCost g w q) = false →
    (∃ dx, alookup st.dist x = some dx ∧ dx ≤ listCost g w q) ∨
    (∃ y sy, alookup st.dist y = none ∧ alookup st.seen y = some sy ∧
      sy ≤ listCost g w q) := by
  intro q
  induction q using List.reverseRecOn with
  | nil =>
    intro x hx _
    obtain ⟨⟨s, _, hh⟩, _, _⟩ := hx
    cases hh
  | append_singleton q0 x0 ih =>
    intro x hx hcut
    by_cases hq0 : q0 = []
    · subst hq0
      obtain ⟨⟨s, hsS, hh⟩, hlast, _⟩ := hx
      have hsx0 : s = x0 := by simpa using hh.symm
      have hxx0 : x = x0 := by simpa using hlast.symm
      subst hsx0
      subst hxx0
      have hcost0 : listCost g w ([] ++ [x]) = 0 := rfl
      have hseen0 := hS.src_seen x hsS
      cases hdx : alookup st.dist x with
      | some dx =>
        left
        refine ⟨dx, rfl, ?_⟩
        have hds := hI.dist_seen x dx hdx
        rw [hseen0] at hds
        have hd0 : dx = 0 := by simpa using hds.symm
        rw [hd0, hcost0]
      | none =>
        right
        exact ⟨x, 0, hdx, hseen0, le_of_eq hcost0.symm⟩
    · obtain ⟨hxx0, z, hzlast, hzpath, hadj⟩ := isPath_append_elim g S hx hq0
      subst hxx0
      have hcost_eq := listCost_append_singleton g w hzlast x
      have hstep := hc0 z x hadj
      have hq0le : listCost g w q0 ≤ listCost g w (q0 ++ [x]) := by
        rw [hcost_eq]
        exact le_add_of_nonneg_right hstep
      have hq0cut : cutoff_exceeded c (listCost g w q0) = false :=
        cutoff_exceeded_mono c hq0le hcut
      rcases ih z hzpath hq0cut with ⟨dz, hdz, hdzle⟩ | ⟨y, sy, h1, h2, h3⟩
      · have hguard : cutoff_exceeded c (dz + get_cost g w z x) = false := by
          refine cutoff_exceeded_mono c ?_ hcut
          rw [hcost_eq]
          exact add_le_add_right hdzle _
        rcases hI.relaxed z dz hdz x hadj hguard with
          ⟨dy, hdy, hdyle⟩ | ⟨hdn, sy, hsy, hsyle⟩
        · left
          refine ⟨dy, hdy, ?_⟩
          rw [hcost_eq]
          exact hdyle.trans (add_le_add_right hdzle _)
        · right
          refine ⟨x, sy, hdn, hsy, ?_⟩
          rw [hcost_eq]
          exact hsyle.trans (add_le_add_right hdzle _)
      · exact Or.inr ⟨y, sy, h1, h2, h3.trans hq0le⟩

/-- At a fresh pop with strictly positive costs, the popped value is the
true minimal distance and the node's tentative path set already holds
every minimal path. -/
theorem pop_fresh_complete {st : DState T K} {m : FringeNode T K}
    {rest : List (FringeNode T K)}
    (hI : Inv g w S c st) (hS : SourceInv S st) (hC : CInv g w S c st)
    (hcpos : ∀ z y, y ∈ get_successors_or_neighbors g z → 0 < get_cost g w z y)
    (hpop : popMax st.fringe = some (m, rest))
    (hfresh : alookup st.dist m.node_name = none) :
    MinD g w S m.node_name (-m.distance) ∧
    (∀ q, IsPath g S m.node_name q → listCost g w q = -m.distance →
      q ∈ (alookup st.paths m.node_name).getD []) := by
  have hc0 : ∀ z y, y ∈ get_successors_or_neighbors g z → 0 ≤ get_cost g w z y :=
    fun z y hy => (hcpos z y hy).le
  obtain ⟨hseenv, _, _⟩ := pop_fresh_facts g w S c hI hpop hfresh
  -- lower bound on every path cost
  have hmin : ∀ q, IsPath g S m.node_name q → -m.distance ≤ listCost g w q := by
    intro q hq
    by_cases hqcut : cutoff_exceeded c (listCost g w q) = false
    · rcases frontier_walk g w S c hI hS hc0 q m.node_name hq hqcut with
        ⟨dx, hdx, _⟩ | ⟨y, sy, hyn, hys, hyle⟩
      · rw [hfresh] at hdx
        cases hdx
      · obtain ⟨e, he, hen, hed⟩ := hI.tentative_entry y sy hys hyn
        have hmine := popMax_min_distance hpop e he
        rw [hed] at hmine
        exact hmine.trans hyle
    · -- the path is pruned by the cutoff, which bounds the popped value
      cases hc : c with
      | none => rw [hc] at hqcut; exact absurd rfl hqcut
      | some cv =>
        rw [hc] at hqcut
        have hqgt : cv < listCost g w q := by
          by_contra hle
          exact hqcut ((cutoff_exceeded_some_false_iff cv _).mpr (not_lt.mp hle))
        rcases hI.fringe_cut m (popMax_mem hpop) with hok | ⟨_, hzero⟩
        · rw [hc, cutoff_exceeded_some_false_iff] at hok
          exact hok.trans hqgt.le
        · rw [hzero]
          exact listCost_nonneg g w hc0 q hq.2.2
  have hex : ∃ p, IsPath g S m.node_name p ∧ listCost g w p = -m.distance := by
    obtain ⟨ps, hps, hpsne, hall⟩ := hI.seen_paths m.node_name (-m.distance) hseenv
    obtain ⟨p, hp⟩ := List.exists_mem_of_ne_nil ps hpsne
    obtain ⟨⟨a, haS, hhead⟩, hlast, hchain, hcost⟩ := hall p hp
    exact ⟨p, ⟨⟨a, haS, hhead⟩, hlast, hchain⟩, hcost⟩
  refine ⟨⟨hex, hmin⟩, ?_⟩
  -- completeness of the tentative path set at the pop
  intro q hq hqc
  rcases List.eq_nil_or_concat q with rfl | ⟨q0, a, rfl⟩
  · obtain ⟨⟨s, _, hh⟩, _, _⟩ := hq
    cases hh
  · rw [List.concat_eq_append] at hq hqc ⊢
    have hlasta : a = m.node_name := by
      have := hq.2.1
      rw [show (q0 ++ [a]).getLast? = some a by simp] at this
      simpa using this
    subst hlasta
    by_cases hq0 : q0 = []
    · -- the one-node path of a source
      subst hq0
      obtain ⟨⟨s, hsS, hh⟩, _, _⟩ := hq
      have hsm : s = m.node_name := by simpa using hh.symm
      subst hsm
      rw [hS.src_paths m.node_name hsS]
      have : ([] : List T) ++ [m.node_name] = [m.node_name] := rfl
      rw [this]
      exact List.mem_singleton.mpr rfl
    · obtain ⟨_, z, hzlast, hzpath, hadj⟩ := isPath_append_elim g S hq hq0
      have hcost_eq := listCost_append_singleton g w hzlast m.node_name
      rw [hcost_eq] at hqc
      -- the popped value is not beyond the cutoff
      have hdvcut : cutoff_exceeded c (-m.distance) = false := by
        rcases hI.fringe_cut m (popMax_mem hpop) with hok | ⟨_, hzero⟩
        · exact hok
        · -- a multi-node path cannot cost 0 with strictly positive costs
          exfalso
          have hq0nonneg : 0 ≤ listCost g w q0 :=
            listCost_nonneg g w hc0 q0 hzpath.2.2
          have hgt : 0 < listCost g w q0 + get_cost g w z m.node_name :=
            add_pos_of_nonneg_of_pos hq0nonneg (hcpos z m.node_name hadj)
          rw [hqc, hzero] at hgt
          exact lt_irrefl 0 hgt
      have hq0cut : cutoff_exceeded c (listCost g w q0) = false := by
        refine cutoff_exceeded_mono c ?_ hdvcut
        rw [← hqc]
        exact le_add_of_nonneg_right (hcpos z m.node_name hadj).le
      -- the predecessor is already finalized
      have hzdist : ∃ dz, alookup st.dist z = some dz := by
        rcases frontier_walk g w S c hI hS hc0 q0 z hzpath hq0cut with
          ⟨dz, hdz, _⟩ | ⟨y, sy, hyn, hys, hyle⟩
        · exact ⟨dz, hdz⟩
        · exfalso
          obtain ⟨e, he, hen, hed⟩ := hI.tentative_entry y sy hys hyn
          have hmine := popMax_min_distance hpop e he
          rw [hed] at hmine
          have h1 : -m.distance ≤ listCost g w q0 := hmine.trans hyle
          have h2 : listCost g w q0 < -m.distance := by
            rw [← hqc]
            exact lt_add_of_pos_right _ (hcpos z m.node_name hadj)
          exact absurd h1 (not_le.mpr h2)
      obtain ⟨dz, hdz⟩ := hzdist
      -- the prefix is itself minimal: its cost equals the finalized distance
      have hzmin := hC.dist_min z dz hdz
      have h1 : dz ≤ listCost g w q0 := hzmin.2 q0 hzpath
      have h2 : listCost g w q0 ≤ dz := by
        by_contra hgt
        obtain ⟨r, hr, hrc⟩ := hzmin.1
        have hrq : IsPath g S m.node_name (r ++ [m.node_name]) := by
          have hrne : r ≠ [] := by
            intro habs
            subst habs
            obtain ⟨⟨s2, _, hh2⟩, _, _⟩ := hr
            cases hh2
          obtain ⟨⟨a2, ha2, hh2⟩, hl2, hch2⟩ := hr
          refine ⟨⟨a2, ha2, ?_⟩, by simp, chain'_append_adj hch2 hl2 hadj⟩
          rw [head?_append_singleton hrne]
          exact hh2
        have hrqc := listCost_append_singleton g w hr.2.1 m.node_name
        have hlt : listCost g w (r ++ [m.node_name]) < -m.distance := by
          rw [hrqc, hrc, ← hqc]
          exact add_lt_add_right (not_le.mp hgt) _
        exact absurd (hmin _ hrq) (not_le.mpr hlt)
      have hzeq : dz = listCost g w q0 := le_antisymm h1 h2
      exact hC.tent_complete m.node_name (-m.distance) hseenv hfresh hdvcut z q0
        hzpath (by rw [← hzeq]; exact hdz) hadj hqc

end Complete


section CompleteExpand

variable (g : Graph T K) (w : Bool) (S : List T) (c : Option K) (fo : Bool)

/-- Case analysis of a successful `relax` when `first_only = false`: in the
unchanged tentative case the existing tentative distance is strictly
better (an equal candidate would have merged). -/
theorem relax_ok_elim_nfo {v u : T} {st st' : DState T K} (hfo : fo = false)
    (h : relax g w c fo v u st = Except.ok st') :
    (st' = st ∧
      (cutoff_exceeded c ((alookup st.dist v).getD 0 + get_cost g w v u) = true ∨
       (∃ du, alookup st.dist u = some du ∧
          du ≤ (alookup st.dist v).getD 0 + get_cost g w v u) ∨
       (alookup st.dist u = none ∧ ∃ su, alookup st.seen u = some su ∧
          su < (alookup st.dist v).getD 0 + get_cost g w v u))) ∨
    (cutoff_exceeded c ((alookup st.dist v).getD 0 + get_cost g w v u) = false ∧
     alookup st.dist u = none ∧
     (st' = extendState u v ((alookup st.dist v).getD 0 + get_cost g w v u) st ∧
        (alookup st.seen u = none ∨
         ∃ s, alookup st.seen u = some s ∧
          (alookup st.dist v).getD 0 + get_cost g w v u < s) ∨
      st' = mergeState u v ((alookup st.dist v).getD 0 + get_cost g w v u) st ∧
        alookup st.seen u = some ((alookup st.dist v).getD 0 + get_cost g w v u))) := by
  subst hfo
  unfold relax at h
  by_cases hcut : cutoff_exceeded c ((alookup st.dist v).getD 0 + get_cost g w v u) = true
  · simp only [hcut, if_pos] at h
    left
    refine ⟨?_, Or.inl hcut⟩
    simp only [Except.ok.injEq] at h
    exact h.symm
  · rw [Bool.not_eq_true] at hcut
    simp only [hcut, Bool.false_eq_true, if_false] at h
    cases hdu : alookup st.dist u with
    | some du =>
      rw [hdu] at h
      by_cases hlt : (alookup st.dist v).getD 0 + get_cost g w v u < du
      · simp [hlt] at h
      · simp only [hlt, if_neg, if_false, Except.ok.injEq, not_false_iff] at h
        left
        exact ⟨h.symm, Or.inr (Or.inl ⟨du, rfl, not_lt.mp hlt⟩)⟩
    | none =>
      rw [hdu] at h
      cases hsu : alookup st.seen u with
      | none =>
        rw [hsu] at h
        simp only [Except.ok.injEq] at h
        right
        exact ⟨hcut, rfl, Or.inl ⟨h.symm, Or.inl rfl⟩⟩
      | some su =>
        rw [hsu] at h
        by_cases hlt : (alookup st.dist v).getD 0 + get_cost g w v u < su
        · simp only [hlt, if_pos, Except.ok.injEq] at h
          right
          exact ⟨hcut, rfl, Or.inl ⟨h.symm, Or.inr ⟨su, rfl, hlt⟩⟩⟩
        · simp only [hlt, if_neg, if_false, not_false_iff] at h
          by_cases hmerge : ((alookup st.dist v).getD 0 + get_cost g w v u) = su
          · simp only [hmerge, Bool.not_false, Bool.true_and, decide_eq_true_eq,
              if_pos, Except.ok.injEq] at h
            right
            refine ⟨hcut, rfl, Or.inr ⟨?_, by rw [hmerge]⟩⟩
            rw [← h, hmerge]
          · have hnm : (!false && decide ((alookup st.dist v).getD 0 + get_cost g w v u = su)) = false := by
              simp [hmerge]
            rw [hnm] at h
            simp only [Bool.false_eq_true, if_false, Except.ok.injEq] at h
            left
            refine ⟨h.symm, Or.inr (Or.inr ⟨rfl, su, rfl, ?_⟩)⟩
            exact lt_of_le_of_ne (not_lt.mp hlt) (fun habs => hmerge habs.symm)

/-- Expanding the successors of the freshly finalized minimal node `v`
preserves the completeness invariant (`first_only = false`). -/
theorem expand_CInv {v : T} {d : K} :
    ∀ (us : List T) (st : DState T K),
    BInv g w S c st →
    alookup st.dist v = some d →
    (∀ z dz, alookup st.dist z = some dz → z ≠ v → RelaxedAt g w c st z dz) →
    (∀ x dx, alookup st.dist x = some dx → MinD g w S x dx) →
    (∀ x dx, alookup st.dist x = some dx →
      ∀ q, IsPath g S x q → listCost g w q = dx → q ∈ (alookup st.paths x).getD []) →
    (∀ u su, alookup st.seen u = some su → alookup st.dist u = none →
      cutoff_exceeded c su = false →
      ∀ z q', IsPath g S z q' → alookup st.dist z = some (listCost g w q') →
      u ∈ get_successors_or_neighbors g z →
      listCost g w q' + get_cost g w z u = su →
      z ≠ v ∨ u ∉ us →
      q' ++ [u] ∈ (alookup st.paths u).getD []) →
    (∀ y ∈ us, y ∈ get_successors_or_neighbors g v) →
    fo = false →
    ∀ {st' : DState T K}, expand g w c fo v us st = Except.ok st' →
    CInv g w S c st' := by
  intro us
  induction us with
  | nil =>
    intro st hB hvd hrel hmin hcomp htent hus hfo st' h
    rw [expand] at h
    simp only [Except.ok.injEq] at h
    subst h
    exact ⟨hmin, hcomp, fun u su hsu hdu hcu z q' hq hdz hadj hsum =>
      htent u su hsu hdu hcu z q' hq hdz hadj hsum (Or.inr (by simp))⟩
  | cons u0 rest ih =>
    intro st hB hvd hrel hmin hcomp htent hus hfo st' h
    rw [expand] at h
    cases hr : relax g w c fo v u0 st with
    | error e => rw [hr] at h; cases h
    | ok st1 =>
      rw [hr] at h
      have hvu0 : (alookup st.dist v).getD 0 = d := by rw [hvd]; rfl
      have hadj0 : u0 ∈ get_successors_or_neighbors g v := hus u0 (List.mem_cons_self _ _)
      have hvpne : alookup st.paths v ≠ none := by
        obtain ⟨ps, hps, _, _⟩ := hB.seen_paths v d (hB.dist_seen v d hvd)
        rw [hps]
        intro habs
        cases habs
      rcases relax_ok_elim_nfo g w c fo hfo hr with ⟨heq, hwhy⟩ | ⟨hcut, hud, hcase⟩
      · rw [heq] at h
        refine ih st hB hvd hrel hmin hcomp ?_
          (fun y hy => hus y (List.mem_cons_of_mem _ hy)) hfo h
        intro u su hsu hdu hcu z q' hq hdz hadj hsum hside
        rcases hside with hzv | hurest
        · exact htent u su hsu hdu hcu z q' hq hdz hadj hsum (Or.inl hzv)
        · by_cases huu0 : u = u0
          · by_cases hzv : z = v
            · -- this relaxation was skipped, but the obligation is vacuous
              exfalso
              rw [hzv] at hdz hsum
              rw [huu0] at hsu hdu hsum
              have hdq : d = listCost g w q' := by
                rw [hvd] at hdz
                simpa using hdz
              have hsuvu : su = d + get_cost g w v u0 := by
                rw [hdq]
                exact hsum.symm
              rw [hvu0] at hwhy
              rcases hwhy with hcu2 | ⟨du, hdu2, _⟩ | ⟨_, su0, hsu0, hlt⟩
              · rw [← hsuvu, hcu] at hcu2
                cases hcu2
              · rw [hdu] at hdu2
                cases hdu2
              · rw [hsu0] at hsu
                have hss : su0 = su := by simpa using hsu
                rw [hss, ← hsuvu] at hlt
                exact lt_irrefl su hlt
            · exact htent u su hsu hdu hcu z q' hq hdz hadj hsum (Or.inl hzv)
          · refine htent u su hsu hdu hcu z q' hq hdz hadj hsum (Or.inr ?_)
            intro habs
            rcases List.mem_cons.mp habs with h1 | h2
            · exact huu0 h1
            · exact hurest h2
      · rw [hvu0] at hcase
        rcases hcase with ⟨hst1, hseen⟩ | ⟨hst1, hseenvu⟩
        · -- the extend branch
          rw [hst1] at h
          have hB1 := extendState_BInv g w S c hB hvd hud hadj0
            (by rwa [hvu0] at hcut) hseen
          refine ih _ hB1 (by rw [extendState_dist]; exact hvd) ?_ ?_ ?_ ?_
            (fun y hy => hus y (List.mem_cons_of_mem _ hy)) hfo h
          · intro z dz hz hzv
            rw [extendState_dist] at hz
            exact relaxedAt_extend_lift g w c hud hseen (hrel z dz hz hzv)
          · intro x dx hx
            rw [extendState_dist] at hx
            exact hmin x dx hx
          · intro x dx hx q hq hqc
            rw [extendState_dist] at hx
            have hxu : x ≠ u0 := by
              intro habs
              subst habs
              rw [hud] at hx
              cases hx
            rw [extendState_paths_lookup, if_neg hxu,
              if_neg (fun hand => hvpne hand.1)]
            exact hcomp x dx hx q hq hqc
          · intro u su hsu hdu hcu z q' hq hdz hadj hsum hside
            rw [extendState_dist] at hdu hdz
            by_cases huu0 : u = u0
            · rw [huu0] at hsu hdu hadj hsum ⊢
              rw [extendState_seen_lookup, if_pos rfl] at hsu
              have hsuvu : d + get_cost g w v u0 = su := by simpa using hsu
              by_cases hzv : z = v
              · rw [hzv] at hdz hq
                have hdq : d = listCost g w q' := by
                  rw [hvd] at hdz
                  simpa using hdz
                have hmem : q' ∈ (alookup st.paths v).getD [] :=
                  hcomp v d hvd q' hq hdq.symm
                rw [extendState_paths_lookup, if_pos rfl, Option.getD_some]
                exact List.mem_map.mpr ⟨q', hmem, rfl⟩
              · exfalso
                have hrelz := hrel z (listCost g w q') hdz hzv
                have hguard : cutoff_exceeded c
                    (listCost g w q' + get_cost g w z u0) = false := by
                  rw [hsum]
                  exact hcu
                rcases hrelz u0 hadj hguard with ⟨dy, hdy, _⟩ | ⟨_, sy, hsy, hle⟩
                · rw [hdu] at hdy
                  cases hdy
                · rw [hsum] at hle
                  rcases hseen with hnone | ⟨s0, hs0, hlt⟩
                  · rw [hnone] at hsy
                    cases hsy
                  · rw [hs0] at hsy
                    have hss : sy = s0 := by simpa using hsy.symm
                    rw [hss] at hle
                    rw [hsuvu] at hlt
                    exact absurd hle (not_le.mpr hlt)
            · have hsu2 : alookup st.seen u = some su := by
                rw [extendState_seen_lookup, if_neg huu0] at hsu
                exact hsu
              rw [extendState_paths_lookup, if_neg huu0,
                if_neg (fun hand => hvpne hand.1)]
              refine htent u su hsu2 hdu hcu z q' hq hdz hadj hsum ?_
              rcases hside with hzv | hurest
              · exact Or.inl hzv
              · refine Or.inr (fun habs => ?_)
                rcases List.mem_cons.mp habs with h1 | h2
                · exact huu0 h1
                · exact hurest h2
        · -- the merge branch
          rw [hst1] at h
          have hB1 := mergeState_BInv g w S c hB hvd hud hadj0
            (by rwa [hvu0] at hcut) hseenvu
          refine ih _ hB1 (by rw [mergeState_dist]; exact hvd) ?_ ?_ ?_ ?_
            (fun y hy => hus y (List.mem_cons_of_mem _ hy)) hfo h
          · intro z dz hz hzv
            rw [mergeState_dist] at hz
            exact relaxedAt_merge_lift g w c (hrel z dz hz hzv)
          · intro x dx hx
            rw [mergeState_dist] at hx
            exact hmin x dx hx
          · intro x dx hx q hq hqc
            rw [mergeState_dist] at hx
            have hxu : x ≠ u0 := by
              intro habs
              subst habs
              rw [hud] at hx
              cases hx
            rw [mergeState_paths_lookup, if_neg hxu]
            exact hcomp x dx hx q hq hqc
          · intro u su hsu hdu hcu z q' hq hdz hadj hsum hside
            rw [mergeState_dist] at hdu hdz
            by_cases huu0 : u = u0
            · rw [huu0] at hsu hdu hadj hsum ⊢
              rw [show (mergeState u0 v (d + get_cost g w v u0) st).seen = st.seen
                from mergeState_seen _ _ _ _] at hsu
              rw [mergeState_paths_lookup, if_pos rfl, Option.getD_some]
              by_cases hzv : z = v
              · rw [hzv] at hdz hq
                have hdq : d = listCost g w q' := by
                  rw [hvd] at hdz
                  simpa using hdz
                have hmem : q' ∈ (alookup st.paths v).getD [] :=
                  hcomp v d hvd q' hq hdq.symm
                exact List.mem_append_right _ (List.mem_map.mpr ⟨q', hmem, rfl⟩)
              · have hold := htent u0 su hsu hdu hcu z q' hq hdz hadj hsum (Or.inl hzv)
                exact List.mem_append_left _ hold
            · have hsu2 : alookup st.seen u = some su := by
                rw [show (mergeState u0 v (d + get_cost g w v u0) st).seen = st.seen
                  from mergeState_seen _ _ _ _] at hsu
                exact hsu
              rw [mergeState_paths_lookup, if_neg huu0]
              refine htent u su hsu2 hdu hcu z q' hq hdz hadj hsum ?_
              rcases hside with hzv | hurest
              · exact Or.inl hzv
              · refine Or.inr (fun habs => ?_)
                rcases List.mem_cons.mp habs with h1 | h2
                · exact huu0 h1
                · exact hurest h2

end CompleteExpand


section CompleteRun

variable (g : Graph T K) (w : Bool) (S : List T) (c : Option K) (fo : Bool)

/-- The search loop keeps finalized distances minimal and finalized path
sets complete (`first_only = false`, strictly positive costs). -/
theorem runDijkstra_CInv {tgt : Option T}
    (hcpos : ∀ z y, y ∈ get_successors_or_neighbors g z → 0 < get_cost g w z y)
    (hfo : fo = false) :
    ∀ (fuel : Nat) (st : DState T K),
    Inv g w S c st → SourceInv S st → CInv g w S c st →
    ∀ {r : DState T K}, runDijkstra g w tgt c fo fuel st = some (Except.ok r) →
    (∀ x dx, alookup r.dist x = some dx → MinD g w S x dx) ∧
    (∀ x dx, alookup r.dist x = some dx →
      ∀ q, IsPath g S x q → listCost g w q = dx →
      q ∈ (alookup r.paths x).getD []) := by
  intro fuel
  induction fuel with
  | zero =>
    intro st hI hS hC r h
    rw [runDijkstra] at h
    by_cases hfr : st.fringe.isEmpty
    · rw [if_pos hfr] at h
      simp only [Option.some.injEq, Except.ok.injEq] at h
      subst h
      exact ⟨hC.dist_min, hC.dist_complete⟩
    · rw [if_neg hfr] at h
      cases h
  | succ fuel ih =>
    intro st hI hS hC r h
    rw [runDijkstra] at h
    cases hpop : popMax st.fringe with
    | none =>
      rw [hpop] at h
      simp only [Option.some.injEq, Except.ok.injEq] at h
      subst h
      exact ⟨hC.dist_min, hC.dist_complete⟩
    | some p =>
      obtain ⟨m, rest⟩ := p
      rw [hpop] at h
      simp only at h
      cases hfresh : alookup st.dist m.node_name with
      | some dm =>
        rw [hfresh] at h
        simp only [Option.isSome_some, if_pos] at h
        exact ih _ (Inv_pop_stale g w S c hI hpop hfresh)
          ⟨hS.seen_nonneg, hS.src_seen, hS.src_paths⟩
          ⟨hC.dist_min, hC.dist_complete, hC.tent_complete⟩ h
      | none =>
        rw [hfresh] at h
        simp only [Option.isSome_none, Bool.false_eq_true, if_false] at h
        obtain ⟨hseenm, hB2, hrel2⟩ := pop_fresh_facts g w S c hI hpop hfresh
        obtain ⟨hmindv, hcompv⟩ :=
          pop_fresh_complete g w S c hI hS hC hcpos hpop hfresh
        have hmin2 : ∀ x dx,
            alookup ((m.node_name, -m.distance) :: st.dist) x = some dx →
            MinD g w S x dx := by
          intro x dx hx
          by_cases hxm : x = m.node_name
          · subst hxm
            rw [alookup_cons_self] at hx
            have hdx : dx = -m.distance := by simpa using hx.symm
            rw [hdx]
            exact hmindv
          · rw [alookup_cons_ne _ _ hxm] at hx
            exact hC.dist_min x dx hx
        have hcomp2 : ∀ x dx,
            alookup ((m.node_name, -m.distance) :: st.dist) x = some dx →
            ∀ q, IsPath g S x q → listCost g w q = dx →
            q ∈ (alookup st.paths x).getD [] := by
          intro x dx hx q hq hqc
          by_cases hxm : x = m.node_name
          · subst hxm
            rw [alookup_cons_self] at hx
            have hdx : dx = -m.distance := by simpa using hx.symm
            rw [hdx] at hqc
            exact hcompv q hq hqc
          · rw [alookup_cons_ne _ _ hxm] at hx
            exact hC.dist_complete x dx hx q hq hqc
        by_cases htv : tgt = some m.node_name
        · rw [if_pos htv] at h
          simp only [Option.some.injEq, Except.ok.injEq] at h
          subst h
          exact ⟨hmin2, hcomp2⟩
        · rw [if_neg htv] at h
          cases hexp : expand g w c fo m.node_name
              (get_successors_or_neighbors g m.node_name)
              { st with fringe := rest, dist := (m.node_name, -m.distance) :: st.dist, pops := st.pops ++ [(m.node_name, -m.distance)] } with
          | error e => rw [hexp] at h; cases h
          | ok st3 =>
            rw [hexp] at h
            have hI3 : Inv g w S c st3 := by
              refine expand_inv g w S c fo _ _ hB2 (alookup_cons_self _ _ _) ?_ ?_
                (fun y hy => hy) hexp
              · exact hrel2
              · intro y hy hynr _
                exact absurd hy hynr
            have hS3 : SourceInv S st3 := by
              refine expand_SourceInv g w S c fo _ hB2 (alookup_cons_self _ _ _) ?_ ?_
                (fun y hy => hy) (fun y hy => hcpos m.node_name y hy)
                ⟨hS.seen_nonneg, hS.src_seen, hS.src_paths⟩ hexp
              · exact hrel2
              · intro y hy hynr _
                exact absurd hy hynr
            have hC3 : CInv g w S c st3 := by
              refine expand_CInv g w S c fo _ _ hB2 (alookup_cons_self _ _ _)
                hrel2 hmin2 hcomp2 ?_ (fun y hy => hy) hfo hexp
              intro u su hsu hdu hcu z q' hq hdz hadj hsum hside
              have hum : u ≠ m.node_name := by
                intro habs
                rw [habs, alookup_cons_self] at hdu
                cases hdu
              have hdu' : alookup st.dist u = none := by
                rw [alookup_cons_ne _ _ hum] at hdu
                exact hdu
              by_cases hzv : z = m.node_name
              · exfalso
                rcases hside with hne | hadjn
                · exact hne hzv
                · rw [hzv] at hadj
                  exact hadjn hadj
              · have hdz' : alookup st.dist z = some (listCost g w q') := by
                  rw [alookup_cons_ne _ _ hzv] at hdz
                  exact hdz
                exact hC.tent_complete u su hsu hdu' hcu z q' hq hdz' hadj hsum
            exact ih st3 hI3 hS3 hC3 h

end CompleteRun



section CompleteFinal

variable (g : Graph T K) (w : Bool) (S : List T) (c : Option K) (fo : Bool)

theorem initState_SourceInv : SourceInv S (initState S : DState T K) := by
  refine ⟨?_, ?_, ?_⟩
  · intro u s hu
    rw [initState_seen_lookup] at hu
    by_cases huS : u ∈ S
    · rw [if_pos huS] at hu
      have hs0 : s = 0 := by simpa using hu.symm
      rw [hs0]
    · rw [if_neg huS] at hu
      cases hu
  · intro s hs
    rw [initState_seen_lookup, if_pos hs]
  · intro s hs
    rw [initState_paths_lookup, if_pos hs]

theorem initState_CInv : CInv g w S c (initState S : DState T K) := by
  refine ⟨?_, ?_, ?_⟩
  · intro x dx hx
    rw [show (initState S : DState T K).dist = [] from rfl, alookup_nil] at hx
    cases hx
  · intro x dx hx
    rw [show (initState S : DState T K).dist = [] from rfl, alookup_nil] at hx
    cases hx
  · intro u su _ _ _ z q' _ hdz
    rw [show (initState S : DState T K).dist = [] from rfl, alookup_nil] at hdz
    cases hdz

/-- With `first_only = false` and strictly positive edge weights, every
returned distance is the true minimum over search paths, and every search
path attaining it is listed. -/
theorem multi_source_complete {tgt : Option T} {fuel : Nat}
    {m : List (T × ShortestPathInfo T K)}
    (hpos : ∀ e ∈ g.edges, ∀ k, e.weight = some k → 0 < k)
    (h : multi_source g w S tgt c false fuel = some (Except.ok m)) :
    ∀ x info, alookup m x = some info →
      (∀ q, IsPath g S x q → info.distance ≤ listCost g w q) ∧
      (∀ q, IsPath g S x q → listCost g w q = info.distance → q ∈ info.paths) := by
  obtain ⟨hw, st', hrun, hm⟩ := multi_source_ok_elim g w S c false h
  have hww : w = true → edges_have_weight g = true := by
    intro hwt
    rw [hwt] at hw
    simpa using hw
  have hcpos : ∀ z y, y ∈ get_successors_or_neighbors g z → 0 < get_cost g w z y := by
    intro z y hy
    exact get_cost_pos g w hpos hww z y hy
  obtain ⟨hmin, hcomp⟩ := runDijkstra_CInv g w S c false hcpos rfl fuel _
    (initState_Inv g w S c) (initState_SourceInv S) (initState_CInv g w S c) hrun
  intro x info hx
  have hx' : alookup (get_shortest_path_infos st'.dist st'.paths) x = some info := by
    cases tgt with
    | none =>
      rw [hm] at hx
      exact hx
    | some t =>
      rw [hm, alookup_filter_key] at hx
      by_cases hxt : x = t
      · subst hxt
        rw [if_pos rfl] at hx
        exact hx
      · rw [if_neg hxt] at hx
        cases hx
  rw [alookup_get_shortest_path_infos] at hx'
  cases hdx : alookup st'.dist x with
  | none =>
    rw [hdx] at hx'
    cases hx'
  | some dx =>
    rw [hdx] at hx'
    simp only [Option.map_some', Option.some.injEq] at hx'
    constructor
    · intro q hq
      have hle := (hmin x dx hdx).2 q hq
      rw [← hx']
      exact hle
    · intro q hq hqc
      rw [← hx'] at hqc
      have hmem := hcomp x dx hdx q hq hqc
      rw [← hx']
      exact hmem

end CompleteFinal

/-- C6 amended: with `first_only = true` every returned target carries
exactly one path (any weights); with `first_only = false` and strictly
positive edge weights, each returned distance is the minimal search-path
cost and EVERY search path of that minimal cost is listed — but with a
zero-weight edge a tied minimal path can be silently dropped (see the
counterexample). -/
theorem graphrs_claim_C6_amended :
    (∀ (g : Graph T K) (w : Bool) (S : List T) (tgt : Option T) (c : Option K)
      (fuel : Nat) (m : List (T × ShortestPathInfo T K)),
      multi_source g w S tgt c true fuel = some (Except.ok m) →
      ∀ x info, alookup m x = some info → ∃ p, info.paths = [p]) ∧
    (∀ (g : Graph T K) (w : Bool) (S : List T) (tgt : Option T) (c : Option K)
      (fuel : Nat) (m : List (T × ShortestPathInfo T K)),
      (∀ e ∈ g.edges, ∀ k, e.weight = some k → 0 < k) →
      multi_source g w S tgt c false fuel = some (Except.ok m) →
      ∀ x info, alookup m x = some info →
        (∀ q, IsPath g S x q → info.distance ≤ listCost g w q) ∧
        (∀ q, IsPath g S x q → listCost g w q = info.distance → q ∈ info.paths)) :=
  ⟨fun g w S tgt c fuel m h => multi_source_first_only_singleton g w S c h,
   fun g w S tgt c fuel m hpos h => multi_source_complete g w S c hpos h⟩

/-- Witness for the amended C6: a `first_only = true` query on the doc
example yields a single path, and the diamond query lists the tied path
`[0, 1, 3]` for target 3. -/
theorem graphrs_claim_C6_witness :
    (∃ p, ({ distance := 21, paths := [[1, 2, 3]] } : ShortestPathInfo ℕ ℤ).paths = [p]) ∧
    [0, 1, 3] ∈ ({ distance := 2, paths := [[0, 2, 3], [0, 1, 3]] } : ShortestPathInfo ℕ ℤ).paths := by
  constructor
  · exact graphrs_claim_C6_amended.1 exampleGraph true [1] none none 10
      [(3, { distance := 21, paths := [[1, 2, 3]] }),
       (2, { distance := 10, paths := [[1, 2]] }),
       (1, { distance := 0, paths := [[1]] })]
      (by decide) 3 { distance := 21, paths := [[1, 2, 3]] } (by decide)
  · have hp : IsPath diamondGraph [0] 3 [0, 1, 3] := by
      refine ⟨⟨0, by decide, by decide⟩, by decide, ?_⟩
      exact List.chain'_cons.mpr ⟨by decide, List.chain'_cons.mpr ⟨by decide,
        List.chain'_singleton _⟩⟩
    exact (graphrs_claim_C6_amended.2 diamondGraph true [0] none none 10
      [(3, { distance := 2, paths := [[0, 2, 3], [0, 1, 3]] }),
       (1, { distance := 1, paths := [[0, 1]] }),
       (2, { distance := 1, paths := [[0, 2]] }),
       (0, { distance := 0, paths := [[0]] })]
      (by decide) (by decide) 3 { distance := 2, paths := [[0, 2, 3], [0, 1, 3]] }
      (by decide)).2 [0, 1, 3] hp (by decide)

end Graphrs
